import Mathlib

/-!
Verification of the KUDO plan execution engine
(`pkg/controller/instance/plan_execution_engine.go` and the kustomize
enhancer `kustomize_enhancer.go`).

The Go code is shallowly embedded: the single mutable status tree (the
`PlanStatus.Phases` backing array, shared between the caller's object and
the shallow working copy made at the top of `executePlan`) is threaded as
an explicit list of `PhaseStatus` values, pointer writes become
first-match-by-name list updates, and a `nil`-pointer dereference is
modelled by an explicit `crash` outcome / `none` result.  External
collaborators (the kubernetes client, the health oracle, the template
engine and the enhancer interface) are parameters, as they are interfaces
or out-of-scope packages in the source.
-/

/-- Execution status of a plan / phase / step node
(`v1alpha1.ExecutionStatus`; the enumeration is given by the spec's data
model and by the constants the engine file references). -/
inductive ExecutionStatus where
  | executionInProgress
  | executionPending
  | executionComplete
  | errorStatus
  | executionFatalError
deriving DecidableEq, Repr

/-- Step of a phase (`v1alpha1.Step`): name, delete flag, task references. -/
structure Step where
  name : String
  delete : Bool
  tasks : List String
deriving DecidableEq, Repr

/-- Phase execution strategy (`v1alpha1.Serial` / `v1alpha1.Parallel`). -/
inductive Strategy where
  | serial
  | parallel
deriving DecidableEq, Repr

/-- Phase of a plan (`v1alpha1.Phase`). -/
structure Phase where
  name : String
  strategy : Strategy
  steps : List Step
deriving DecidableEq, Repr

/-- Plan spec (`v1alpha1.Plan`): ordered phases. -/
structure Plan where
  phases : List Phase
deriving DecidableEq, Repr

/-- Task spec (`v1alpha1.TaskSpec`): ordered resource keys into the
template catalog. -/
structure TaskSpec where
  resources : List String
deriving DecidableEq, Repr

/-- Status of one step (`v1alpha1.StepStatus`). -/
structure StepStatus where
  name : String
  status : ExecutionStatus
deriving DecidableEq, Repr

/-- Status of one phase (`v1alpha1.PhaseStatus`). -/
structure PhaseStatus where
  name : String
  status : ExecutionStatus
  steps : List StepStatus
deriving DecidableEq, Repr

/-- Status of the whole plan (`v1alpha1.PlanStatus`).  `phases` is the
shared backing array of the Go slice. -/
structure PlanStatus where
  status : ExecutionStatus
  phases : List PhaseStatus
deriving DecidableEq, Repr

/-- The `activePlan` struct of the engine: name, current status, spec,
task catalog, template catalog and parameter bindings.  The two Go maps
are embedded as association lists (`plan.Tasks[t]` / `plan.Templates[res]`
are first-match lookups). -/
structure activePlan where
  name : String
  planStatus : PlanStatus
  spec : Plan
  tasks : List (String × TaskSpec)
  templates : List (String × String)
  params : List (String × String)
deriving DecidableEq, Repr

/-- The `executionMetadata` struct.  The resources owner
(`metav1.Object`) is abstracted to its identity. -/
structure executionMetadata where
  instanceName : String
  instanceNamespace : String
  operatorName : String
  operatorVersionName : String
  operatorVersion : String
  resourcesOwner : String
deriving DecidableEq, Repr

/-- First-match association-list lookup (Go map read `m[k]`). -/
def lookupA {α : Type} : List (String × α) → String → Option α
  | [], _ => none
  | (k, v) :: rest, key => if k = key then some v else lookupA rest key

/-- Go map write `m[k] = v`: replace the binding if present, else add it. -/
def insertReplace {α : Type} (key : String) (v : α) : List (String × α) → List (String × α)
  | [] => [(key, v)]
  | (k, w) :: rest => if k = key then (key, v) :: rest else (k, w) :: insertReplace key v rest

/-- Lines 321-328 of the engine, on the steps slice: return (a pointer to)
the first step status with the given name. -/
def getStepOfSteps (stepName : String) : List StepStatus → Option StepStatus
  | [] => none
  | p :: rest => if p.name = stepName then some p else getStepOfSteps stepName rest

/-- The source `getStepFromStatus`: first matching step status of a phase
status, or an (always discarded) error. -/
def getStepFromStatus (stepName : String) (status : PhaseStatus) : Option StepStatus :=
  getStepOfSteps stepName status.steps

/-- The source `getPhaseFromStatus`, on the shared phases array: the first
phase status with the given name. -/
def getPhaseFromStatus (phaseName : String) : List PhaseStatus → Option PhaseStatus
  | [] => none
  | p :: rest => if p.name = phaseName then some p else getPhaseFromStatus phaseName rest

/-- A write through the pointer returned by `getStepFromStatus`: replace
the first step status with the given name. -/
def setStepInSteps (stepName : String) (v : StepStatus) : List StepStatus → List StepStatus
  | [] => []
  | p :: rest => if p.name = stepName then v :: rest else p :: setStepInSteps stepName v rest

/-- A write through the pointer returned by `getPhaseFromStatus`: replace
the first phase status with the given name. -/
def setPhaseInStore (phaseName : String) (v : PhaseStatus) : List PhaseStatus → List PhaseStatus
  | [] => []
  | p :: rest => if p.name = phaseName then v :: rest else p :: setPhaseInStore phaseName v rest

/-- Source lines 339-341: only `ExecutionComplete` is finished. -/
def isFinished (state : ExecutionStatus) : Bool :=
  state = ExecutionStatus.executionComplete

/-- Source lines 343-345: in-progress-ish states. -/
def isInProgress (state : ExecutionStatus) : Bool :=
  state = ExecutionStatus.executionInProgress || state = ExecutionStatus.executionPending
    || state = ExecutionStatus.errorStatus

/-- Modelled from the spec: `v1alpha1.PlanStatus.IsTerminal` lives in the
apis package, not under src/; per the spec a plan status is terminal when
it is `Complete` or `ExecutionFatalError`. -/
def IsTerminal (s : ExecutionStatus) : Bool :=
  s = ExecutionStatus.executionComplete || s = ExecutionStatus.executionFatalError

/-- A kubernetes object as far as the engine observes it: metadata the
enhancer stamps plus identity. -/
structure KObject where
  name : String
  namespaceName : String
  labels : List (String × String)
  annotations : List (String × String)
  ownerController : Option String
deriving DecidableEq, Repr

/-- An error returned by the cluster API, abstracted to the two
predicates the engine consults (`apierrors.IsNotFound`,
`apierrors.IsUnsupportedMediaType`). -/
structure ApiError where
  notFound : Bool
  unsupportedMediaType : Bool
deriving DecidableEq, Repr

/-- The two patch media types the engine sends. -/
inductive PatchType where
  | strategicMerge
  | merge
deriving DecidableEq, Repr

/-- One patch request: target object, patch type, serialized body. -/
structure PatchCall where
  target : KObject
  ptype : PatchType
  body : String
deriving DecidableEq, Repr

/-- A state-changing cluster call issued by the step executor. -/
inductive WriteOp where
  | createOp (o : KObject)
  | patchOp (pc : PatchCall)
  | deleteOp (o : KObject)
deriving DecidableEq, Repr

/-- The cluster client plus the health oracle and JSON serialization, as
one oracle record.  All calls are keyed by the desired object; `fetched`
is the object state a successful `Get` fills in.  A fixed record models
an unchanged cluster. -/
structure KClient where
  getErr : KObject → Option ApiError
  fetched : KObject → KObject
  createErr : KObject → Option ApiError
  patchErr : KObject → PatchType → String → Option ApiError
  deleteErr : KObject → Option ApiError
  healthy : KObject → Bool
  jsonOf : KObject → String

/-- Source lines 200-230: strategic-merge patch of the new object's JSON
onto the existing object; on `UnsupportedMediaType` exactly one retry as
a plain merge patch against the new object.  Returns the error and the
patch calls issued. -/
def patchExistingObject (newResource existingResource : KObject) (c : KClient) :
    Option ApiError × List PatchCall :=
  let body := c.jsonOf newResource
  let firstCall : PatchCall := ⟨existingResource, PatchType.strategicMerge, body⟩
  match c.patchErr existingResource PatchType.strategicMerge body with
  | none => (none, [firstCall])
  | some e =>
    if e.unsupportedMediaType then
      let retryCall : PatchCall := ⟨newResource, PatchType.merge, body⟩
      match c.patchErr newResource PatchType.merge body with
      | none => (none, [firstCall, retryCall])
      | some e2 => (some e2, [firstCall, retryCall])
    else (some e, [firstCall])

/-- The resource loop of `executeStep` (source lines 142-180): returns
whether every health check passed, the first error, and the writes
issued.  `acc` is the running `allHealthy` flag. -/
def execResources (st : Step) (c : KClient) : List KObject → Bool → Bool × Option ApiError × List WriteOp
  | [], acc => (acc, none, [])
  | r :: rest, acc =>
    if st.delete then
      match c.deleteErr r with
      | some e =>
        if e.notFound then
          let (h, er, ws) := execResources st c rest acc
          (h, er, WriteOp.deleteOp r :: ws)
        else (acc, some e, [WriteOp.deleteOp r])
      | none =>
        let (h, er, ws) := execResources st c rest acc
        (h, er, WriteOp.deleteOp r :: ws)
    else
      match c.getErr r with
      | some ge =>
        if ge.notFound then
          match c.createErr r with
          | some ce => (acc, some ce, [WriteOp.createOp r])
          | none =>
            let (h, er, ws) := execResources st c rest (acc && c.healthy r)
            (h, er, WriteOp.createOp r :: ws)
        else (acc, some ge, [])
      | none =>
        match patchExistingObject r (c.fetched r) c with
        | (some pe, calls) => (acc, some pe, calls.map WriteOp.patchOp)
        | (none, calls) =>
          let (h, er, ws) := execResources st c rest (acc && c.healthy r)
          (h, er, calls.map WriteOp.patchOp ++ ws)

/-- Result of one `executeStep` call: the step status after the call (the
status is mutated through the caller's pointer), the returned error, and
the writes issued. -/
structure StepRun where
  state : StepStatus
  err : Option ApiError
  writes : List WriteOp
deriving DecidableEq, Repr

/-- Source lines 136-187: `executeStep`.  Only acts on in-progress-ish
steps; sets the status to `InProgress`, walks the resources, and marks
the step `Complete` when no call errored and all health checks passed. -/
def executeStep (st : Step) (state : StepStatus) (resources : List KObject) (c : KClient) : StepRun :=
  if isInProgress state.status then
    let runState : StepStatus := ⟨state.name, ExecutionStatus.executionInProgress⟩
    match execResources st c resources true with
    | (allHealthy, none, ws) =>
      if allHealthy then ⟨⟨state.name, ExecutionStatus.executionComplete⟩, none, ws⟩
      else ⟨runState, none, ws⟩
    | (_, some e, ws) => ⟨runState, some e, ws⟩
  else ⟨state, none, []⟩

/-- Outcome of the step loop (source lines 93-113): updated step statuses
of the phase, the `allStepsHealthy` flag, writes, and the names of the
steps on which `executeStep` was invoked; `fail` carries the first step
error (with the erroring step already marked `ErrorStatus`), `crash` is a
nil-pointer dereference. -/
inductive stepsOut where
  | ok (steps : List StepStatus) (allHealthy : Bool) (writes : List WriteOp) (execd : List String)
  | fail (steps : List StepStatus) (e : ApiError) (writes : List WriteOp) (execd : List String)
  | crash
deriving DecidableEq, Repr

/-- The step loop of `executePlan` (source lines 93-113), with the
serial/parallel break logic and the `ErrorStatus` markings of lines
101-102 applied to the step. -/
def driveStepsAux (strategy : Strategy) (c : KClient) (resFor : String → List KObject) :
    List Step → List StepStatus → Bool → stepsOut
  | [], sts, allH => stepsOut.ok sts allH [] []
  | sp :: rest, sts, allH =>
    match getStepOfSteps sp.name sts with
    | none => stepsOut.crash
    | some cur =>
      let run := executeStep sp cur (resFor sp.name) c
      let sts1 := setStepInSteps sp.name run.state sts
      match run.err with
      | some e => stepsOut.fail (setStepInSteps sp.name ⟨sp.name, ExecutionStatus.errorStatus⟩ sts1) e run.writes [sp.name]
      | none =>
        if isFinished run.state.status then
          match driveStepsAux strategy c resFor rest sts1 allH with
          | stepsOut.ok s h w x => stepsOut.ok s h (run.writes ++ w) (sp.name :: x)
          | stepsOut.fail s e w x => stepsOut.fail s e (run.writes ++ w) (sp.name :: x)
          | stepsOut.crash => stepsOut.crash
        else
          match strategy with
          | Strategy.serial => stepsOut.ok sts1 false run.writes [sp.name]
          | Strategy.parallel =>
            match driveStepsAux strategy c resFor rest sts1 false with
            | stepsOut.ok s h w x => stepsOut.ok s h (run.writes ++ w) (sp.name :: x)
            | stepsOut.fail s e w x => stepsOut.fail s e (run.writes ++ w) (sp.name :: x)
            | stepsOut.crash => stepsOut.crash

/-- The Go `phaseResources` struct: per-step object lists. -/
structure phaseResources where
  stepResources : List (String × List KObject)
deriving DecidableEq, Repr

/-- The Go `planResources` struct: per-phase `phaseResources`. -/
structure planResources where
  resourcesOf : List (String × phaseResources)
deriving DecidableEq, Repr

/-- Go map read with zero value: a missing phase yields an empty
`phaseResources`. -/
def lookupPhaseResources (pr : planResources) (phName : String) : phaseResources :=
  match lookupA pr.resourcesOf phName with
  | some x => x
  | none => ⟨[]⟩

/-- Go map read with zero value: a missing step yields a nil slice. -/
def lookupStepResources (pr : phaseResources) (stName : String) : List KObject :=
  match lookupA pr.stepResources stName with
  | some x => x
  | none => []

/-- Outcome of processing one phase inside the phase loop of
`executePlan` (source lines 81-126): `cont` with the line-121
`isFinished` verdict, `fail` for a step error return, `crash` for a
nil-pointer dereference. -/
inductive phaseOut where
  | cont (store : List PhaseStatus) (top : ExecutionStatus) (finished : Bool) (writes : List WriteOp) (execd : List (String × String))
  | fail (store : List PhaseStatus) (top : ExecutionStatus) (e : ApiError) (writes : List WriteOp) (execd : List (String × String))
  | crash
deriving DecidableEq, Repr

/-- One iteration of the phase loop of `executePlan` (source lines
82-125): skip finished phases, drive the steps of in-progress-ish phases
(setting the top-level and phase status to `InProgress` on entry, and the
phase to `Complete` when all steps are healthy, lines 88-89 and 115-118),
and fall through for fatal phases. -/
def processPhase (ph : Phase) (pres : planResources) (c : KClient)
    (store : List PhaseStatus) (top : ExecutionStatus) : phaseOut :=
  match getPhaseFromStatus ph.name store with
  | none => phaseOut.crash
  | some cps =>
    if isFinished cps.status then phaseOut.cont store top true [] []
    else if isInProgress cps.status then
      let resFor := fun stName => lookupStepResources (lookupPhaseResources pres ph.name) stName
      match driveStepsAux ph.strategy c resFor ph.steps cps.steps true with
      | stepsOut.crash => phaseOut.crash
      | stepsOut.fail sts e w x =>
        phaseOut.fail (setPhaseInStore ph.name ⟨cps.name, ExecutionStatus.errorStatus, sts⟩ store)
          ExecutionStatus.executionInProgress e w (x.map (fun s => (ph.name, s)))
      | stepsOut.ok sts allH w x =>
        let st2 := if allH then ExecutionStatus.executionComplete else ExecutionStatus.executionInProgress
        phaseOut.cont (setPhaseInStore ph.name ⟨cps.name, st2, sts⟩ store)
          ExecutionStatus.executionInProgress (isFinished st2) w (x.map (fun s => (ph.name, s)))
    else phaseOut.cont store top false [] []

/-- Outcome of the whole phase loop: final store, top-level status value,
the `allPhasesCompleted` flag, writes and executed steps. -/
inductive driveOut where
  | done (store : List PhaseStatus) (top : ExecutionStatus) (allCompleted : Bool) (writes : List WriteOp) (execd : List (String × String))
  | fail (store : List PhaseStatus) (top : ExecutionStatus) (e : ApiError) (writes : List WriteOp) (execd : List (String × String))
  | crash
deriving DecidableEq, Repr

/-- The phase loop of `executePlan` (source lines 80-126): phases in
declared order, breaking at the first phase left unfinished. -/
def drivePhases (pres : planResources) (c : KClient) :
    List Phase → List PhaseStatus → ExecutionStatus → driveOut
  | [], store, top => driveOut.done store top true [] []
  | ph :: rest, store, top =>
    match processPhase ph pres c store top with
    | phaseOut.crash => driveOut.crash
    | phaseOut.fail s t e w x => driveOut.fail s t e w x
    | phaseOut.cont s t finished w x =>
      if finished then
        match drivePhases pres c rest s t with
        | driveOut.done s2 t2 a w2 x2 => driveOut.done s2 t2 a (w ++ w2) (x ++ x2)
        | driveOut.fail s2 t2 e w2 x2 => driveOut.fail s2 t2 e (w ++ w2) (x ++ x2)
        | driveOut.crash => driveOut.crash
      else driveOut.done s t false w x

/-- The config mapping handed to the template engine (source lines
235-255): base entries plus the per-step entries. -/
structure Configs where
  operatorName : String
  instanceName : String
  namespaceName : String
  params : List (String × String)
  planName : String
  phaseName : String
  stepName : String
  stepNumber : String
deriving DecidableEq, Repr

/-- The `metadata` struct handed to the enhancer (source of
`kustomize_enhancer.go`). -/
structure metadata where
  instanceName : String
  namespaceName : String
  operatorName : String
  operatorVersion : String
  planName : String
  phaseName : String
  stepName : String
deriving DecidableEq, Repr

/-- The template engine (`kudoengine.New().Render`), an external
collaborator: `none` models a render error. -/
structure kudoEngine where
  render : String → Configs → Option String

/-- The `kubernetesObjectEnhancer` interface: templates, metadata and the
owner go in, enhanced objects or an error come out. -/
structure kubernetesObjectEnhancer where
  applyConventions : List (String × String) → metadata → String → Option (List KObject)

/-- Outcome of the per-task resource loop (source lines 264-284). -/
inductive renderOut where
  | ok (acc : List (String × String))
  | missingTemplate
  | renderFail
deriving DecidableEq, Repr

/-- The resource loop of one task (source lines 264-284): look every
resource key up in the template catalog and render it, accumulating the
`resourcesAsString` map. -/
def renderTaskResources (engine : kudoEngine) (templates : List (String × String)) (cfg : Configs)
    (acc : List (String × String)) : List String → renderOut
  | [] => renderOut.ok acc
  | res :: rest =>
    match lookupA templates res with
    | some resource =>
      match engine.render resource cfg with
      | some templatedYaml =>
        renderTaskResources engine templates cfg (insertReplace res templatedYaml acc) rest
      | none => renderOut.renderFail
    | none => renderOut.missingTemplate

/-- Outcome of the task loop of one step (source lines 260-312). -/
inductive taskOut where
  | ok (objs : List KObject)
  | missingTask
  | missingTemplate
  | renderFail
  | enhanceFail
deriving DecidableEq, Repr

/-- The task loop of one step (source lines 260-312): look each task up,
render its resources, call the enhancer once per task, and concatenate
the enhanced objects. -/
def runStepTasks (tasks : List (String × TaskSpec)) (templates : List (String × String))
    (renderer : kubernetesObjectEnhancer) (engine : kudoEngine)
    (cfg : Configs) (em : metadata) (owner : String) : List String → taskOut
  | [] => taskOut.ok []
  | t :: rest =>
    match lookupA tasks t with
    | some taskSpec =>
      match renderTaskResources engine templates cfg [] taskSpec.resources with
      | renderOut.renderFail => taskOut.renderFail
      | renderOut.missingTemplate => taskOut.missingTemplate
      | renderOut.ok ras =>
        match renderer.applyConventions ras em owner with
        | none => taskOut.enhanceFail
        | some objs =>
          match runStepTasks tasks templates renderer engine cfg em owner rest with
          | taskOut.ok more => taskOut.ok (objs ++ more)
          | bad => bad
    | none => taskOut.missingTask

/-- The status markings of the preparation error paths (source lines
268-269, 277-278, 297-298, 305-306): set the containing phase status and
step status, both reached through the discarded-error lookups; a missing
entry is a nil-pointer dereference (`none`). -/
def markStatuses (phName stName : String) (x : ExecutionStatus) (store : List PhaseStatus) :
    Option (List PhaseStatus) :=
  match getPhaseFromStatus phName store with
  | none => none
  | some ps =>
    match getStepFromStatus stName ps with
    | none => none
    | some ss =>
      some (setPhaseInStore phName
        ⟨ps.name, x, setStepInSteps stName ⟨ss.name, x⟩ ps.steps⟩ store)

/-- Outcome of preparing the steps of one phase. -/
inductive prepStepsOut where
  | ok (stepRes : List (String × List KObject))
  | fail (fatal : Bool) (store : List PhaseStatus)
  | crash
deriving DecidableEq, Repr

/-- The step loop of `prepareKubeResources` (source lines 251-315): build
the per-step configs (`StepNumber` is the zero-based index), run the
tasks, and on an error mark the phase and step and classify the
`executionError` (missing task and enhancer failure non-fatal; missing
template and render failure fatal). -/
def prepSteps (plan : activePlan) (meta : executionMetadata)
    (renderer : kubernetesObjectEnhancer) (engine : kudoEngine)
    (ph : Phase) (store : List PhaseStatus) :
    Nat → List Step → List (String × List KObject) → prepStepsOut
  | _, [], acc => prepStepsOut.ok acc
  | j, st :: rest, acc =>
    let cfg : Configs := ⟨meta.operatorName, meta.instanceName, meta.instanceNamespace,
      plan.params, plan.name, ph.name, st.name, toString j⟩
    let em : metadata := ⟨meta.instanceName, meta.instanceNamespace, meta.operatorName,
      meta.operatorVersion, plan.name, ph.name, st.name⟩
    match runStepTasks plan.tasks plan.templates renderer engine cfg em meta.resourcesOwner st.tasks with
    | taskOut.ok objs => prepSteps plan meta renderer engine ph store (j + 1) rest (insertReplace st.name objs acc)
    | taskOut.missingTask =>
      match markStatuses ph.name st.name ExecutionStatus.errorStatus store with
      | some store2 => prepStepsOut.fail false store2
      | none => prepStepsOut.crash
    | taskOut.enhanceFail =>
      match markStatuses ph.name st.name ExecutionStatus.errorStatus store with
      | some store2 => prepStepsOut.fail false store2
      | none => prepStepsOut.crash
    | taskOut.missingTemplate =>
      match markStatuses ph.name st.name ExecutionStatus.executionFatalError store with
      | some store2 => prepStepsOut.fail true store2
      | none => prepStepsOut.crash
    | taskOut.renderFail =>
      match markStatuses ph.name st.name ExecutionStatus.executionFatalError store with
      | some store2 => prepStepsOut.fail true store2
      | none => prepStepsOut.crash

/-- Outcome of `prepareKubeResources`: the resource plan (on success the
status store is untouched), a classified `executionError`, or a crash. -/
inductive prepOut where
  | ok (res : planResources) (store : List PhaseStatus)
  | fail (fatal : Bool) (store : List PhaseStatus)
  | crash
deriving DecidableEq, Repr

/-- The phase loop of `prepareKubeResources` (source lines 245-316). -/
def prepPhases (plan : activePlan) (meta : executionMetadata)
    (renderer : kubernetesObjectEnhancer) (engine : kudoEngine)
    (store : List PhaseStatus) : List Phase → List (String × phaseResources) → prepOut
  | [], acc => prepOut.ok ⟨acc⟩ store
  | ph :: rest, acc =>
    match prepSteps plan meta renderer engine ph store 0 ph.steps [] with
    | prepStepsOut.ok stepRes => prepPhases plan meta renderer engine store rest (insertReplace ph.name ⟨stepRes⟩ acc)
    | prepStepsOut.fail f store2 => prepOut.fail f store2
    | prepStepsOut.crash => prepOut.crash

/-- Source lines 234-319: `prepareKubeResources`.  The template engine is
created inside the Go function; it is a parameter here because it is an
external collaborator. -/
def prepareKubeResources (plan : activePlan) (meta : executionMetadata)
    (renderer : kubernetesObjectEnhancer) (engine : kudoEngine) : prepOut :=
  prepPhases plan meta renderer engine plan.planStatus.phases plan.spec.phases []

/-- The error returned by the engine: `execError` is `*executionError`
(whose `fatal` flag is the second literal field at the source return
sites), `apiError` is a raw client error bubbled out of a step. -/
inductive EngineError where
  | execError (fatal : Bool)
  | apiError (e : ApiError)
deriving DecidableEq, Repr

/-- Source lines 70-71: `errors.As(err, &exErr)` for
`exErr : *executionError` succeeds exactly when the error is an
`executionError`, regardless of its `fatal` flag. -/
def errorsAsExecutionError : EngineError → Bool
  | EngineError.execError _ => true
  | EngineError.apiError _ => false

/-- The full result of one tick: the working status returned to the
caller, the caller's original status object after the tick (it shares the
phases backing array with the working copy, source line 65), the error,
the cluster writes, and the `(phase, step)` pairs on which `executeStep`
was invoked. -/
structure Tick where
  newStatus : PlanStatus
  origAfter : PlanStatus
  err : Option EngineError
  writes : List WriteOp
  execd : List (String × String)
deriving DecidableEq, Repr

/-- Source lines 58-134: `executePlan`, one tick.  `none` models a
nil-pointer panic. -/
def executePlan (plan : activePlan) (meta : executionMetadata) (c : KClient)
    (renderer : kubernetesObjectEnhancer) (engine : kudoEngine) : Option Tick :=
  if IsTerminal plan.planStatus.status then
    some ⟨plan.planStatus, plan.planStatus, none, [], []⟩
  else
    match prepareKubeResources plan meta renderer engine with
    | prepOut.crash => none
    | prepOut.fail f store =>
      let e := EngineError.execError f
      let top := if errorsAsExecutionError e then ExecutionStatus.executionFatalError
        else ExecutionStatus.errorStatus
      some ⟨⟨top, store⟩, ⟨plan.planStatus.status, store⟩, some e, [], []⟩
    | prepOut.ok pres store =>
      match drivePhases pres c plan.spec.phases store plan.planStatus.status with
      | driveOut.crash => none
      | driveOut.fail s t e w x =>
        some ⟨⟨t, s⟩, ⟨plan.planStatus.status, s⟩, some (EngineError.apiError e), w, x⟩
      | driveOut.done s t allC w x =>
        let finalTop := if allC then ExecutionStatus.executionComplete else t
        some ⟨⟨finalTop, s⟩, ⟨plan.planStatus.status, s⟩, none, w, x⟩

/-- Modelled from the spec: the label key constants of `pkg/util/kudo`
(not under src/); section 6 of the spec fixes the wire-level keys. -/
def HeritageLabel : String := "heritage"

/-- Modelled from the spec: the operator label key of `pkg/util/kudo`. -/
def OperatorLabel : String := "operator"

/-- Modelled from the spec: the instance label key of `pkg/util/kudo`. -/
def InstanceLabel : String := "instance"

/-- Modelled from the spec: the plan annotation key of `pkg/util/kudo`. -/
def PlanAnnotationKey : String := "plan"

/-- Modelled from the spec: the phase annotation key of `pkg/util/kudo`. -/
def PhaseAnnotationKey : String := "phase"

/-- Modelled from the spec: the step annotation key of `pkg/util/kudo`. -/
def StepAnnotationKey : String := "step"

/-- Modelled from the spec: the operator-version annotation key of
`pkg/util/kudo`. -/
def OperatorVersionAnnotationKey : String := "operatorVersion"

/-- The customization descriptor the enhancer synthesizes
(`ktypes.Kustomization`, source lines 197-216).  The Go field
`NamePrefix` is rendered as `namePrefixStr`. -/
structure Kustomization where
  namePrefixStr : String
  namespaceName : String
  commonLabels : List (String × String)
  commonAnnotations : List (String × String)
  resources : List String
  disableNameSuffixHash : Bool
deriving DecidableEq, Repr

/-- Set a key to a value in a label/annotation map (the customization
engine overrides an existing binding). -/
def upsert : List (String × String) → String → String → List (String × String)
  | [], k, v => [(k, v)]
  | (a, b) :: rest, k, v => if a = k then (k, v) :: rest else (a, b) :: upsert rest k v

/-- Apply a list of key/value bindings to a map, later entries last. -/
def applyKV (base adds : List (String × String)) : List (String × String) :=
  adds.foldl (fun m kv => upsert m kv.1 kv.2) base

/-- Modelled from the spec: the effect of the external kustomize engine
(`kt.MakeCustomizedResMap`, an out-of-scope collaborator) on one parsed
object — prepend the name prefix, set the namespace, and stamp the common
labels and annotations (spec section 4.2, step 3). -/
def kustomizeApplyToObject (k : Kustomization) (o : KObject) : KObject :=
  ⟨k.namePrefixStr ++ o.name, k.namespaceName,
    applyKV o.labels k.commonLabels, applyKV o.annotations k.commonAnnotations,
    o.ownerController⟩

/-- The source `setControllerReference` (lines 269-274 of the enhancer
file): wire the controller-owner reference to the supplied owner. -/
def setControllerReference (owner : String) (o : KObject) : KObject :=
  { o with ownerController := some owner }

/-- Build the customization descriptor exactly as the enhancer does
(source lines 197-216): name prefix `instanceName ++ "-"`, the instance
namespace, the three common labels, the four common annotations, the
template names as resources, and the disabled name-suffix hash. -/
def kustomizationFor (md : metadata) (templateNames : List String) : Kustomization :=
  ⟨md.instanceName ++ "-", md.namespaceName,
    [(HeritageLabel, "kudo"), (OperatorLabel, md.operatorName), (InstanceLabel, md.instanceName)],
    [(PlanAnnotationKey, md.planName), (PhaseAnnotationKey, md.phaseName),
      (StepAnnotationKey, md.stepName), (OperatorVersionAnnotationKey, md.operatorVersion)],
    templateNames, true⟩

/-- The enhancer implementation `kustomizeEnhancer.applyConventionsToTemplates`
(source lines 184-267).  Writing the templates into the scratch
filesystem, loading them and parsing YAML into objects is the external
kustomize machinery, abstracted as the `parse` oracle (`none` is any of
its error exits); the customization transformation itself is modelled
from the spec, and the controller reference is set on every parsed
object. -/
def applyConventionsToTemplates (parse : List (String × String) → Option (List KObject))
    (templates : List (String × String)) (md : metadata) (owner : String) :
    Option (List KObject) :=
  let kn := kustomizationFor md (templates.map Prod.fst)
  match parse templates with
  | none => none
  | some objs => some ((objs.map (kustomizeApplyToObject kn)).map (setControllerReference owner))

/-- The step-status names of a steps slice. -/
def stepNames (l : List StepStatus) : List String := l.map StepStatus.name

/-- The phase-status names of the store. -/
def phaseNames (l : List PhaseStatus) : List String := l.map PhaseStatus.name

/-- The shape of the store: phase names with their step-name lists.  All
engine mutations preserve it. -/
def storeShape (l : List PhaseStatus) : List (String × List String) :=
  l.map (fun p => (p.name, stepNames p.steps))

/-- The precondition the outer loop guarantees: every phase named in the
spec has exactly one matching phase status, and every step of that phase
exactly one matching step status inside it. -/
def wfStoreB (spec : Plan) (store : List PhaseStatus) : Bool :=
  spec.phases.all (fun ph =>
    ((phaseNames store).count ph.name == 1) &&
      (match getPhaseFromStatus ph.name store with
       | some cps => ph.steps.all (fun st => (stepNames cps.steps).count st.name == 1)
       | none => false))

/-- Well-formed plan spec: phase names are distinct and step names are
distinct within each phase. -/
def wfSpec (spec : Plan) : Prop :=
  (spec.phases.map Phase.name).Nodup ∧ ∀ ph ∈ spec.phases, (ph.steps.map Step.name).Nodup

/-- The per-resource success condition of the `executeStep` resource
loop: the delete / get / create / patch calls for this resource do not
produce an aborting error. -/
def resourceClean (st : Step) (c : KClient) (r : KObject) : Bool :=
  if st.delete then
    match c.deleteErr r with
    | some e => e.notFound
    | none => true
  else
    match c.getErr r with
    | some ge =>
      if ge.notFound then
        match c.createErr r with
        | some _ => false
        | none => true
      else false
    | none =>
      match (patchExistingObject r (c.fetched r) c).1 with
      | some _ => false
      | none => true

/-- The health verdict recorded for one resource: delete steps run no
health check, applied resources consult the health oracle. -/
def resourceHealthyB (st : Step) (c : KClient) (r : KObject) : Bool :=
  if st.delete then true else c.healthy r

/-- Every resource of the step applies or deletes without error. -/
def stepClean (st : Step) (c : KClient) (rs : List KObject) : Bool :=
  rs.all (resourceClean st c)

/-- Every health check of the step passes. -/
def stepHealthChecks (st : Step) (c : KClient) (rs : List KObject) : Bool :=
  rs.all (resourceHealthyB st c)

/-- Witness fixture: an apply step with no tasks. -/
def wStep1 : Step := ⟨"s", false, []⟩

/-- Witness fixture: a pending step status. -/
def wState1 : StepStatus := ⟨"s", ExecutionStatus.executionPending⟩

/-- Witness fixture: one plain object. -/
def wObj1 : KObject := ⟨"o", "ns", [], [], none⟩

/-- Witness fixture: a client whose get reports not-found, whose create
succeeds and whose health oracle reports unhealthy. -/
def wClient1 : KClient :=
  ⟨fun _ => some ⟨true, false⟩, id, fun _ => none, fun _ _ _ => none,
    fun _ => none, fun _ => false, fun _ => "j"⟩

/-- Witness fixture: a client whose strategic-merge patch fails with 415
and whose merge patch succeeds. -/
def wClient2 : KClient :=
  ⟨fun _ => none, id, fun _ => none,
    fun _ t _ => if t = PatchType.strategicMerge then some ⟨false, true⟩ else none,
    fun _ => none, fun _ => true, fun _ => "body"⟩

/-- Witness fixture: the newly rendered object of a patch. -/
def wNew : KObject := ⟨"n", "ns", [], [], none⟩

/-- Witness fixture: the existing object of a patch. -/
def wEx : KObject := ⟨"x", "ns", [], [], none⟩

/-- Witness fixture: a parse oracle yielding one bare object. -/
def c7wParse : List (String × String) → Option (List KObject) :=
  fun _ => some [⟨"a", "x", [], [], none⟩]

/-- Witness fixture: enhancer metadata. -/
def c7wMd : metadata := ⟨"i", "ns", "op", "v1", "pl", "ph", "st"⟩

/-- Witness fixture: the enhancer output on the fixture input. -/
def c7wObjs : List KObject :=
  match applyConventionsToTemplates c7wParse [("t1", "y")] c7wMd "own" with
  | some l => l
  | none => []

/-- Witness fixture: execution metadata. -/
def wMeta : executionMetadata := ⟨"i", "ns", "op", "ovn", "ov", "own"⟩

/-- Witness fixture: an enhancer that always succeeds with no objects. -/
def wEnhancer : kubernetesObjectEnhancer := ⟨fun _ _ _ => some []⟩

/-- Witness fixture: a template engine that renders every template to
itself. -/
def wEngine : kudoEngine := ⟨fun t _ => some t⟩

/-- Witness fixture: a client that answers every call successfully and
reports every object healthy. -/
def wClientTriv : KClient :=
  ⟨fun _ => none, id, fun _ => none, fun _ _ _ => none, fun _ => none,
    fun _ => true, fun _ => "j"⟩

/-- Fixture: a fresh pending one-phase one-step status tree. -/
def wPendingStatus : PlanStatus :=
  ⟨ExecutionStatus.executionPending,
    [⟨"p", ExecutionStatus.executionPending, [⟨"s", ExecutionStatus.executionPending⟩]⟩]⟩

/-- Fixture: a plan whose single step references task `"t"` which is
absent from the task catalog. -/
def c1Plan : activePlan :=
  ⟨"dp", wPendingStatus, ⟨[⟨"p", Strategy.serial, [⟨"s", false, ["t"]⟩]⟩]⟩, [], [], []⟩

/-- Fixture: a plan whose single step references task `"t"` whose only
resource key `"r"` is absent from the template catalog. -/
def c2Plan : activePlan :=
  ⟨"dp", wPendingStatus, ⟨[⟨"p", Strategy.serial, [⟨"s", false, ["t"]⟩]⟩]⟩,
    [("t", ⟨["r"]⟩)], [], []⟩

/-- The task resolves in the catalog but references at least one resource
key absent from the template catalog. -/
def taskMissingTemplateB (plan : activePlan) (t : String) : Bool :=
  match lookupA plan.tasks t with
  | some ts => ts.resources.any (fun res => (lookupA plan.templates res).isNone)
  | none => false

/-- Every task reference of the plan resolves in the task catalog. -/
def allTasksPresent (plan : activePlan) : Prop :=
  ∀ ph ∈ plan.spec.phases, ∀ st ∈ ph.steps, ∀ t ∈ st.tasks,
    (lookupA plan.tasks t).isSome = true

/-- Some step of the plan references a task absent from the catalog. -/
def hasMissingTask (plan : activePlan) : Prop :=
  ∃ ph ∈ plan.spec.phases, ∃ st ∈ ph.steps, ∃ t ∈ st.tasks, lookupA plan.tasks t = none

/-- Some step of the plan references, through a present task, a template
key absent from the template catalog. -/
def hasMissingTemplate (plan : activePlan) : Prop :=
  ∃ ph ∈ plan.spec.phases, ∃ st ∈ ph.steps, ∃ t ∈ st.tasks, taskMissingTemplateB plan t = true

/-- No present task of the plan references a missing template key. -/
def allTemplatesPresent (plan : activePlan) : Prop :=
  ∀ ph ∈ plan.spec.phases, ∀ st ∈ ph.steps, ∀ t ∈ st.tasks,
    taskMissingTemplateB plan t = false

/-- The template engine renders every template successfully. -/
def renderTotal (engine : kudoEngine) : Prop :=
  ∀ t cfg, (engine.render t cfg).isSome = true

/-- The enhancer succeeds on every input. -/
def enhanceTotal (r : kubernetesObjectEnhancer) : Prop :=
  ∀ ras em ow, (r.applyConventions ras em ow).isSome = true

/-- The preparation error paths can reach both status pointers for this
phase/step pair. -/
def stepMarkable (phName stName : String) (store : List PhaseStatus) : Prop :=
  match getPhaseFromStatus phName store with
  | some cps => (getStepOfSteps stName cps.steps).isSome = true
  | none => False

/-- Both the phase and its step carry the given status in the store. -/
def markedAt (x : ExecutionStatus) (phName stName : String) (store : List PhaseStatus) : Prop :=
  ∃ ps, getPhaseFromStatus phName store = some ps ∧ ps.status = x ∧
    ∃ ss, getStepFromStatus stName ps = some ss ∧ ss.status = x

/-- No step status in the slice is `ExecutionFatalError`. -/
def noFatalSteps (l : List StepStatus) : Prop :=
  ∀ s ∈ l, s.status ≠ ExecutionStatus.executionFatalError

/-- No phase or step status in the store is `ExecutionFatalError`. -/
def noFatalStore (l : List PhaseStatus) : Prop :=
  ∀ p ∈ l, p.status ≠ ExecutionStatus.executionFatalError ∧ noFatalSteps p.steps

/-- Decidability of the missing-task condition. -/
instance (plan : activePlan) : Decidable (hasMissingTask plan) := by
  unfold hasMissingTask; infer_instance

/-- Decidability of the missing-template condition. -/
instance (plan : activePlan) : Decidable (hasMissingTemplate plan) := by
  unfold hasMissingTemplate; infer_instance

/-- Decidability of task-catalog completeness. -/
instance (plan : activePlan) : Decidable (allTasksPresent plan) := by
  unfold allTasksPresent; infer_instance

/-- Decidability of template-catalog completeness. -/
instance (plan : activePlan) : Decidable (allTemplatesPresent plan) := by
  unfold allTemplatesPresent; infer_instance

/-- Decidability of the no-fatal-status conditions. -/
instance (l : List StepStatus) : Decidable (noFatalSteps l) := by
  unfold noFatalSteps; infer_instance

/-- Decidability of the no-fatal-store condition. -/
instance (l : List PhaseStatus) : Decidable (noFatalStore l) := by
  unfold noFatalStore
  refine List.decidableBAll _ l

/-- Fixture: a plan whose single task and template resolve, so
preparation succeeds. -/
def c3bPlan : activePlan :=
  ⟨"dp", wPendingStatus, ⟨[⟨"p", Strategy.serial, [⟨"s", false, ["t"]⟩]⟩]⟩,
    [("t", ⟨["r"]⟩)], [("r", "y")], []⟩

/-- Fixture: the resource plan preparation produces for `c3bPlan`. -/
def c3bPres : planResources :=
  match prepareKubeResources c3bPlan wMeta wEnhancer wEngine with
  | prepOut.ok pres _ => pres
  | _ => ⟨[]⟩

/-- The names of the steps on which the step loop invoked
`executeStep`. -/
def stepsExecd : stepsOut → List String
  | stepsOut.ok _ _ _ x => x
  | stepsOut.fail _ _ _ x => x
  | stepsOut.crash => []

/-- Whether one isolated `executeStep` run of this step, from its current
status, would leave it finished. -/
def stepFinishedAfter (sts : List StepStatus) (resFor : String → List KObject)
    (c : KClient) (sp : Step) : Bool :=
  match getStepOfSteps sp.name sts with
  | some cur => isFinished (executeStep sp cur (resFor sp.name) c).state.status
  | none => false

/-- Whether one isolated `executeStep` run of this step returns no
error. -/
def stepErrFree (sts : List StepStatus) (resFor : String → List KObject)
    (c : KClient) (sp : Step) : Bool :=
  match getStepOfSteps sp.name sts with
  | some cur => (executeStep sp cur (resFor sp.name) c).err.isNone
  | none => true

/-- Witness fixture: two apply steps. -/
def c4Steps : List Step := [⟨"s1", false, []⟩, ⟨"s2", false, []⟩]

/-- Witness fixture: two pending step statuses. -/
def c4Sts : List StepStatus :=
  [⟨"s1", ExecutionStatus.executionPending⟩, ⟨"s2", ExecutionStatus.executionPending⟩]

/-- Witness fixture: the first step has one (unhealthy) resource. -/
def c4Res : String → List KObject := fun n => if n = "s1" then [wObj1] else []

/-- Witness fixture: the tick produced by one run on `c3bPlan` with the
unhealthy-report client. -/
def c9Tick : Tick :=
  match executePlan c3bPlan wMeta wClient1 wEnhancer wEngine with
  | some tk => tk
  | none => ⟨⟨ExecutionStatus.executionPending, []⟩, ⟨ExecutionStatus.executionPending, []⟩, none, [], []⟩

/-- Every plan spec with distinct phase names and distinct step names
within each phase is decidably well-formed. -/
instance (spec : Plan) : Decidable (wfSpec spec) := by
  unfold wfSpec
  infer_instance

/-- Fixture: the tick `executePlan` produces for `c3bPlan` against the
trivially-successful client. -/
def c8Tk1 : Tick :=
  match executePlan c3bPlan wMeta wClientTriv wEnhancer wEngine with
  | some tk => tk
  | none => ⟨⟨ExecutionStatus.executionPending, []⟩, ⟨ExecutionStatus.executionPending, []⟩, none, [], []⟩

/-- The spec phases all have a matching entry in the given store shape,
with every spec step name among the matching entry's step names. -/
def specFitsShape (phases : List Phase) (shape : List (String × List String)) : Prop :=
  ∀ ph ∈ phases, ∃ names, lookupA shape ph.name = some names ∧
    ∀ st ∈ ph.steps, st.name ∈ names

theorem getStepOfSteps_name {n : String} : ∀ {l : List StepStatus} {s : StepStatus},
    getStepOfSteps n l = some s → s.name = n := by
  intro l
  induction l with
  | nil => intro s h; simp [getStepOfSteps] at h
  | cons p rest ih =>
    intro s h
    simp only [getStepOfSteps] at h
    split at h
    · cases h; assumption
    · exact ih h

theorem stepNames_cons (p : StepStatus) (rest : List StepStatus) :
    stepNames (p :: rest) = p.name :: stepNames rest := rfl

theorem getStepOfSteps_isSome_of_mem {n : String} : ∀ {l : List StepStatus},
    n ∈ stepNames l → (getStepOfSteps n l).isSome := by
  intro l
  induction l with
  | nil => intro h; simp [stepNames] at h
  | cons p rest ih =>
    intro h
    simp only [getStepOfSteps]
    split
    · rfl
    · rename_i hne
      rw [stepNames_cons] at h
      rcases List.mem_cons.mp h with h1 | h2
      · exact absurd h1.symm hne
      · exact ih h2

theorem setStepInSteps_frame {n m : String} {v : StepStatus} (hv : v.name = n) (hnm : m ≠ n) :
    ∀ l : List StepStatus, getStepOfSteps m (setStepInSteps n v l) = getStepOfSteps m l := by
  intro l
  induction l with
  | nil => rfl
  | cons p rest ih =>
    simp only [setStepInSteps]
    split
    · rename_i hp
      simp only [getStepOfSteps]
      rw [if_neg (by rw [hv]; exact Ne.symm hnm), if_neg (by rw [hp]; exact Ne.symm hnm)]
    · simp only [getStepOfSteps]
      split
      · rfl
      · exact ih

theorem setStepInSteps_get {n : String} {v : StepStatus} (hv : v.name = n) :
    ∀ l : List StepStatus, (getStepOfSteps n l).isSome →
      getStepOfSteps n (setStepInSteps n v l) = some v := by
  intro l
  induction l with
  | nil => intro h; simp [getStepOfSteps] at h
  | cons p rest ih =>
    intro h
    simp only [setStepInSteps]
    split
    · simp [getStepOfSteps, hv]
    · rename_i hp
      simp only [getStepOfSteps, if_neg hp]
      simp only [getStepOfSteps, if_neg hp] at h
      exact ih h

theorem setStepInSteps_id {n : String} {v : StepStatus} :
    ∀ l : List StepStatus, getStepOfSteps n l = some v → setStepInSteps n v l = l := by
  intro l
  induction l with
  | nil => intro h; simp [getStepOfSteps] at h
  | cons p rest ih =>
    intro h
    simp only [getStepOfSteps] at h
    simp only [setStepInSteps]
    split
    · split at h
      · cases h; rfl
      · rename_i hp hp2; exact absurd hp hp2
    · rename_i hp
      rw [if_neg hp] at h
      rw [ih h]

theorem setStepInSteps_twice {n : String} {a b : StepStatus} (ha : a.name = n) :
    ∀ l : List StepStatus, setStepInSteps n b (setStepInSteps n a l) = setStepInSteps n b l := by
  intro l
  induction l with
  | nil => simp [setStepInSteps]
  | cons p rest ih =>
    simp only [setStepInSteps]
    split
    · simp [setStepInSteps, ha]
    · rename_i hp
      simp only [setStepInSteps, if_neg hp]
      rw [ih]

theorem stepNames_set {n : String} {v : StepStatus} (hv : v.name = n) :
    ∀ l : List StepStatus, stepNames (setStepInSteps n v l) = stepNames l := by
  intro l
  induction l with
  | nil => rfl
  | cons p rest ih =>
    simp only [setStepInSteps]
    split
    · rename_i hp
      rw [stepNames_cons, stepNames_cons, hv, hp]
    · rw [stepNames_cons, stepNames_cons, ih]

theorem getPhaseFromStatus_name {n : String} : ∀ {l : List PhaseStatus} {s : PhaseStatus},
    getPhaseFromStatus n l = some s → s.name = n := by
  intro l
  induction l with
  | nil => intro s h; simp [getPhaseFromStatus] at h
  | cons p rest ih =>
    intro s h
    simp only [getPhaseFromStatus] at h
    split at h
    · cases h; assumption
    · exact ih h

theorem phaseNames_cons (p : PhaseStatus) (rest : List PhaseStatus) :
    phaseNames (p :: rest) = p.name :: phaseNames rest := rfl

theorem getPhaseFromStatus_isSome_of_mem {n : String} : ∀ {l : List PhaseStatus},
    n ∈ phaseNames l → (getPhaseFromStatus n l).isSome := by
  intro l
  induction l with
  | nil => intro h; simp [phaseNames] at h
  | cons p rest ih =>
    intro h
    simp only [getPhaseFromStatus]
    split
    · rfl
    · rename_i hne
      rw [phaseNames_cons] at h
      rcases List.mem_cons.mp h with h1 | h2
      · exact absurd h1.symm hne
      · exact ih h2

theorem setPhaseInStore_frame {n m : String} {v : PhaseStatus} (hv : v.name = n) (hnm : m ≠ n) :
    ∀ l : List PhaseStatus, getPhaseFromStatus m (setPhaseInStore n v l) = getPhaseFromStatus m l := by
  intro l
  induction l with
  | nil => rfl
  | cons p rest ih =>
    simp only [setPhaseInStore]
    split
    · rename_i hp
      simp only [getPhaseFromStatus]
      rw [if_neg (by rw [hv]; exact Ne.symm hnm), if_neg (by rw [hp]; exact Ne.symm hnm)]
    · simp only [getPhaseFromStatus]
      split
      · rfl
      · exact ih

theorem setPhaseInStore_get {n : String} {v : PhaseStatus} (hv : v.name = n) :
    ∀ l : List PhaseStatus, (getPhaseFromStatus n l).isSome →
      getPhaseFromStatus n (setPhaseInStore n v l) = some v := by
  intro l
  induction l with
  | nil => intro h; simp [getPhaseFromStatus] at h
  | cons p rest ih =>
    intro h
    simp only [setPhaseInStore]
    split
    · simp [getPhaseFromStatus, hv]
    · rename_i hp
      simp only [getPhaseFromStatus, if_neg hp]
      simp only [getPhaseFromStatus, if_neg hp] at h
      exact ih h

theorem setPhaseInStore_id {n : String} {v : PhaseStatus} :
    ∀ l : List PhaseStatus, getPhaseFromStatus n l = some v → setPhaseInStore n v l = l := by
  intro l
  induction l with
  | nil => intro h; simp [getPhaseFromStatus] at h
  | cons p rest ih =>
    intro h
    simp only [getPhaseFromStatus] at h
    simp only [setPhaseInStore]
    split
    · split at h
      · cases h; rfl
      · rename_i hp hp2; exact absurd hp hp2
    · rename_i hp
      rw [if_neg hp] at h
      rw [ih h]

theorem setPhaseInStore_twice {n : String} {a b : PhaseStatus} (ha : a.name = n) :
    ∀ l : List PhaseStatus, setPhaseInStore n b (setPhaseInStore n a l) = setPhaseInStore n b l := by
  intro l
  induction l with
  | nil => simp [setPhaseInStore]
  | cons p rest ih =>
    simp only [setPhaseInStore]
    split
    · simp [setPhaseInStore, ha]
    · rename_i hp
      simp only [setPhaseInStore, if_neg hp]
      rw [ih]

theorem phaseNames_set {n : String} {v : PhaseStatus} (hv : v.name = n) :
    ∀ l : List PhaseStatus, phaseNames (setPhaseInStore n v l) = phaseNames l := by
  intro l
  induction l with
  | nil => rfl
  | cons p rest ih =>
    simp only [setPhaseInStore]
    split
    · rename_i hp
      rw [phaseNames_cons, phaseNames_cons, hv, hp]
    · rw [phaseNames_cons, phaseNames_cons, ih]

theorem execResources_clean (st : Step) (c : KClient) :
    ∀ (rs : List KObject) (acc : Bool), stepClean st c rs = true →
      (execResources st c rs acc).1 = (acc && stepHealthChecks st c rs) ∧
        (execResources st c rs acc).2.1 = none := by
  intro rs
  induction rs with
  | nil => intro acc _; simp [execResources, stepHealthChecks]
  | cons r rest ih =>
    intro acc hc
    have hr : resourceClean st c r = true :=
      List.all_eq_true.mp hc r (List.mem_cons_self r rest)
    have hrest : stepClean st c rest = true :=
      List.all_eq_true.mpr (fun x hx => List.all_eq_true.mp hc x (List.mem_cons_of_mem r hx))
    have hh : stepHealthChecks st c (r :: rest)
        = (resourceHealthyB st c r && stepHealthChecks st c rest) := by
      simp [stepHealthChecks, List.all_cons]
    by_cases hd : st.delete = true
    · simp only [resourceClean, hd, if_true] at hr
      obtain ⟨h1, h2⟩ := ih acc hrest
      rcases hrec : execResources st c rest acc with ⟨a, b, w⟩
      rw [hrec] at h1 h2
      simp only at h1 h2
      cases hdel : c.deleteErr r with
      | some e =>
        rw [hdel] at hr
        simp only at hr
        simp [execResources, hd, hdel, hr, hrec, h1, h2, hh, resourceHealthyB]
      | none =>
        simp [execResources, hd, hdel, hrec, h1, h2, hh, resourceHealthyB]
    · have hdf : st.delete = false := by simpa using hd
      simp only [resourceClean, hdf, if_false] at hr
      obtain ⟨h1h, h2h⟩ := ih (acc && c.healthy r) hrest
      rcases hrech : execResources st c rest (acc && c.healthy r) with ⟨ah, bh, wh⟩
      rw [hrech] at h1h h2h
      simp only at h1h h2h
      cases hget : c.getErr r with
      | some ge =>
        rw [hget] at hr
        cases hnf : ge.notFound with
        | true =>
          simp only [hnf, if_true] at hr
          cases hcr : c.createErr r with
          | some ce => rw [hcr] at hr; simp at hr
          | none =>
            simp [execResources, hdf, hget, hnf, hcr, hrech, h1h, h2h, hh,
              resourceHealthyB, Bool.and_assoc]
        | false => simp [hnf] at hr
      | none =>
        rw [hget] at hr
        rcases hpc : patchExistingObject r (c.fetched r) c with ⟨perr, calls⟩
        rw [hpc] at hr
        simp only at hr
        cases perr with
        | some pe => simp at hr
        | none =>
          simp [execResources, hdf, hget, hpc, hrech, h1h, h2h, hh,
            resourceHealthyB, Bool.and_assoc]

theorem execResources_unclean (st : Step) (c : KClient) :
    ∀ (rs : List KObject) (acc : Bool), stepClean st c rs = false →
      ∃ e, (execResources st c rs acc).2.1 = some e := by
  intro rs
  induction rs with
  | nil => intro acc h; simp [stepClean] at h
  | cons r rest ih =>
    intro acc hc
    have hsplit : resourceClean st c r = false ∨ stepClean st c rest = false := by
      by_cases h1 : resourceClean st c r = true
      · right
        cases hv : stepClean st c rest
        · rfl
        · exfalso
          have : stepClean st c (r :: rest) = true := by
            simp only [stepClean, List.all_cons] at hv ⊢
            simp [h1, hv]
          rw [this] at hc; cases hc
      · left
        cases hv : resourceClean st c r
        · rfl
        · exact absurd hv h1
    by_cases hd : st.delete = true
    · cases hdel : c.deleteErr r with
      | some e =>
        cases hnf : e.notFound with
        | true =>
          rcases hsplit with h1 | h1
          · simp [resourceClean, hd, hdel, hnf] at h1
          · obtain ⟨e2, he2⟩ := ih acc h1
            rcases hrec : execResources st c rest acc with ⟨a, b, w⟩
            rw [hrec] at he2
            simp only at he2
            exact ⟨e2, by simp [execResources, hd, hdel, hnf, hrec, he2]⟩
        | false =>
          exact ⟨e, by simp [execResources, hd, hdel, hnf]⟩
      | none =>
        rcases hsplit with h1 | h1
        · simp [resourceClean, hd, hdel] at h1
        · obtain ⟨e2, he2⟩ := ih acc h1
          rcases hrec : execResources st c rest acc with ⟨a, b, w⟩
          rw [hrec] at he2
          simp only at he2
          exact ⟨e2, by simp [execResources, hd, hdel, hrec, he2]⟩
    · have hdf : st.delete = false := by simpa using hd
      cases hget : c.getErr r with
      | some ge =>
        cases hnf : ge.notFound with
        | true =>
          cases hcr : c.createErr r with
          | some ce =>
            exact ⟨ce, by simp [execResources, hdf, hget, hnf, hcr]⟩
          | none =>
            rcases hsplit with h1 | h1
            · simp [resourceClean, hdf, hget, hnf, hcr] at h1
            · obtain ⟨e2, he2⟩ := ih (acc && c.healthy r) h1
              rcases hrec : execResources st c rest (acc && c.healthy r) with ⟨a, b, w⟩
              rw [hrec] at he2
              simp only at he2
              exact ⟨e2, by simp [execResources, hdf, hget, hnf, hcr, hrec, he2]⟩
        | false =>
          exact ⟨ge, by simp [execResources, hdf, hget, hnf]⟩
      | none =>
        rcases hpc : patchExistingObject r (c.fetched r) c with ⟨perr, calls⟩
        cases perr with
        | some pe =>
          exact ⟨pe, by simp [execResources, hdf, hget, hpc]⟩
        | none =>
          rcases hsplit with h1 | h1
          · simp [resourceClean, hdf, hget, hpc] at h1
          · obtain ⟨e2, he2⟩ := ih (acc && c.healthy r) h1
            rcases hrec : execResources st c rest (acc && c.healthy r) with ⟨a, b, w⟩
            rw [hrec] at he2
            simp only at he2
            exact ⟨e2, by simp [execResources, hdf, hget, hpc, hrec, he2]⟩

/-- C5: for a step in the in-progress-ish set, `executeStep` marks the
step `Complete` exactly when every resource applied or deleted without
error and every health check passed; if everything applied cleanly but
some health check failed, the status is left `InProgress` and no error is
returned. -/
theorem c5_step_completion (st : Step) (state : StepStatus) (resources : List KObject) (c : KClient)
    (h : isInProgress state.status = true) :
    ((executeStep st state resources c).state.status = ExecutionStatus.executionComplete ↔
      (stepClean st c resources = true ∧ stepHealthChecks st c resources = true)) ∧
    (stepClean st c resources = true → stepHealthChecks st c resources = false →
      (executeStep st state resources c).state.status = ExecutionStatus.executionInProgress ∧
      (executeStep st state resources c).err = none) := by
  cases hcl : stepClean st c resources with
  | true =>
    obtain ⟨h1, h2⟩ := execResources_clean st c resources true hcl
    rcases hrec : execResources st c resources true with ⟨a, b, w⟩
    rw [hrec] at h1 h2
    simp only at h1 h2
    cases hsh : stepHealthChecks st c resources with
    | true => simp_all [executeStep, h, hrec]
    | false => simp_all [executeStep, h, hrec]
  | false =>
    obtain ⟨e, he⟩ := execResources_unclean st c resources true hcl
    rcases hrec : execResources st c resources true with ⟨a, b, w⟩
    rw [hrec] at he
    simp only at he
    subst he
    simp [executeStep, h, hrec, hcl]

theorem c5_step_completion_witness :
    isInProgress wState1.status = true ∧
    (((executeStep wStep1 wState1 [wObj1] wClient1).state.status = ExecutionStatus.executionComplete ↔
      (stepClean wStep1 wClient1 [wObj1] = true ∧ stepHealthChecks wStep1 wClient1 [wObj1] = true)) ∧
    (stepClean wStep1 wClient1 [wObj1] = true → stepHealthChecks wStep1 wClient1 [wObj1] = false →
      (executeStep wStep1 wState1 [wObj1] wClient1).state.status = ExecutionStatus.executionInProgress ∧
      (executeStep wStep1 wState1 [wObj1] wClient1).err = none)) :=
  ⟨by decide, c5_step_completion wStep1 wState1 [wObj1] wClient1 (by decide)⟩

theorem patchExistingObject_eq (newR exR : KObject) (c : KClient) :
    patchExistingObject newR exR c =
      match c.patchErr exR PatchType.strategicMerge (c.jsonOf newR) with
      | none => (none, [⟨exR, PatchType.strategicMerge, c.jsonOf newR⟩])
      | some e =>
        if e.unsupportedMediaType then
          match c.patchErr newR PatchType.merge (c.jsonOf newR) with
          | none => (none, [⟨exR, PatchType.strategicMerge, c.jsonOf newR⟩,
              ⟨newR, PatchType.merge, c.jsonOf newR⟩])
          | some e2 => (some e2, [⟨exR, PatchType.strategicMerge, c.jsonOf newR⟩,
              ⟨newR, PatchType.merge, c.jsonOf newR⟩])
        else (some e, [⟨exR, PatchType.strategicMerge, c.jsonOf newR⟩]) := rfl

/-- C6: the first patch attempt is always a strategic-merge patch against
the existing object with the new object's serialized JSON as body; a
merge-patch retry against the new object with the same body happens
exactly on an `UnsupportedMediaType` first failure; any other first
error, and any retry error, is returned with no further calls. -/
theorem c6_patch_fallback (newR exR : KObject) (c : KClient) :
    ((patchExistingObject newR exR c).2.head? =
      some ⟨exR, PatchType.strategicMerge, c.jsonOf newR⟩) ∧
    (c.patchErr exR PatchType.strategicMerge (c.jsonOf newR) = none →
      patchExistingObject newR exR c =
        (none, [⟨exR, PatchType.strategicMerge, c.jsonOf newR⟩])) ∧
    (∀ e, c.patchErr exR PatchType.strategicMerge (c.jsonOf newR) = some e →
      e.unsupportedMediaType = false →
      patchExistingObject newR exR c =
        (some e, [⟨exR, PatchType.strategicMerge, c.jsonOf newR⟩])) ∧
    (∀ e, c.patchErr exR PatchType.strategicMerge (c.jsonOf newR) = some e →
      e.unsupportedMediaType = true →
      patchExistingObject newR exR c =
        (c.patchErr newR PatchType.merge (c.jsonOf newR),
          [⟨exR, PatchType.strategicMerge, c.jsonOf newR⟩,
            ⟨newR, PatchType.merge, c.jsonOf newR⟩])) := by
  rw [patchExistingObject_eq]
  cases hm : c.patchErr exR PatchType.strategicMerge (c.jsonOf newR) with
  | none => simp
  | some e =>
    cases hu : e.unsupportedMediaType with
    | false => simp [hu]
    | true =>
      cases hmp : c.patchErr newR PatchType.merge (c.jsonOf newR) with
      | none => simp [hu, hmp]
      | some e2 => simp [hu, hmp]

theorem c6_patch_fallback_witness :
    (((patchExistingObject wNew wEx wClient2).2.head? =
      some ⟨wEx, PatchType.strategicMerge, wClient2.jsonOf wNew⟩) ∧
    (wClient2.patchErr wEx PatchType.strategicMerge (wClient2.jsonOf wNew) = none →
      patchExistingObject wNew wEx wClient2 =
        (none, [⟨wEx, PatchType.strategicMerge, wClient2.jsonOf wNew⟩])) ∧
    (∀ e, wClient2.patchErr wEx PatchType.strategicMerge (wClient2.jsonOf wNew) = some e →
      e.unsupportedMediaType = false →
      patchExistingObject wNew wEx wClient2 =
        (some e, [⟨wEx, PatchType.strategicMerge, wClient2.jsonOf wNew⟩])) ∧
    (∀ e, wClient2.patchErr wEx PatchType.strategicMerge (wClient2.jsonOf wNew) = some e →
      e.unsupportedMediaType = true →
      patchExistingObject wNew wEx wClient2 =
        (wClient2.patchErr wNew PatchType.merge (wClient2.jsonOf wNew),
          [⟨wEx, PatchType.strategicMerge, wClient2.jsonOf wNew⟩,
            ⟨wNew, PatchType.merge, wClient2.jsonOf wNew⟩]))) :=
  c6_patch_fallback wNew wEx wClient2

theorem lookupA_upsert_self (k v : String) :
    ∀ m : List (String × String), lookupA (upsert m k v) k = some v := by
  intro m
  induction m with
  | nil => simp [upsert, lookupA]
  | cons p rest ih =>
    rcases p with ⟨a, b⟩
    simp only [upsert]
    split
    · simp [lookupA]
    · rename_i ha
      simp only [lookupA, if_neg ha]
      exact ih

theorem lookupA_upsert_ne (k v k2 : String) (hne : k ≠ k2) :
    ∀ m : List (String × String), lookupA (upsert m k v) k2 = lookupA m k2 := by
  intro m
  induction m with
  | nil => simp [upsert, lookupA, hne]
  | cons p rest ih =>
    rcases p with ⟨a, b⟩
    simp only [upsert]
    split
    · rename_i ha
      simp [lookupA, hne, ha]
    · simp only [lookupA]
      split
      · rfl
      · exact ih

theorem lookupA_applyKV_notin (k : String) :
    ∀ (adds base : List (String × String)), k ∉ adds.map Prod.fst →
      lookupA (applyKV base adds) k = lookupA base k := by
  intro adds
  induction adds with
  | nil => intro base _; rfl
  | cons p rest ih =>
    rcases p with ⟨k0, v0⟩
    intro base hk
    simp only [List.map_cons, List.mem_cons] at hk
    push_neg at hk
    have h1 : applyKV base ((k0, v0) :: rest) = applyKV (upsert base k0 v0) rest := rfl
    rw [h1, ih (upsert base k0 v0) hk.2, lookupA_upsert_ne k0 v0 k (fun hc => hk.1 (hc ▸ rfl))]

theorem lookupA_applyKV_mem (k v : String) :
    ∀ (adds base : List (String × String)), (adds.map Prod.fst).Nodup →
      (k, v) ∈ adds → lookupA (applyKV base adds) k = some v := by
  intro adds
  induction adds with
  | nil => intro base _ hm; cases hm
  | cons p rest ih =>
    rcases p with ⟨k0, v0⟩
    intro base hnd hm
    have h1 : applyKV base ((k0, v0) :: rest) = applyKV (upsert base k0 v0) rest := rfl
    simp only [List.map_cons, List.nodup_cons] at hnd
    rcases List.mem_cons.mp hm with heq | htail
    · cases heq
      rw [h1, lookupA_applyKV_notin k rest (upsert base k v) hnd.1]
      exact lookupA_upsert_self k v base
    · rw [h1]
      exact ih (upsert base k0 v0) hnd.2 htail

/-- C7: every object emitted by the enhancer carries the three canonical
labels, the four canonical annotations, a name prefixed with
`instanceName ++ "-"`, the instance namespace, and a controller-owner
reference to the supplied owner. -/
theorem c7_enhancer_conventions
    (parse : List (String × String) → Option (List KObject))
    (templates : List (String × String)) (md : metadata) (owner : String)
    (objs : List KObject)
    (h : applyConventionsToTemplates parse templates md owner = some objs) :
    ∀ o ∈ objs,
      lookupA o.labels HeritageLabel = some "kudo" ∧
      lookupA o.labels OperatorLabel = some md.operatorName ∧
      lookupA o.labels InstanceLabel = some md.instanceName ∧
      lookupA o.annotations PlanAnnotationKey = some md.planName ∧
      lookupA o.annotations PhaseAnnotationKey = some md.phaseName ∧
      lookupA o.annotations StepAnnotationKey = some md.stepName ∧
      lookupA o.annotations OperatorVersionAnnotationKey = some md.operatorVersion ∧
      (∃ orig, o.name = (md.instanceName ++ "-") ++ orig) ∧
      o.namespaceName = md.namespaceName ∧
      o.ownerController = some owner := by
  intro o ho
  simp only [applyConventionsToTemplates] at h
  cases hp : parse templates with
  | none => rw [hp] at h; cases h
  | some objs0 =>
    rw [hp] at h
    simp only [Option.some.injEq] at h
    subst h
    rw [List.map_map] at ho
    obtain ⟨p, hmem, hpo⟩ := List.mem_map.mp ho
    subst hpo
    refine ⟨?_, ?_, ?_, ?_, ?_, ?_, ?_, ⟨p.name, rfl⟩, rfl, rfl⟩
    · show lookupA (applyKV p.labels [(HeritageLabel, "kudo"), (OperatorLabel, md.operatorName),
        (InstanceLabel, md.instanceName)]) HeritageLabel = some "kudo"
      exact lookupA_applyKV_mem _ _ _ _ (by simp [HeritageLabel, OperatorLabel, InstanceLabel]) (by simp)
    · show lookupA (applyKV p.labels [(HeritageLabel, "kudo"), (OperatorLabel, md.operatorName),
        (InstanceLabel, md.instanceName)]) OperatorLabel = some md.operatorName
      exact lookupA_applyKV_mem _ _ _ _ (by simp [HeritageLabel, OperatorLabel, InstanceLabel]) (by simp)
    · show lookupA (applyKV p.labels [(HeritageLabel, "kudo"), (OperatorLabel, md.operatorName),
        (InstanceLabel, md.instanceName)]) InstanceLabel = some md.instanceName
      exact lookupA_applyKV_mem _ _ _ _ (by simp [HeritageLabel, OperatorLabel, InstanceLabel]) (by simp)
    · show lookupA (applyKV p.annotations [(PlanAnnotationKey, md.planName),
        (PhaseAnnotationKey, md.phaseName), (StepAnnotationKey, md.stepName),
        (OperatorVersionAnnotationKey, md.operatorVersion)]) PlanAnnotationKey = some md.planName
      exact lookupA_applyKV_mem _ _ _ _
        (by simp [PlanAnnotationKey, PhaseAnnotationKey, StepAnnotationKey, OperatorVersionAnnotationKey]) (by simp)
    · show lookupA (applyKV p.annotations [(PlanAnnotationKey, md.planName),
        (PhaseAnnotationKey, md.phaseName), (StepAnnotationKey, md.stepName),
        (OperatorVersionAnnotationKey, md.operatorVersion)]) PhaseAnnotationKey = some md.phaseName
      exact lookupA_applyKV_mem _ _ _ _
        (by simp [PlanAnnotationKey, PhaseAnnotationKey, StepAnnotationKey, OperatorVersionAnnotationKey]) (by simp)
    · show lookupA (applyKV p.annotations [(PlanAnnotationKey, md.planName),
        (PhaseAnnotationKey, md.phaseName), (StepAnnotationKey, md.stepName),
        (OperatorVersionAnnotationKey, md.operatorVersion)]) StepAnnotationKey = some md.stepName
      exact lookupA_applyKV_mem _ _ _ _
        (by simp [PlanAnnotationKey, PhaseAnnotationKey, StepAnnotationKey, OperatorVersionAnnotationKey]) (by simp)
    · show lookupA (applyKV p.annotations [(PlanAnnotationKey, md.planName),
        (PhaseAnnotationKey, md.phaseName), (StepAnnotationKey, md.stepName),
        (OperatorVersionAnnotationKey, md.operatorVersion)]) OperatorVersionAnnotationKey = some md.operatorVersion
      exact lookupA_applyKV_mem _ _ _ _
        (by simp [PlanAnnotationKey, PhaseAnnotationKey, StepAnnotationKey, OperatorVersionAnnotationKey]) (by simp)

theorem c7_enhancer_conventions_witness :
    applyConventionsToTemplates c7wParse [("t1", "y")] c7wMd "own" = some c7wObjs ∧
    (∀ o ∈ c7wObjs,
      lookupA o.labels HeritageLabel = some "kudo" ∧
      lookupA o.labels OperatorLabel = some c7wMd.operatorName ∧
      lookupA o.labels InstanceLabel = some c7wMd.instanceName ∧
      lookupA o.annotations PlanAnnotationKey = some c7wMd.planName ∧
      lookupA o.annotations PhaseAnnotationKey = some c7wMd.phaseName ∧
      lookupA o.annotations StepAnnotationKey = some c7wMd.stepName ∧
      lookupA o.annotations OperatorVersionAnnotationKey = some c7wMd.operatorVersion ∧
      (∃ orig, o.name = (c7wMd.instanceName ++ "-") ++ orig) ∧
      o.namespaceName = c7wMd.namespaceName ∧
      o.ownerController = some "own") :=
  ⟨rfl, c7_enhancer_conventions c7wParse [("t1", "y")] c7wMd "own" c7wObjs rfl⟩

theorem mem_of_count_ne_zero {l : List String} {n : String} (h : l.count n ≠ 0) : n ∈ l := by
  by_contra hm
  rw [List.count_eq_zero_of_not_mem hm] at h
  exact h rfl

theorem wf_markable {spec : Plan} {store : List PhaseStatus}
    (h : wfStoreB spec store = true) {ph : Phase} {st : Step}
    (hph : ph ∈ spec.phases) (hst : st ∈ ph.steps) :
    stepMarkable ph.name st.name store := by
  have h2 := List.all_eq_true.mp h ph hph
  simp only [Bool.and_eq_true] at h2
  obtain ⟨hc, hrest⟩ := h2
  unfold stepMarkable
  cases hcps : getPhaseFromStatus ph.name store with
  | none => rw [hcps] at hrest; cases hrest
  | some cps =>
    rw [hcps] at hrest
    have h3 := List.all_eq_true.mp hrest st hst
    have h4 : (stepNames cps.steps).count st.name = 1 := by simpa using h3
    have hmem : st.name ∈ stepNames cps.steps := mem_of_count_ne_zero (by omega)
    exact getStepOfSteps_isSome_of_mem hmem

theorem markStatuses_isSome {phName stName : String} {store : List PhaseStatus}
    (h : stepMarkable phName stName store) (x : ExecutionStatus) :
    ∃ store2, markStatuses phName stName x store = some store2 := by
  cases hcps : getPhaseFromStatus phName store with
  | none => simp only [stepMarkable, hcps] at h
  | some cps =>
    simp only [stepMarkable, hcps] at h
    cases hss : getStepOfSteps stName cps.steps with
    | none => rw [hss] at h; cases h
    | some ss =>
      refine ⟨setPhaseInStore phName
        ⟨cps.name, x, setStepInSteps stName ⟨ss.name, x⟩ cps.steps⟩ store, ?_⟩
      simp only [markStatuses, hcps, getStepFromStatus, hss]

theorem markStatuses_marks {phName stName : String} {x : ExecutionStatus}
    {store store2 : List PhaseStatus}
    (h : markStatuses phName stName x store = some store2) :
    markedAt x phName stName store2 := by
  cases hcps : getPhaseFromStatus phName store with
  | none => simp only [markStatuses, hcps] at h; cases h
  | some cps =>
    cases hss : getStepOfSteps stName cps.steps with
    | none => simp only [markStatuses, hcps, getStepFromStatus, hss] at h; cases h
    | some ss =>
      simp only [markStatuses, hcps, getStepFromStatus, hss, Option.some.injEq] at h
      subst h
      have hname : cps.name = phName := getPhaseFromStatus_name hcps
      have hsname : ss.name = stName := getStepOfSteps_name hss
      refine ⟨⟨cps.name, x, setStepInSteps stName ⟨ss.name, x⟩ cps.steps⟩, ?_, rfl, ?_⟩
      · exact @setPhaseInStore_get phName
          ⟨cps.name, x, setStepInSteps stName ⟨ss.name, x⟩ cps.steps⟩ hname store
          (by rw [hcps]; rfl)
      · unfold getStepFromStatus
        refine ⟨⟨ss.name, x⟩, ?_, rfl⟩
        exact @setStepInSteps_get stName ⟨ss.name, x⟩ hsname cps.steps (by rw [hss]; rfl)

theorem renderTaskResources_ok_present {engine : kudoEngine}
    {templates : List (String × String)} {cfg : Configs} :
    ∀ {keys : List String} {acc acc2 : List (String × String)},
      renderTaskResources engine templates cfg acc keys = renderOut.ok acc2 →
      ∀ r ∈ keys, (lookupA templates r).isSome = true := by
  intro keys
  induction keys with
  | nil => intro acc acc2 _ r hr; cases hr
  | cons k rest ih =>
    intro acc acc2 h r hr
    simp only [renderTaskResources] at h
    cases hk : lookupA templates k with
    | none => simp only [hk] at h; cases h
    | some tpl =>
      simp only [hk] at h
      cases hrd : engine.render tpl cfg with
      | none => simp only [hrd] at h; cases h
      | some y =>
        simp only [hrd] at h
        rcases List.mem_cons.mp hr with h1 | h2
        · subst h1; rw [hk]; rfl
        · exact ih h r h2

theorem renderTaskResources_cases {engine : kudoEngine}
    {templates : List (String × String)} {cfg : Configs}
    (hr : renderTotal engine) :
    ∀ (keys : List String) (acc : List (String × String)),
      (∃ acc2, renderTaskResources engine templates cfg acc keys = renderOut.ok acc2) ∨
      (renderTaskResources engine templates cfg acc keys = renderOut.missingTemplate ∧
        ∃ r ∈ keys, lookupA templates r = none) := by
  intro keys
  induction keys with
  | nil => intro acc; exact Or.inl ⟨acc, rfl⟩
  | cons k rest ih =>
    intro acc
    cases hk : lookupA templates k with
    | none =>
      right
      constructor
      · simp only [renderTaskResources, hk]
      · exact ⟨k, List.mem_cons_self k rest, hk⟩
    | some tpl =>
      cases hrd : engine.render tpl cfg with
      | none =>
        have htot := hr tpl cfg
        rw [hrd] at htot
        simp at htot
      | some y =>
        rcases ih (insertReplace k y acc) with ⟨acc2, hok⟩ | ⟨hmt, r, hrmem, hrnone⟩
        · left
          exact ⟨acc2, by simp only [renderTaskResources, hk, hrd]; exact hok⟩
        · right
          constructor
          · simp only [renderTaskResources, hk, hrd]; exact hmt
          · exact ⟨r, List.mem_cons_of_mem k hrmem, hrnone⟩

theorem runStepTasks_cases {tasks : List (String × TaskSpec)} {templates : List (String × String)}
    {renderer : kubernetesObjectEnhancer} {engine : kudoEngine}
    {cfg : Configs} {em : metadata} {owner : String}
    (hr : renderTotal engine) (he : enhanceTotal renderer) :
    ∀ ts : List String,
      (∃ objs, runStepTasks tasks templates renderer engine cfg em owner ts = taskOut.ok objs) ∨
      (runStepTasks tasks templates renderer engine cfg em owner ts = taskOut.missingTask ∧
        ∃ t ∈ ts, lookupA tasks t = none) ∨
      (runStepTasks tasks templates renderer engine cfg em owner ts = taskOut.missingTemplate ∧
        ∃ t ∈ ts, ∃ tsp, lookupA tasks t = some tsp ∧
          ∃ r ∈ tsp.resources, lookupA templates r = none) := by
  intro ts
  induction ts with
  | nil => exact Or.inl ⟨[], rfl⟩
  | cons t rest ih =>
    cases ht : lookupA tasks t with
    | none =>
      refine Or.inr (Or.inl ⟨?_, t, List.mem_cons_self t rest, ht⟩)
      simp only [runStepTasks, ht]
    | some tsp =>
      rcases @renderTaskResources_cases engine templates cfg hr tsp.resources [] with ⟨ras, hok⟩ | ⟨hmt, r, hrm, hrn⟩
      · cases hen : renderer.applyConventions ras em owner with
        | none =>
          have htot := he ras em owner
          rw [hen] at htot
          simp at htot
        | some objs =>
          rcases ih with ⟨objs2, hok2⟩ | ⟨hmk, t2, htm, htn⟩ | ⟨hmt2, t2, htm, tsp2, htsp, r2, hrm2, hrn2⟩
          · refine Or.inl ⟨objs ++ objs2, ?_⟩
            simp only [runStepTasks, ht, hok, hen, hok2]
          · refine Or.inr (Or.inl ⟨?_, t2, List.mem_cons_of_mem t htm, htn⟩)
            simp only [runStepTasks, ht, hok, hen, hmk]
          · refine Or.inr (Or.inr ⟨?_, t2, List.mem_cons_of_mem t htm, tsp2, htsp, r2, hrm2, hrn2⟩)
            simp only [runStepTasks, ht, hok, hen, hmt2]
      · refine Or.inr (Or.inr ⟨?_, t, List.mem_cons_self t rest, tsp, ht, r, hrm, hrn⟩)
        simp only [runStepTasks, ht, hmt]

theorem runStepTasks_ok_present {tasks : List (String × TaskSpec)} {templates : List (String × String)}
    {renderer : kubernetesObjectEnhancer} {engine : kudoEngine}
    {cfg : Configs} {em : metadata} {owner : String} :
    ∀ {ts : List String} {objs : List KObject},
      runStepTasks tasks templates renderer engine cfg em owner ts = taskOut.ok objs →
      ∀ t ∈ ts, ∃ tsp, lookupA tasks t = some tsp ∧
        ∀ r ∈ tsp.resources, (lookupA templates r).isSome = true := by
  intro ts
  induction ts with
  | nil => intro objs _ t htm; cases htm
  | cons t0 rest ih =>
    intro objs h t htm
    simp only [runStepTasks] at h
    cases ht : lookupA tasks t0 with
    | none => simp only [ht] at h; cases h
    | some tsp0 =>
      simp only [ht] at h
      cases hrr : renderTaskResources engine templates cfg [] tsp0.resources with
      | renderFail => simp only [hrr] at h; cases h
      | missingTemplate => simp only [hrr] at h; cases h
      | ok ras =>
        simp only [hrr] at h
        cases hen : renderer.applyConventions ras em owner with
        | none => simp only [hen] at h; cases h
        | some objs0 =>
          simp only [hen] at h
          cases hrec : runStepTasks tasks templates renderer engine cfg em owner rest with
          | ok more =>
            rcases List.mem_cons.mp htm with h1 | h2
            · subst h1
              exact ⟨tsp0, ht, renderTaskResources_ok_present hrr⟩
            · exact ih hrec t h2
          | missingTask => simp only [hrec] at h; cases h
          | missingTemplate => simp only [hrec] at h; cases h
          | renderFail => simp only [hrec] at h; cases h
          | enhanceFail => simp only [hrec] at h; cases h

theorem prepSteps_cases {plan : activePlan} {meta : executionMetadata}
    {renderer : kubernetesObjectEnhancer} {engine : kudoEngine}
    {ph : Phase} {store : List PhaseStatus}
    (hr : renderTotal engine) (he : enhanceTotal renderer) :
    ∀ (steps : List Step), (∀ st ∈ steps, stepMarkable ph.name st.name store) →
    ∀ (j : Nat) (acc : List (String × List KObject)),
      (∃ res, prepSteps plan meta renderer engine ph store j steps acc = prepStepsOut.ok res) ∨
      (∃ st ∈ steps, (∃ t ∈ st.tasks, lookupA plan.tasks t = none) ∧
        ∃ store2, prepSteps plan meta renderer engine ph store j steps acc = prepStepsOut.fail false store2 ∧
          markedAt ExecutionStatus.errorStatus ph.name st.name store2) ∨
      (∃ st ∈ steps, (∃ t ∈ st.tasks, ∃ tsp, lookupA plan.tasks t = some tsp ∧
          ∃ r ∈ tsp.resources, lookupA plan.templates r = none) ∧
        ∃ store2, prepSteps plan meta renderer engine ph store j steps acc = prepStepsOut.fail true store2 ∧
          markedAt ExecutionStatus.executionFatalError ph.name st.name store2) := by
  intro steps
  induction steps with
  | nil => intro _ j acc; exact Or.inl ⟨acc, rfl⟩
  | cons st rest ih =>
    intro hmark j acc
    have hmk0 : stepMarkable ph.name st.name store := hmark st (List.mem_cons_self st rest)
    have hcases := @runStepTasks_cases plan.tasks plan.templates renderer engine
      ⟨meta.operatorName, meta.instanceName, meta.instanceNamespace, plan.params,
        plan.name, ph.name, st.name, toString j⟩
      ⟨meta.instanceName, meta.instanceNamespace, meta.operatorName,
        meta.operatorVersion, plan.name, ph.name, st.name⟩
      meta.resourcesOwner hr he st.tasks
    rcases hcases with ⟨objs, hok⟩ | ⟨hmk, t, htm, htn⟩ | ⟨hmt, t, htm, tsp, htsp, r, hrm, hrn⟩
    · have hred : prepSteps plan meta renderer engine ph store j (st :: rest) acc
          = prepSteps plan meta renderer engine ph store (j + 1) rest (insertReplace st.name objs acc) := by
        simp only [prepSteps, hok]
      rw [hred]
      rcases ih (fun s hs => hmark s (List.mem_cons_of_mem st hs)) (j + 1) (insertReplace st.name objs acc) with
        h1 | ⟨s2, hs2, hmiss, store2, hfail, hmarked⟩ | ⟨s2, hs2, hmiss, store2, hfail, hmarked⟩
      · exact Or.inl h1
      · exact Or.inr (Or.inl ⟨s2, List.mem_cons_of_mem st hs2, hmiss, store2, hfail, hmarked⟩)
      · exact Or.inr (Or.inr ⟨s2, List.mem_cons_of_mem st hs2, hmiss, store2, hfail, hmarked⟩)
    · obtain ⟨store2, hms⟩ := markStatuses_isSome hmk0 ExecutionStatus.errorStatus
      refine Or.inr (Or.inl ⟨st, List.mem_cons_self st rest, ⟨t, htm, htn⟩, store2, ?_, markStatuses_marks hms⟩)
      simp only [prepSteps, hmk, hms]
    · obtain ⟨store2, hms⟩ := markStatuses_isSome hmk0 ExecutionStatus.executionFatalError
      refine Or.inr (Or.inr ⟨st, List.mem_cons_self st rest, ⟨t, htm, tsp, htsp, r, hrm, hrn⟩, store2, ?_, markStatuses_marks hms⟩)
      simp only [prepSteps, hmt, hms]

theorem prepPhases_cases {plan : activePlan} {meta : executionMetadata}
    {renderer : kubernetesObjectEnhancer} {engine : kudoEngine}
    {store : List PhaseStatus}
    (hr : renderTotal engine) (he : enhanceTotal renderer) :
    ∀ (phases : List Phase), (∀ ph ∈ phases, ∀ st ∈ ph.steps, stepMarkable ph.name st.name store) →
    ∀ (acc : List (String × phaseResources)),
      (∃ pres, prepPhases plan meta renderer engine store phases acc = prepOut.ok pres store) ∨
      (∃ ph ∈ phases, ∃ st ∈ ph.steps, (∃ t ∈ st.tasks, lookupA plan.tasks t = none) ∧
        ∃ store2, prepPhases plan meta renderer engine store phases acc = prepOut.fail false store2 ∧
          markedAt ExecutionStatus.errorStatus ph.name st.name store2) ∨
      (∃ ph ∈ phases, ∃ st ∈ ph.steps, (∃ t ∈ st.tasks, ∃ tsp, lookupA plan.tasks t = some tsp ∧
          ∃ r ∈ tsp.resources, lookupA plan.templates r = none) ∧
        ∃ store2, prepPhases plan meta renderer engine store phases acc = prepOut.fail true store2 ∧
          markedAt ExecutionStatus.executionFatalError ph.name st.name store2) := by
  intro phases
  induction phases with
  | nil => intro _ acc; exact Or.inl ⟨⟨acc⟩, rfl⟩
  | cons ph rest ih =>
    intro hmark acc
    rcases @prepSteps_cases plan meta renderer engine ph store hr he ph.steps (hmark ph (List.mem_cons_self ph rest)) 0 [] with
      ⟨res, hok⟩ | ⟨st, hst, hmiss, store2, hfail, hmarked⟩ | ⟨st, hst, hmiss, store2, hfail, hmarked⟩
    · have hred : prepPhases plan meta renderer engine store (ph :: rest) acc
          = prepPhases plan meta renderer engine store rest (insertReplace ph.name ⟨res⟩ acc) := by
        simp only [prepPhases, hok]
      rw [hred]
      rcases ih (fun p hp => hmark p (List.mem_cons_of_mem ph hp)) (insertReplace ph.name ⟨res⟩ acc) with
        h1 | ⟨p2, hp2, s2, hs2, hmiss2, store2, hfail2, hmarked2⟩ | ⟨p2, hp2, s2, hs2, hmiss2, store2, hfail2, hmarked2⟩
      · exact Or.inl h1
      · exact Or.inr (Or.inl ⟨p2, List.mem_cons_of_mem ph hp2, s2, hs2, hmiss2, store2, hfail2, hmarked2⟩)
      · exact Or.inr (Or.inr ⟨p2, List.mem_cons_of_mem ph hp2, s2, hs2, hmiss2, store2, hfail2, hmarked2⟩)
    · refine Or.inr (Or.inl ⟨ph, List.mem_cons_self ph rest, st, hst, hmiss, store2, ?_, hmarked⟩)
      simp only [prepPhases, hfail]
    · refine Or.inr (Or.inr ⟨ph, List.mem_cons_self ph rest, st, hst, hmiss, store2, ?_, hmarked⟩)
      simp only [prepPhases, hfail]

theorem prepSteps_ok_present {plan : activePlan} {meta : executionMetadata}
    {renderer : kubernetesObjectEnhancer} {engine : kudoEngine}
    {ph : Phase} {store : List PhaseStatus} :
    ∀ {steps : List Step} {j : Nat} {acc res},
      prepSteps plan meta renderer engine ph store j steps acc = prepStepsOut.ok res →
      ∀ st ∈ steps, ∀ t ∈ st.tasks, ∃ tsp, lookupA plan.tasks t = some tsp ∧
        ∀ r ∈ tsp.resources, (lookupA plan.templates r).isSome = true := by
  intro steps
  induction steps with
  | nil => intro j acc res _ st hst; cases hst
  | cons st0 rest ih =>
    intro j acc res h st hst
    cases hrt : runStepTasks plan.tasks plan.templates renderer engine
        ⟨meta.operatorName, meta.instanceName, meta.instanceNamespace, plan.params,
          plan.name, ph.name, st0.name, toString j⟩
        ⟨meta.instanceName, meta.instanceNamespace, meta.operatorName,
          meta.operatorVersion, plan.name, ph.name, st0.name⟩
        meta.resourcesOwner st0.tasks with
    | ok objs =>
      have hred : prepSteps plan meta renderer engine ph store j (st0 :: rest) acc
          = prepSteps plan meta renderer engine ph store (j + 1) rest (insertReplace st0.name objs acc) := by
        simp only [prepSteps, hrt]
      rw [hred] at h
      rcases List.mem_cons.mp hst with h1 | h2
      · subst h1
        exact runStepTasks_ok_present hrt
      · exact ih h st h2
    | missingTask =>
      exfalso
      rcases hms : markStatuses ph.name st0.name ExecutionStatus.errorStatus store with _ | s2 <;>
        simp only [prepSteps, hrt, hms] at h <;> cases h
    | enhanceFail =>
      exfalso
      rcases hms : markStatuses ph.name st0.name ExecutionStatus.errorStatus store with _ | s2 <;>
        simp only [prepSteps, hrt, hms] at h <;> cases h
    | missingTemplate =>
      exfalso
      rcases hms : markStatuses ph.name st0.name ExecutionStatus.executionFatalError store with _ | s2 <;>
        simp only [prepSteps, hrt, hms] at h <;> cases h
    | renderFail =>
      exfalso
      rcases hms : markStatuses ph.name st0.name ExecutionStatus.executionFatalError store with _ | s2 <;>
        simp only [prepSteps, hrt, hms] at h <;> cases h

theorem prepPhases_ok_present {plan : activePlan} {meta : executionMetadata}
    {renderer : kubernetesObjectEnhancer} {engine : kudoEngine}
    {store : List PhaseStatus} :
    ∀ {phases : List Phase} {acc pres store2},
      prepPhases plan meta renderer engine store phases acc = prepOut.ok pres store2 →
      ∀ ph ∈ phases, ∀ st ∈ ph.steps, ∀ t ∈ st.tasks, ∃ tsp, lookupA plan.tasks t = some tsp ∧
        ∀ r ∈ tsp.resources, (lookupA plan.templates r).isSome = true := by
  intro phases
  induction phases with
  | nil => intro acc pres store2 _ ph hph; cases hph
  | cons ph0 rest ih =>
    intro acc pres store2 h ph hph
    cases hps : prepSteps plan meta renderer engine ph0 store 0 ph0.steps [] with
    | ok res =>
      have hred : prepPhases plan meta renderer engine store (ph0 :: rest) acc
          = prepPhases plan meta renderer engine store rest (insertReplace ph0.name ⟨res⟩ acc) := by
        simp only [prepPhases, hps]
      rw [hred] at h
      rcases List.mem_cons.mp hph with h1 | h2
      · subst h1
        exact fun st hst => prepSteps_ok_present hps st hst
      · exact ih h ph h2
    | fail f s2 => exfalso; simp only [prepPhases, hps] at h; cases h
    | crash => exfalso; simp only [prepPhases, hps] at h; cases h

theorem taskMissingTemplateB_elim {plan : activePlan} {t : String}
    (h : taskMissingTemplateB plan t = true) :
    ∃ tsp, lookupA plan.tasks t = some tsp ∧
      ∃ r ∈ tsp.resources, lookupA plan.templates r = none := by
  unfold taskMissingTemplateB at h
  cases ht : lookupA plan.tasks t with
  | none => rw [ht] at h; cases h
  | some tsp =>
    rw [ht] at h
    obtain ⟨r, hrm, hrn⟩ := List.any_eq_true.mp h
    exact ⟨tsp, rfl, r, hrm, Option.isNone_iff_eq_none.mp hrn⟩

theorem taskMissingTemplateB_intro {plan : activePlan} {t : String} {tsp : TaskSpec} {r : String}
    (ht : lookupA plan.tasks t = some tsp) (hrm : r ∈ tsp.resources)
    (hrn : lookupA plan.templates r = none) :
    taskMissingTemplateB plan t = true := by
  unfold taskMissingTemplateB
  rw [ht]
  exact List.any_eq_true.mpr ⟨r, hrm, Option.isNone_iff_eq_none.mpr hrn⟩

theorem prepare_cases (plan : activePlan) (meta : executionMetadata)
    (renderer : kubernetesObjectEnhancer) (engine : kudoEngine)
    (hwf : wfStoreB plan.spec plan.planStatus.phases = true)
    (hr : renderTotal engine) (he : enhanceTotal renderer) :
    (∃ pres, prepareKubeResources plan meta renderer engine = prepOut.ok pres plan.planStatus.phases) ∨
    (∃ ph ∈ plan.spec.phases, ∃ st ∈ ph.steps, (∃ t ∈ st.tasks, lookupA plan.tasks t = none) ∧
      ∃ store2, prepareKubeResources plan meta renderer engine = prepOut.fail false store2 ∧
        markedAt ExecutionStatus.errorStatus ph.name st.name store2) ∨
    (∃ ph ∈ plan.spec.phases, ∃ st ∈ ph.steps, (∃ t ∈ st.tasks, ∃ tsp, lookupA plan.tasks t = some tsp ∧
        ∃ r ∈ tsp.resources, lookupA plan.templates r = none) ∧
      ∃ store2, prepareKubeResources plan meta renderer engine = prepOut.fail true store2 ∧
        markedAt ExecutionStatus.executionFatalError ph.name st.name store2) :=
  @prepPhases_cases plan meta renderer engine plan.planStatus.phases hr he plan.spec.phases
    (fun ph hph st hst => wf_markable hwf hph hst) []

theorem prepare_ok_present {plan : activePlan} {meta : executionMetadata}
    {renderer : kubernetesObjectEnhancer} {engine : kudoEngine} {pres : planResources}
    {store2 : List PhaseStatus}
    (h : prepareKubeResources plan meta renderer engine = prepOut.ok pres store2) :
    ∀ ph ∈ plan.spec.phases, ∀ st ∈ ph.steps, ∀ t ∈ st.tasks,
      ∃ tsp, lookupA plan.tasks t = some tsp ∧
        ∀ r ∈ tsp.resources, (lookupA plan.templates r).isSome = true :=
  prepPhases_ok_present h

/-- C1 (code evaluation at the failing input): for a plan whose only step
references a task absent from the catalog, preparation fails with a
non-fatal `executionError`, yet `executePlan` sets the top-level status
to `ExecutionFatalError`, because `errors.As` matches any
`*executionError` irrespective of its `fatal` field. -/
theorem c1_fatal_misclassification :
    (executePlan c1Plan wMeta wClientTriv wEnhancer wEngine).map
        (fun tk => (tk.err, tk.newStatus.status)) =
      some (some (EngineError.execError false), ExecutionStatus.executionFatalError) ∧
    ExecutionStatus.executionFatalError ≠ ExecutionStatus.errorStatus := by
  constructor
  · rfl
  · decide

/-- C2 counterexample: at a plan whose only step references, through a
present task, the missing template key `"r"`, preparation marks the
containing phase and step `ExecutionFatalError` and returns a fatal
error — not `ErrorStatus` with a non-fatal error as the claim states. -/
theorem c2_counterexample_missing_template :
    prepareKubeResources c2Plan wMeta wEnhancer wEngine =
      prepOut.fail true
        [⟨"p", ExecutionStatus.executionFatalError, [⟨"s", ExecutionStatus.executionFatalError⟩]⟩] ∧
    ¬ (∃ store2, prepareKubeResources c2Plan wMeta wEnhancer wEngine = prepOut.fail false store2) := by
  constructor
  · rfl
  · intro ⟨store2, h⟩
    rw [show prepareKubeResources c2Plan wMeta wEnhancer wEngine =
      prepOut.fail true
        [⟨"p", ExecutionStatus.executionFatalError, [⟨"s", ExecutionStatus.executionFatalError⟩]⟩] from rfl] at h
    cases h

/-- C2 (amended): with total rendering and enhancement, the first
preparation error classifies as follows — a task reference absent from
the task catalog marks its phase and step `ErrorStatus` and fails
non-fatally, while a present task referencing a template key absent from
the template catalog marks its phase and step `ExecutionFatalError` and
fails fatally. -/
theorem c2_preparation_error_classification
    (planA : activePlan) (metaA : executionMetadata)
    (rA : kubernetesObjectEnhancer) (eA : kudoEngine)
    (hwfA : wfStoreB planA.spec planA.planStatus.phases = true)
    (hrA : renderTotal eA) (heA : enhanceTotal rA)
    (hmissA : hasMissingTask planA) (htplA : allTemplatesPresent planA)
    (planB : activePlan) (metaB : executionMetadata)
    (rB : kubernetesObjectEnhancer) (eB : kudoEngine)
    (hwfB : wfStoreB planB.spec planB.planStatus.phases = true)
    (hrB : renderTotal eB) (heB : enhanceTotal rB)
    (htaskB : allTasksPresent planB) (hmissB : hasMissingTemplate planB) :
    (∃ ph ∈ planA.spec.phases, ∃ st ∈ ph.steps, (∃ t ∈ st.tasks, lookupA planA.tasks t = none) ∧
      ∃ store2, prepareKubeResources planA metaA rA eA = prepOut.fail false store2 ∧
        markedAt ExecutionStatus.errorStatus ph.name st.name store2) ∧
    (∃ ph ∈ planB.spec.phases, ∃ st ∈ ph.steps, (∃ t ∈ st.tasks, taskMissingTemplateB planB t = true) ∧
      ∃ store2, prepareKubeResources planB metaB rB eB = prepOut.fail true store2 ∧
        markedAt ExecutionStatus.executionFatalError ph.name st.name store2) := by
  constructor
  · rcases prepare_cases planA metaA rA eA hwfA hrA heA with
      ⟨pres, hok⟩ | hmid | ⟨ph, hph, st, hst, ⟨t, htm, tsp, htsp, r, hrm, hrn⟩, store2, hfail, hmk⟩
    · exfalso
      obtain ⟨ph, hph, st, hst, t, htm, htn⟩ := hmissA
      obtain ⟨tsp, htsp, -⟩ := prepare_ok_present hok ph hph st hst t htm
      rw [htn] at htsp
      cases htsp
    · exact hmid
    · exfalso
      have := htplA ph hph st hst t htm
      rw [taskMissingTemplateB_intro htsp hrm hrn] at this
      cases this
  · rcases prepare_cases planB metaB rB eB hwfB hrB heB with
      ⟨pres, hok⟩ | ⟨ph, hph, st, hst, ⟨t, htm, htn⟩, store2, hfail, hmk⟩ | hright
    · exfalso
      obtain ⟨ph, hph, st, hst, t, htm, hmt⟩ := hmissB
      obtain ⟨tsp, htsp, hall⟩ := prepare_ok_present hok ph hph st hst t htm
      obtain ⟨tsp2, htsp2, r, hrm, hrn⟩ := taskMissingTemplateB_elim hmt
      rw [htsp] at htsp2
      cases htsp2
      have := hall r hrm
      rw [hrn] at this
      cases this
    · exfalso
      have := htaskB ph hph st hst t htm
      rw [htn] at this
      cases this
    · obtain ⟨ph, hph, st, hst, ⟨t, htm, tsp, htsp, r, hrm, hrn⟩, store2, hfail, hmk⟩ := hright
      exact ⟨ph, hph, st, hst, ⟨t, htm, taskMissingTemplateB_intro htsp hrm hrn⟩, store2, hfail, hmk⟩

theorem c2_preparation_error_classification_witness :
    wfStoreB c1Plan.spec c1Plan.planStatus.phases = true ∧
    renderTotal wEngine ∧ enhanceTotal wEnhancer ∧
    hasMissingTask c1Plan ∧ allTemplatesPresent c1Plan ∧
    wfStoreB c2Plan.spec c2Plan.planStatus.phases = true ∧
    allTasksPresent c2Plan ∧ hasMissingTemplate c2Plan ∧
    ((∃ ph ∈ c1Plan.spec.phases, ∃ st ∈ ph.steps, (∃ t ∈ st.tasks, lookupA c1Plan.tasks t = none) ∧
      ∃ store2, prepareKubeResources c1Plan wMeta wEnhancer wEngine = prepOut.fail false store2 ∧
        markedAt ExecutionStatus.errorStatus ph.name st.name store2) ∧
    (∃ ph ∈ c2Plan.spec.phases, ∃ st ∈ ph.steps, (∃ t ∈ st.tasks, taskMissingTemplateB c2Plan t = true) ∧
      ∃ store2, prepareKubeResources c2Plan wMeta wEnhancer wEngine = prepOut.fail true store2 ∧
        markedAt ExecutionStatus.executionFatalError ph.name st.name store2)) :=
  ⟨by decide, fun _ _ => rfl, fun _ _ _ => rfl, by decide, by decide, by decide, by decide, by decide,
    c2_preparation_error_classification c1Plan wMeta wEnhancer wEngine (by decide)
      (fun _ _ => rfl) (fun _ _ _ => rfl) (by decide) (by decide)
      c2Plan wMeta wEnhancer wEngine (by decide) (fun _ _ => rfl) (fun _ _ _ => rfl)
      (by decide) (by decide)⟩

theorem getStepOfSteps_mem {n : String} : ∀ {l : List StepStatus} {s : StepStatus},
    getStepOfSteps n l = some s → s ∈ l := by
  intro l
  induction l with
  | nil => intro s h; cases h
  | cons p rest ih =>
    intro s h
    simp only [getStepOfSteps] at h
    split at h
    · cases h; exact List.mem_cons_self p rest
    · exact List.mem_cons_of_mem p (ih h)

theorem getPhaseFromStatus_mem {n : String} : ∀ {l : List PhaseStatus} {s : PhaseStatus},
    getPhaseFromStatus n l = some s → s ∈ l := by
  intro l
  induction l with
  | nil => intro s h; cases h
  | cons p rest ih =>
    intro s h
    simp only [getPhaseFromStatus] at h
    split at h
    · cases h; exact List.mem_cons_self p rest
    · exact List.mem_cons_of_mem p (ih h)

theorem mem_setStepInSteps {n : String} {v : StepStatus} : ∀ {l : List StepStatus} {x : StepStatus},
    x ∈ setStepInSteps n v l → x = v ∨ x ∈ l := by
  intro l
  induction l with
  | nil => intro x h; cases h
  | cons p rest ih =>
    intro x h
    simp only [setStepInSteps] at h
    split at h
    · rcases List.mem_cons.mp h with h1 | h2
      · exact Or.inl h1
      · exact Or.inr (List.mem_cons_of_mem p h2)
    · rcases List.mem_cons.mp h with h1 | h2
      · exact Or.inr (h1 ▸ List.mem_cons_self p rest)
      · rcases ih h2 with h3 | h4
        · exact Or.inl h3
        · exact Or.inr (List.mem_cons_of_mem p h4)

theorem mem_setPhaseInStore {n : String} {v : PhaseStatus} : ∀ {l : List PhaseStatus} {x : PhaseStatus},
    x ∈ setPhaseInStore n v l → x = v ∨ x ∈ l := by
  intro l
  induction l with
  | nil => intro x h; cases h
  | cons p rest ih =>
    intro x h
    simp only [setPhaseInStore] at h
    split at h
    · rcases List.mem_cons.mp h with h1 | h2
      · exact Or.inl h1
      · exact Or.inr (List.mem_cons_of_mem p h2)
    · rcases List.mem_cons.mp h with h1 | h2
      · exact Or.inr (h1 ▸ List.mem_cons_self p rest)
      · rcases ih h2 with h3 | h4
        · exact Or.inl h3
        · exact Or.inr (List.mem_cons_of_mem p h4)

theorem executeStep_state_noFatal {st : Step} {s : StepStatus} {res : List KObject} {c : KClient}
    (h : s.status ≠ ExecutionStatus.executionFatalError) :
    (executeStep st s res c).state.status ≠ ExecutionStatus.executionFatalError := by
  unfold executeStep
  split
  · rcases hx : execResources st c res true with ⟨a, b, w⟩
    cases b with
    | none =>
      simp only
      split
      · intro hc; cases hc
      · intro hc; cases hc
    | some e =>
      simp only
      intro hc; cases hc
  · exact h

theorem executeStep_state_name (st : Step) (s : StepStatus) (res : List KObject) (c : KClient) :
    (executeStep st s res c).state.name = s.name := by
  unfold executeStep
  split
  · rcases hx : execResources st c res true with ⟨a, b, w⟩
    cases b with
    | none =>
      simp only
      split
      · rfl
      · rfl
    | some e => rfl
  · rfl

theorem driveStepsAux_noFatal {strategy : Strategy} {c : KClient} {resFor : String → List KObject} :
    ∀ (steps : List Step) (sts : List StepStatus) (allH : Bool), noFatalSteps sts →
      (∀ s h w x, driveStepsAux strategy c resFor steps sts allH = stepsOut.ok s h w x → noFatalSteps s) ∧
      (∀ s e w x, driveStepsAux strategy c resFor steps sts allH = stepsOut.fail s e w x → noFatalSteps s) := by
  intro steps
  induction steps with
  | nil =>
    intro sts allH hnf
    constructor
    · intro s h w x heq
      cases heq
      exact hnf
    · intro s e w x heq
      cases heq
  | cons sp rest ih =>
    intro sts allH hnf
    cases hcur : getStepOfSteps sp.name sts with
    | none =>
      constructor
      · intro s h w x heq; simp only [driveStepsAux, hcur] at heq; cases heq
      · intro s e w x heq; simp only [driveStepsAux, hcur] at heq; cases heq
    | some cur =>
      have hcurnf : cur.status ≠ ExecutionStatus.executionFatalError :=
        (hnf cur (getStepOfSteps_mem hcur))
      have hrunnf : (executeStep sp cur (resFor sp.name) c).state.status
          ≠ ExecutionStatus.executionFatalError := executeStep_state_noFatal hcurnf
      have hsts1 : noFatalSteps (setStepInSteps sp.name (executeStep sp cur (resFor sp.name) c).state sts) := by
        intro y hy
        rcases mem_setStepInSteps hy with h1 | h2
        · rw [h1]; exact hrunnf
        · exact hnf y h2
      have hsts2 : noFatalSteps (setStepInSteps sp.name ⟨sp.name, ExecutionStatus.errorStatus⟩
          (setStepInSteps sp.name (executeStep sp cur (resFor sp.name) c).state sts)) := by
        intro y hy
        rcases mem_setStepInSteps hy with h1 | h2
        · rw [h1]; intro hc; cases hc
        · exact hsts1 y h2
      constructor
      · intro s h w x heq
        simp only [driveStepsAux, hcur] at heq
        cases herr : (executeStep sp cur (resFor sp.name) c).err with
        | some e => rw [herr] at heq; cases heq
        | none =>
          rw [herr] at heq
          by_cases hfin : isFinished (executeStep sp cur (resFor sp.name) c).state.status = true
          · rw [if_pos hfin] at heq
            cases hrec : driveStepsAux strategy c resFor rest
                (setStepInSteps sp.name (executeStep sp cur (resFor sp.name) c).state sts) allH with
            | ok s2 h2 w2 x2 =>
              rw [hrec] at heq
              cases heq
              exact (ih _ allH hsts1).1 _ _ _ _ hrec
            | fail s2 e2 w2 x2 => rw [hrec] at heq; cases heq
            | crash => rw [hrec] at heq; cases heq
          · rw [if_neg hfin] at heq
            cases strategy with
            | serial =>
              cases heq
              exact hsts1
            | parallel =>
              cases hrec : driveStepsAux Strategy.parallel c resFor rest
                  (setStepInSteps sp.name (executeStep sp cur (resFor sp.name) c).state sts) false with
              | ok s2 h2 w2 x2 =>
                rw [hrec] at heq
                cases heq
                exact (ih _ false hsts1).1 _ _ _ _ hrec
              | fail s2 e2 w2 x2 => rw [hrec] at heq; cases heq
              | crash => rw [hrec] at heq; cases heq
      · intro s e w x heq
        simp only [driveStepsAux, hcur] at heq
        cases herr : (executeStep sp cur (resFor sp.name) c).err with
        | some e0 =>
          rw [herr] at heq
          cases heq
          exact hsts2
        | none =>
          rw [herr] at heq
          by_cases hfin : isFinished (executeStep sp cur (resFor sp.name) c).state.status = true
          · rw [if_pos hfin] at heq
            cases hrec : driveStepsAux strategy c resFor rest
                (setStepInSteps sp.name (executeStep sp cur (resFor sp.name) c).state sts) allH with
            | ok s2 h2 w2 x2 => rw [hrec] at heq; cases heq
            | fail s2 e2 w2 x2 =>
              rw [hrec] at heq
              cases heq
              exact (ih _ allH hsts1).2 _ _ _ _ hrec
            | crash => rw [hrec] at heq; cases heq
          · rw [if_neg hfin] at heq
            cases strategy with
            | serial => cases heq
            | parallel =>
              cases hrec : driveStepsAux Strategy.parallel c resFor rest
                  (setStepInSteps sp.name (executeStep sp cur (resFor sp.name) c).state sts) false with
              | ok s2 h2 w2 x2 => rw [hrec] at heq; cases heq
              | fail s2 e2 w2 x2 =>
                rw [hrec] at heq
                cases heq
                exact (ih _ false hsts1).2 _ _ _ _ hrec
              | crash => rw [hrec] at heq; cases heq

theorem processPhase_cont_props {ph : Phase} {pres : planResources} {c : KClient}
    {store : List PhaseStatus} {top : ExecutionStatus} {s : List PhaseStatus}
    {t : ExecutionStatus} {f : Bool} {w : List WriteOp} {x : List (String × String)}
    (h : processPhase ph pres c store top = phaseOut.cont s t f w x) :
    (t = top ∨ t = ExecutionStatus.executionInProgress) ∧
      (noFatalStore store → noFatalStore s) := by
  unfold processPhase at h
  cases hcps : getPhaseFromStatus ph.name store with
  | none => simp only [hcps] at h; cases h
  | some cps =>
    simp only [hcps] at h
    by_cases h1 : isFinished cps.status = true
    · rw [if_pos h1] at h
      cases h
      exact ⟨Or.inl rfl, fun hnf => hnf⟩
    · rw [if_neg h1] at h
      by_cases h2 : isInProgress cps.status = true
      · rw [if_pos h2] at h
        cases hds : driveStepsAux ph.strategy c
            (fun stName => lookupStepResources (lookupPhaseResources pres ph.name) stName)
            ph.steps cps.steps true with
        | crash => rw [hds] at h; cases h
        | fail s2 e2 w2 x2 => rw [hds] at h; cases h
        | ok sts allH w2 x2 =>
          rw [hds] at h
          cases h
          refine ⟨Or.inr rfl, fun hnf => ?_⟩
          intro y hy
          rcases mem_setPhaseInStore hy with hy1 | hy2
          · rw [hy1]
            constructor
            · by_cases hall : allH = true
              · simp [hall]
              · simp [hall]
            · have hnfsteps : noFatalSteps cps.steps := (hnf cps (getPhaseFromStatus_mem hcps)).2
              exact (driveStepsAux_noFatal ph.steps cps.steps true hnfsteps).1 _ _ _ _ hds
          · exact hnf y hy2
      · rw [if_neg h2] at h
        cases h
        exact ⟨Or.inl rfl, fun hnf => hnf⟩

theorem processPhase_fail_props {ph : Phase} {pres : planResources} {c : KClient}
    {store : List PhaseStatus} {top : ExecutionStatus} {s : List PhaseStatus}
    {t : ExecutionStatus} {e : ApiError} {w : List WriteOp} {x : List (String × String)}
    (h : processPhase ph pres c store top = phaseOut.fail s t e w x) :
    t = ExecutionStatus.executionInProgress ∧
      (noFatalStore store → noFatalStore s) := by
  unfold processPhase at h
  cases hcps : getPhaseFromStatus ph.name store with
  | none => simp only [hcps] at h; cases h
  | some cps =>
    simp only [hcps] at h
    by_cases h1 : isFinished cps.status = true
    · rw [if_pos h1] at h; cases h
    · rw [if_neg h1] at h
      by_cases h2 : isInProgress cps.status = true
      · rw [if_pos h2] at h
        cases hds : driveStepsAux ph.strategy c
            (fun stName => lookupStepResources (lookupPhaseResources pres ph.name) stName)
            ph.steps cps.steps true with
        | crash => rw [hds] at h; cases h
        | ok sts allH w2 x2 => rw [hds] at h; cases h
        | fail sts e2 w2 x2 =>
          rw [hds] at h
          cases h
          refine ⟨rfl, fun hnf => ?_⟩
          intro y hy
          rcases mem_setPhaseInStore hy with hy1 | hy2
          · rw [hy1]
            constructor
            · intro hc; cases hc
            · have hnfsteps : noFatalSteps cps.steps := (hnf cps (getPhaseFromStatus_mem hcps)).2
              exact (driveStepsAux_noFatal ph.steps cps.steps true hnfsteps).2 _ _ _ _ hds
          · exact hnf y hy2
      · rw [if_neg h2] at h; cases h

theorem drivePhases_props {pres : planResources} {c : KClient} :
    ∀ (phases : List Phase) (store : List PhaseStatus) (top : ExecutionStatus),
      (∀ s t a w x, drivePhases pres c phases store top = driveOut.done s t a w x →
        (t = top ∨ t = ExecutionStatus.executionInProgress) ∧ (noFatalStore store → noFatalStore s)) ∧
      (∀ s t e w x, drivePhases pres c phases store top = driveOut.fail s t e w x →
        (t = top ∨ t = ExecutionStatus.executionInProgress) ∧ (noFatalStore store → noFatalStore s)) := by
  intro phases
  induction phases with
  | nil =>
    intro store top
    constructor
    · intro s t a w x heq
      cases heq
      exact ⟨Or.inl rfl, fun hnf => hnf⟩
    · intro s t e w x heq
      cases heq
  | cons ph rest ih =>
    intro store top
    constructor
    · intro s t a w x heq
      simp only [drivePhases] at heq
      cases hpp : processPhase ph pres c store top with
      | crash => simp only [hpp] at heq; cases heq
      | fail s2 t2 e2 w2 x2 => simp only [hpp] at heq; cases heq
      | cont s2 t2 f2 w2 x2 =>
        simp only [hpp] at heq
        obtain ⟨htop2, hnf2⟩ := processPhase_cont_props hpp
        by_cases hf : f2 = true
        · rw [if_pos hf] at heq
          cases hrec : drivePhases pres c rest s2 t2 with
          | done s3 t3 a3 w3 x3 =>
            rw [hrec] at heq
            cases heq
            obtain ⟨htop3, hnf3⟩ := (ih s2 t2).1 _ _ _ _ _ hrec
            constructor
            · rcases htop3 with h3 | h3
              · rw [h3]; exact htop2
              · exact Or.inr h3
            · exact fun hnf => hnf3 (hnf2 hnf)
          | fail s3 t3 e3 w3 x3 => rw [hrec] at heq; cases heq
          | crash => rw [hrec] at heq; cases heq
        · rw [if_neg hf] at heq
          cases heq
          exact ⟨htop2, hnf2⟩
    · intro s t e w x heq
      simp only [drivePhases] at heq
      cases hpp : processPhase ph pres c store top with
      | crash => simp only [hpp] at heq; cases heq
      | fail s2 t2 e2 w2 x2 =>
        simp only [hpp] at heq
        cases heq
        obtain ⟨htop2, hnf2⟩ := processPhase_fail_props hpp
        exact ⟨Or.inr htop2, hnf2⟩
      | cont s2 t2 f2 w2 x2 =>
        simp only [hpp] at heq
        obtain ⟨htop2, hnf2⟩ := processPhase_cont_props hpp
        by_cases hf : f2 = true
        · rw [if_pos hf] at heq
          cases hrec : drivePhases pres c rest s2 t2 with
          | done s3 t3 a3 w3 x3 => rw [hrec] at heq; cases heq
          | fail s3 t3 e3 w3 x3 =>
            rw [hrec] at heq
            cases heq
            obtain ⟨htop3, hnf3⟩ := (ih s2 t2).2 _ _ _ _ _ hrec
            constructor
            · rcases htop3 with h3 | h3
              · rw [h3]; exact htop2
              · exact Or.inr h3
            · exact fun hnf => hnf3 (hnf2 hnf)
          | crash => rw [hrec] at heq; cases heq
        · rw [if_neg hf] at heq; cases heq

theorem not_fatal_of_not_terminal {s : ExecutionStatus} (h : IsTerminal s = false) :
    s ≠ ExecutionStatus.executionFatalError := by
  intro hc
  subst hc
  simp [IsTerminal] at h

/-- C3: a plan referencing (through present tasks) a template key absent
from the template catalog gets, in one tick, `ExecutionFatalError` on the
containing phase status, step status and the top level, with no cluster
write issued; whereas when preparation succeeds, client errors during
step execution never introduce `ExecutionFatalError` anywhere. -/
theorem c3_missing_template_fatal_vs_transient
    (planA : activePlan) (metaA : executionMetadata) (cA : KClient)
    (rA : kubernetesObjectEnhancer) (eA : kudoEngine)
    (htermA : IsTerminal planA.planStatus.status = false)
    (hwfA : wfStoreB planA.spec planA.planStatus.phases = true)
    (hrA : renderTotal eA) (heA : enhanceTotal rA)
    (htaskA : allTasksPresent planA) (hmissA : hasMissingTemplate planA)
    (planB : activePlan) (metaB : executionMetadata) (cB : KClient)
    (rB : kubernetesObjectEnhancer) (eB : kudoEngine) (presB : planResources)
    (htermB : IsTerminal planB.planStatus.status = false)
    (hprepB : prepareKubeResources planB metaB rB eB = prepOut.ok presB planB.planStatus.phases)
    (hnfB : noFatalStore planB.planStatus.phases) :
    (∃ tk, executePlan planA metaA cA rA eA = some tk ∧
      tk.newStatus.status = ExecutionStatus.executionFatalError ∧
      tk.err = some (EngineError.execError true) ∧
      tk.writes = [] ∧
      ∃ ph ∈ planA.spec.phases, ∃ st ∈ ph.steps,
        (∃ t ∈ st.tasks, taskMissingTemplateB planA t = true) ∧
        markedAt ExecutionStatus.executionFatalError ph.name st.name tk.newStatus.phases) ∧
    (∀ tk, executePlan planB metaB cB rB eB = some tk →
      tk.newStatus.status ≠ ExecutionStatus.executionFatalError ∧
      noFatalStore tk.newStatus.phases) := by
  constructor
  · rcases prepare_cases planA metaA rA eA hwfA hrA heA with
      ⟨pres, hok⟩ | ⟨ph, hph, st, hst, ⟨t, htm, htn⟩, store2, hfail, hmk⟩ |
      ⟨ph, hph, st, hst, ⟨t, htm, tsp, htsp, r, hrm, hrn⟩, store2, hfail, hmk⟩
    · exfalso
      obtain ⟨ph, hph, st, hst, t, htm, hmt⟩ := hmissA
      obtain ⟨tsp, htsp, hall⟩ := prepare_ok_present hok ph hph st hst t htm
      obtain ⟨tsp2, htsp2, r, hrm, hrn⟩ := taskMissingTemplateB_elim hmt
      rw [htsp] at htsp2
      cases htsp2
      have := hall r hrm
      rw [hrn] at this
      cases this
    · exfalso
      have := htaskA ph hph st hst t htm
      rw [htn] at this
      cases this
    · refine ⟨⟨⟨ExecutionStatus.executionFatalError, store2⟩,
        ⟨planA.planStatus.status, store2⟩, some (EngineError.execError true), [], []⟩,
        ?_, rfl, rfl, rfl, ph, hph, st, hst,
        ⟨t, htm, taskMissingTemplateB_intro htsp hrm hrn⟩, hmk⟩
      simp [executePlan, htermA, hfail, errorsAsExecutionError]
  · intro tk htk
    simp only [executePlan, htermB, Bool.false_eq_true, if_false, hprepB] at htk
    cases hdp : drivePhases presB cB planB.spec.phases planB.planStatus.phases planB.planStatus.status with
    | crash => rw [hdp] at htk; cases htk
    | fail s t e w x =>
      rw [hdp] at htk
      simp only [Option.some.injEq] at htk
      subst htk
      obtain ⟨htop, hnf⟩ := (drivePhases_props planB.spec.phases planB.planStatus.phases
        planB.planStatus.status).2 _ _ _ _ _ hdp
      constructor
      · rcases htop with h1 | h1
        · rw [h1]; exact not_fatal_of_not_terminal htermB
        · rw [h1]; intro hc; cases hc
      · exact hnf hnfB
    | done s t allC w x =>
      rw [hdp] at htk
      simp only [Option.some.injEq] at htk
      subst htk
      obtain ⟨htop, hnf⟩ := (drivePhases_props planB.spec.phases planB.planStatus.phases
        planB.planStatus.status).1 _ _ _ _ _ hdp
      constructor
      · by_cases hall : allC = true
        · simp only [hall, if_true]
          intro hc; cases hc
        · simp only [Bool.not_eq_true] at hall
          simp only [hall, Bool.false_eq_true, if_false]
          rcases htop with h1 | h1
          · rw [h1]; exact not_fatal_of_not_terminal htermB
          · rw [h1]; intro hc; cases hc
      · exact hnf hnfB

theorem c3_missing_template_fatal_vs_transient_witness :
    IsTerminal c2Plan.planStatus.status = false ∧
    wfStoreB c2Plan.spec c2Plan.planStatus.phases = true ∧
    renderTotal wEngine ∧ enhanceTotal wEnhancer ∧
    allTasksPresent c2Plan ∧ hasMissingTemplate c2Plan ∧
    IsTerminal c3bPlan.planStatus.status = false ∧
    prepareKubeResources c3bPlan wMeta wEnhancer wEngine = prepOut.ok c3bPres c3bPlan.planStatus.phases ∧
    noFatalStore c3bPlan.planStatus.phases ∧
    ((∃ tk, executePlan c2Plan wMeta wClientTriv wEnhancer wEngine = some tk ∧
      tk.newStatus.status = ExecutionStatus.executionFatalError ∧
      tk.err = some (EngineError.execError true) ∧
      tk.writes = [] ∧
      ∃ ph ∈ c2Plan.spec.phases, ∃ st ∈ ph.steps,
        (∃ t ∈ st.tasks, taskMissingTemplateB c2Plan t = true) ∧
        markedAt ExecutionStatus.executionFatalError ph.name st.name tk.newStatus.phases) ∧
    (∀ tk, executePlan c3bPlan wMeta wClientTriv wEnhancer wEngine = some tk →
      tk.newStatus.status ≠ ExecutionStatus.executionFatalError ∧
      noFatalStore tk.newStatus.phases)) :=
  ⟨by decide, by decide, fun _ _ => rfl, fun _ _ _ => rfl, by decide, by decide,
    by decide, rfl, by decide,
    c3_missing_template_fatal_vs_transient c2Plan wMeta wClientTriv wEnhancer wEngine
      (by decide) (by decide) (fun _ _ => rfl) (fun _ _ _ => rfl) (by decide) (by decide)
      c3bPlan wMeta wClientTriv wEnhancer wEngine c3bPres
      (by decide) rfl (by decide)⟩

theorem takeWhileEqOn {α : Type} {p q : α → Bool} :
    ∀ l : List α, (∀ a ∈ l, p a = q a) → l.takeWhile p = l.takeWhile q := by
  intro l
  induction l with
  | nil => intro _; rfl
  | cons a rest ih =>
    intro h
    have ha := h a (List.mem_cons_self a rest)
    simp only [List.takeWhile_cons, ha]
    split
    · rw [ih (fun b hb => h b (List.mem_cons_of_mem a hb))]
    · rfl

theorem dropWhileEqOn {α : Type} {p q : α → Bool} :
    ∀ l : List α, (∀ a ∈ l, p a = q a) → l.dropWhile p = l.dropWhile q := by
  intro l
  induction l with
  | nil => intro _; rfl
  | cons a rest ih =>
    intro h
    have ha := h a (List.mem_cons_self a rest)
    simp only [List.dropWhile_cons, ha]
    split
    · exact ih (fun b hb => h b (List.mem_cons_of_mem a hb))
    · rfl

theorem stepFinishedAfter_frame {n : String} {v : StepStatus} {sts : List StepStatus}
    {resFor : String → List KObject} {c : KClient} {sp : Step}
    (hv : v.name = n) (hne : sp.name ≠ n) :
    stepFinishedAfter (setStepInSteps n v sts) resFor c sp = stepFinishedAfter sts resFor c sp := by
  unfold stepFinishedAfter
  rw [setStepInSteps_frame hv hne sts]

theorem stepErrFree_frame {n : String} {v : StepStatus} {sts : List StepStatus}
    {resFor : String → List KObject} {c : KClient} {sp : Step}
    (hv : v.name = n) (hne : sp.name ≠ n) :
    stepErrFree (setStepInSteps n v sts) resFor c sp = stepErrFree sts resFor c sp := by
  unfold stepErrFree
  rw [setStepInSteps_frame hv hne sts]

theorem driveSteps_serial_trace {c : KClient} {resFor : String → List KObject} :
    ∀ (steps : List Step) (sts : List StepStatus) (allH : Bool),
      (steps.map Step.name).Nodup →
      (∀ sp ∈ steps, (getStepOfSteps sp.name sts).isSome = true) →
      (∀ sp ∈ steps, stepErrFree sts resFor c sp = true) →
      ∃ s h w, driveStepsAux Strategy.serial c resFor steps sts allH =
        stepsOut.ok s h w
          ((steps.takeWhile (stepFinishedAfter sts resFor c)).map Step.name ++
            (((steps.dropWhile (stepFinishedAfter sts resFor c)).head?).map Step.name).toList) := by
  intro steps
  induction steps with
  | nil => intro sts allH _ _ _; exact ⟨sts, allH, [], by simp [driveStepsAux]⟩
  | cons sp rest ih =>
    intro sts allH hnd hpres herr
    obtain ⟨cur, hcur⟩ := Option.isSome_iff_exists.mp (hpres sp (List.mem_cons_self sp rest))
    have herr0 : (executeStep sp cur (resFor sp.name) c).err = none := by
      have := herr sp (List.mem_cons_self sp rest)
      simp only [stepErrFree, hcur] at this
      exact Option.isNone_iff_eq_none.mp this
    have hfin : stepFinishedAfter sts resFor c sp
        = isFinished (executeStep sp cur (resFor sp.name) c).state.status := by
      simp [stepFinishedAfter, hcur]
    have hvname : (executeStep sp cur (resFor sp.name) c).state.name = sp.name := by
      rw [executeStep_state_name]
      exact getStepOfSteps_name hcur
    have hnotmem : sp.name ∉ rest.map Step.name := by
      simp only [List.map_cons, List.nodup_cons] at hnd
      exact hnd.1
    have hrestne : ∀ sp2 ∈ rest, sp2.name ≠ sp.name := by
      intro sp2 h2 hc
      exact hnotmem (hc ▸ List.mem_map_of_mem Step.name h2)
    cases hfincase : isFinished (executeStep sp cur (resFor sp.name) c).state.status with
    | false =>
      have hfin0 : stepFinishedAfter sts resFor c sp = false := hfin.trans hfincase
      refine ⟨setStepInSteps sp.name (executeStep sp cur (resFor sp.name) c).state sts,
        false, (executeStep sp cur (resFor sp.name) c).writes, ?_⟩
      simp only [driveStepsAux, hcur, herr0, hfincase, Bool.false_eq_true, if_false,
        List.takeWhile_cons, hfin0, List.dropWhile_cons, List.map_nil, List.nil_append,
        Option.map_some, Option.toList_some]
      rfl
    | true =>
      have hfin0 : stepFinishedAfter sts resFor c sp = true := hfin.trans hfincase
      have hpres2 : ∀ sp2 ∈ rest, (getStepOfSteps sp2.name
          (setStepInSteps sp.name (executeStep sp cur (resFor sp.name) c).state sts)).isSome = true := by
        intro sp2 h2
        rw [setStepInSteps_frame hvname (hrestne sp2 h2) sts]
        exact hpres sp2 (List.mem_cons_of_mem sp h2)
      have herr2 : ∀ sp2 ∈ rest, stepErrFree
          (setStepInSteps sp.name (executeStep sp cur (resFor sp.name) c).state sts) resFor c sp2 = true := by
        intro sp2 h2
        rw [stepErrFree_frame hvname (hrestne sp2 h2)]
        exact herr sp2 (List.mem_cons_of_mem sp h2)
      obtain ⟨s, h, w, hrec⟩ := ih
        (setStepInSteps sp.name (executeStep sp cur (resFor sp.name) c).state sts) allH
        (by simp only [List.map_cons, List.nodup_cons] at hnd; exact hnd.2) hpres2 herr2
      refine ⟨s, h, (executeStep sp cur (resFor sp.name) c).writes ++ w, ?_⟩
      have hTW : rest.takeWhile (stepFinishedAfter
          (setStepInSteps sp.name (executeStep sp cur (resFor sp.name) c).state sts) resFor c)
          = rest.takeWhile (stepFinishedAfter sts resFor c) :=
        takeWhileEqOn rest (fun sp2 h2 => stepFinishedAfter_frame hvname (hrestne sp2 h2))
      have hDW : rest.dropWhile (stepFinishedAfter
          (setStepInSteps sp.name (executeStep sp cur (resFor sp.name) c).state sts) resFor c)
          = rest.dropWhile (stepFinishedAfter sts resFor c) :=
        dropWhileEqOn rest (fun sp2 h2 => stepFinishedAfter_frame hvname (hrestne sp2 h2))
      rw [hTW, hDW] at hrec
      simp only [driveStepsAux, hcur, herr0, hfincase, if_true, hrec,
        List.takeWhile_cons, hfin0, List.dropWhile_cons, List.map_cons]
      rfl

theorem driveSteps_parallel_trace {c : KClient} {resFor : String → List KObject} :
    ∀ (steps : List Step) (sts : List StepStatus) (allH : Bool),
      (steps.map Step.name).Nodup →
      (∀ sp ∈ steps, (getStepOfSteps sp.name sts).isSome = true) →
      (∀ sp ∈ steps, stepErrFree sts resFor c sp = true) →
      ∃ s h w, driveStepsAux Strategy.parallel c resFor steps sts allH =
        stepsOut.ok s h w (steps.map Step.name) := by
  intro steps
  induction steps with
  | nil => intro sts allH _ _ _; exact ⟨sts, allH, [], rfl⟩
  | cons sp rest ih =>
    intro sts allH hnd hpres herr
    obtain ⟨cur, hcur⟩ := Option.isSome_iff_exists.mp (hpres sp (List.mem_cons_self sp rest))
    have herr0 : (executeStep sp cur (resFor sp.name) c).err = none := by
      have := herr sp (List.mem_cons_self sp rest)
      simp only [stepErrFree, hcur] at this
      exact Option.isNone_iff_eq_none.mp this
    have hvname : (executeStep sp cur (resFor sp.name) c).state.name = sp.name := by
      rw [executeStep_state_name]
      exact getStepOfSteps_name hcur
    have hnotmem : sp.name ∉ rest.map Step.name := by
      simp only [List.map_cons, List.nodup_cons] at hnd
      exact hnd.1
    have hrestne : ∀ sp2 ∈ rest, sp2.name ≠ sp.name := by
      intro sp2 h2 hc
      exact hnotmem (hc ▸ List.mem_map_of_mem Step.name h2)
    have hpres2 : ∀ sp2 ∈ rest, (getStepOfSteps sp2.name
        (setStepInSteps sp.name (executeStep sp cur (resFor sp.name) c).state sts)).isSome = true := by
      intro sp2 h2
      rw [setStepInSteps_frame hvname (hrestne sp2 h2) sts]
      exact hpres sp2 (List.mem_cons_of_mem sp h2)
    have herr2 : ∀ sp2 ∈ rest, stepErrFree
        (setStepInSteps sp.name (executeStep sp cur (resFor sp.name) c).state sts) resFor c sp2 = true := by
      intro sp2 h2
      rw [stepErrFree_frame hvname (hrestne sp2 h2)]
      exact herr sp2 (List.mem_cons_of_mem sp h2)
    have hnd2 : (rest.map Step.name).Nodup := by
      simp only [List.map_cons, List.nodup_cons] at hnd
      exact hnd.2
    cases hfincase : isFinished (executeStep sp cur (resFor sp.name) c).state.status with
    | true =>
      obtain ⟨s, h, w, hrec⟩ := ih
        (setStepInSteps sp.name (executeStep sp cur (resFor sp.name) c).state sts) allH hnd2 hpres2 herr2
      refine ⟨s, h, (executeStep sp cur (resFor sp.name) c).writes ++ w, ?_⟩
      simp only [driveStepsAux, hcur, herr0, hfincase, if_true, hrec, List.map_cons]
    | false =>
      obtain ⟨s, h, w, hrec⟩ := ih
        (setStepInSteps sp.name (executeStep sp cur (resFor sp.name) c).state sts) false hnd2 hpres2 herr2
      refine ⟨s, h, (executeStep sp cur (resFor sp.name) c).writes ++ w, ?_⟩
      simp only [driveStepsAux, hcur, herr0, hfincase, Bool.false_eq_true, if_false, hrec, List.map_cons]

/-- C4: within one tick, absent step errors, a `Serial` phase executes
steps up to and including the first one left unfinished and no later
step, while a `Parallel` phase executes every step of the phase. -/
theorem c4_serial_stops_parallel_continues
    (strategy : Strategy) (steps : List Step) (sts : List StepStatus)
    (resFor : String → List KObject) (c : KClient)
    (hnd : (steps.map Step.name).Nodup)
    (hpres : ∀ sp ∈ steps, (getStepOfSteps sp.name sts).isSome = true)
    (herr : ∀ sp ∈ steps, stepErrFree sts resFor c sp = true) :
    (strategy = Strategy.serial →
      stepsExecd (driveStepsAux strategy c resFor steps sts true) =
        (steps.takeWhile (stepFinishedAfter sts resFor c)).map Step.name ++
          (((steps.dropWhile (stepFinishedAfter sts resFor c)).head?).map Step.name).toList) ∧
    (strategy = Strategy.parallel →
      stepsExecd (driveStepsAux strategy c resFor steps sts true) = steps.map Step.name) := by
  constructor
  · intro hs
    subst hs
    obtain ⟨s, h, w, heq⟩ := driveSteps_serial_trace steps sts true hnd hpres herr
    rw [heq]
    rfl
  · intro hs
    subst hs
    obtain ⟨s, h, w, heq⟩ := driveSteps_parallel_trace steps sts true hnd hpres herr
    rw [heq]
    rfl

theorem c4_serial_stops_parallel_continues_witness :
    (c4Steps.map Step.name).Nodup ∧
    (∀ sp ∈ c4Steps, (getStepOfSteps sp.name c4Sts).isSome = true) ∧
    (∀ sp ∈ c4Steps, stepErrFree c4Sts c4Res wClient1 sp = true) ∧
    ((Strategy.serial = Strategy.serial →
      stepsExecd (driveStepsAux Strategy.serial wClient1 c4Res c4Steps c4Sts true) =
        (c4Steps.takeWhile (stepFinishedAfter c4Sts c4Res wClient1)).map Step.name ++
          (((c4Steps.dropWhile (stepFinishedAfter c4Sts c4Res wClient1)).head?).map Step.name).toList) ∧
    (Strategy.serial = Strategy.parallel →
      stepsExecd (driveStepsAux Strategy.serial wClient1 c4Res c4Steps c4Sts true) =
        c4Steps.map Step.name)) :=
  ⟨by decide, by decide, by decide,
    c4_serial_stops_parallel_continues Strategy.serial c4Steps c4Sts c4Res wClient1
      (by decide) (by decide) (by decide)⟩

/-- C9: on every non-terminal tick the caller's original status object
and the returned working copy share the phases array — every phase/step
mutation of the tick is visible through the original object — while only
the top-level status field is isolated by the shallow copy. -/
theorem c9_shared_phases_backing_array
    (plan : activePlan) (meta : executionMetadata) (c : KClient)
    (renderer : kubernetesObjectEnhancer) (engine : kudoEngine) (tk : Tick)
    (hterm : IsTerminal plan.planStatus.status = false)
    (h : executePlan plan meta c renderer engine = some tk) :
    tk.origAfter.phases = tk.newStatus.phases ∧
    tk.origAfter.status = plan.planStatus.status := by
  simp only [executePlan, hterm, Bool.false_eq_true, if_false] at h
  cases hprep : prepareKubeResources plan meta renderer engine with
  | crash => simp only [hprep] at h; cases h
  | fail f store =>
    simp only [hprep, Option.some.injEq] at h
    subst h
    exact ⟨rfl, rfl⟩
  | ok pres store =>
    simp only [hprep] at h
    cases hdp : drivePhases pres c plan.spec.phases store plan.planStatus.status with
    | crash => simp only [hdp] at h; cases h
    | fail s t e w x =>
      simp only [hdp, Option.some.injEq] at h
      subst h
      exact ⟨rfl, rfl⟩
    | done s t allC w x =>
      simp only [hdp, Option.some.injEq] at h
      subst h
      exact ⟨rfl, rfl⟩

theorem c9_shared_phases_backing_array_witness :
    IsTerminal c3bPlan.planStatus.status = false ∧
    executePlan c3bPlan wMeta wClient1 wEnhancer wEngine = some c9Tick ∧
    (c9Tick.origAfter.phases = c9Tick.newStatus.phases ∧
      c9Tick.origAfter.status = c3bPlan.planStatus.status) :=
  ⟨by decide, rfl,
    c9_shared_phases_backing_array c3bPlan wMeta wClient1 wEnhancer wEngine c9Tick (by decide) rfl⟩

theorem getPhase_shape_lookup : ∀ (store : List PhaseStatus) (n : String),
    (getPhaseFromStatus n store).map (fun p => stepNames p.steps) = lookupA (storeShape store) n := by
  intro store
  induction store with
  | nil => intro n; rfl
  | cons p rest ih =>
    intro n
    simp only [getPhaseFromStatus, storeShape, List.map_cons, lookupA]
    split
    · rfl
    · exact ih n

theorem mem_stepNames_of_isSome {n : String} {l : List StepStatus}
    (h : (getStepOfSteps n l).isSome = true) : n ∈ stepNames l := by
  obtain ⟨s, hs⟩ := Option.isSome_iff_exists.mp h
  have := getStepOfSteps_name hs
  exact this ▸ List.mem_map_of_mem StepStatus.name (getStepOfSteps_mem hs)

theorem stepNames_driveSteps {strategy : Strategy} {c : KClient} {resFor : String → List KObject} :
    ∀ (steps : List Step) (sts : List StepStatus) (allH : Bool),
      (∀ s h w x, driveStepsAux strategy c resFor steps sts allH = stepsOut.ok s h w x →
        stepNames s = stepNames sts) ∧
      (∀ s e w x, driveStepsAux strategy c resFor steps sts allH = stepsOut.fail s e w x →
        stepNames s = stepNames sts) := by
  intro steps
  induction steps with
  | nil =>
    intro sts allH
    constructor
    · intro s h w x heq; cases heq; rfl
    · intro s e w x heq; cases heq
  | cons sp rest ih =>
    intro sts allH
    cases hcur : getStepOfSteps sp.name sts with
    | none =>
      constructor
      · intro s h w x heq; simp only [driveStepsAux, hcur] at heq; cases heq
      · intro s e w x heq; simp only [driveStepsAux, hcur] at heq; cases heq
    | some cur =>
      have hvname : (executeStep sp cur (resFor sp.name) c).state.name = sp.name := by
        rw [executeStep_state_name]
        exact getStepOfSteps_name hcur
      have hn1 : stepNames (setStepInSteps sp.name (executeStep sp cur (resFor sp.name) c).state sts)
          = stepNames sts := stepNames_set hvname sts
      constructor
      · intro s h w x heq
        simp only [driveStepsAux, hcur] at heq
        cases herr : (executeStep sp cur (resFor sp.name) c).err with
        | some e => rw [herr] at heq; cases heq
        | none =>
          rw [herr] at heq
          by_cases hfin : isFinished (executeStep sp cur (resFor sp.name) c).state.status = true
          · rw [if_pos hfin] at heq
            cases hrec : driveStepsAux strategy c resFor rest
                (setStepInSteps sp.name (executeStep sp cur (resFor sp.name) c).state sts) allH with
            | ok s2 h2 w2 x2 =>
              rw [hrec] at heq
              cases heq
              rw [(ih _ allH).1 _ _ _ _ hrec, hn1]
            | fail s2 e2 w2 x2 => rw [hrec] at heq; cases heq
            | crash => rw [hrec] at heq; cases heq
          · rw [if_neg hfin] at heq
            cases strategy with
            | serial => cases heq; exact hn1
            | parallel =>
              cases hrec : driveStepsAux Strategy.parallel c resFor rest
                  (setStepInSteps sp.name (executeStep sp cur (resFor sp.name) c).state sts) false with
              | ok s2 h2 w2 x2 =>
                rw [hrec] at heq
                cases heq
                rw [(ih _ false).1 _ _ _ _ hrec, hn1]
              | fail s2 e2 w2 x2 => rw [hrec] at heq; cases heq
              | crash => rw [hrec] at heq; cases heq
      · intro s e w x heq
        simp only [driveStepsAux, hcur] at heq
        cases herr : (executeStep sp cur (resFor sp.name) c).err with
        | some e0 =>
          rw [herr] at heq
          cases heq
          rw [stepNames_set (by rfl) _, hn1]
        | none =>
          rw [herr] at heq
          by_cases hfin : isFinished (executeStep sp cur (resFor sp.name) c).state.status = true
          · rw [if_pos hfin] at heq
            cases hrec : driveStepsAux strategy c resFor rest
                (setStepInSteps sp.name (executeStep sp cur (resFor sp.name) c).state sts) allH with
            | ok s2 h2 w2 x2 => rw [hrec] at heq; cases heq
            | fail s2 e2 w2 x2 =>
              rw [hrec] at heq
              cases heq
              rw [(ih _ allH).2 _ _ _ _ hrec, hn1]
            | crash => rw [hrec] at heq; cases heq
          · rw [if_neg hfin] at heq
            cases strategy with
            | serial => cases heq
            | parallel =>
              cases hrec : driveStepsAux Strategy.parallel c resFor rest
                  (setStepInSteps sp.name (executeStep sp cur (resFor sp.name) c).state sts) false with
              | ok s2 h2 w2 x2 => rw [hrec] at heq; cases heq
              | fail s2 e2 w2 x2 =>
                rw [hrec] at heq
                cases heq
                rw [(ih _ false).2 _ _ _ _ hrec, hn1]
              | crash => rw [hrec] at heq; cases heq

theorem storeShape_set {n : String} {v : PhaseStatus} :
    ∀ {store : List PhaseStatus} {cps : PhaseStatus},
      getPhaseFromStatus n store = some cps → v.name = n →
      stepNames v.steps = stepNames cps.steps →
      storeShape (setPhaseInStore n v store) = storeShape store := by
  intro store
  induction store with
  | nil => intro cps h; cases h
  | cons p rest ih =>
    intro cps h hv hsn
    simp only [getPhaseFromStatus] at h
    simp only [setPhaseInStore]
    split
    · rename_i hp
      rw [if_pos hp] at h
      cases h
      simp only [storeShape, List.map_cons]
      rw [hv, hp, hsn]
    · rename_i hp
      rw [if_neg hp] at h
      simp only [storeShape, List.map_cons]
      exact congrArg (List.cons (p.name, stepNames p.steps)) (ih h hv hsn)

theorem wf_fitsShape {spec : Plan} {store : List PhaseStatus}
    (h : wfStoreB spec store = true) : specFitsShape spec.phases (storeShape store) := by
  intro ph hph
  have h2 := List.all_eq_true.mp h ph hph
  simp only [Bool.and_eq_true] at h2
  obtain ⟨hc, hrest⟩ := h2
  cases hcps : getPhaseFromStatus ph.name store with
  | none => rw [hcps] at hrest; cases hrest
  | some cps =>
    rw [hcps] at hrest
    refine ⟨stepNames cps.steps, ?_, ?_⟩
    · rw [← getPhase_shape_lookup store ph.name, hcps]
      rfl
    · intro st hst
      have h3 := List.all_eq_true.mp hrest st hst
      have h4 : (stepNames cps.steps).count st.name = 1 := by simpa using h3
      exact mem_of_count_ne_zero (by omega)

theorem driveStepsAux_ne_crash {strategy : Strategy} {c : KClient} {resFor : String → List KObject} :
    ∀ (steps : List Step) (sts : List StepStatus) (allH : Bool),
      (∀ sp ∈ steps, sp.name ∈ stepNames sts) →
      driveStepsAux strategy c resFor steps sts allH ≠ stepsOut.crash := by
  intro steps
  induction steps with
  | nil => intro sts allH _ h; cases h
  | cons sp rest ih =>
    intro sts allH hmem heq
    have hps : (getStepOfSteps sp.name sts).isSome = true :=
      getStepOfSteps_isSome_of_mem (hmem sp (List.mem_cons_self sp rest))
    obtain ⟨cur, hcur⟩ := Option.isSome_iff_exists.mp hps
    have hvname : (executeStep sp cur (resFor sp.name) c).state.name = sp.name := by
      rw [executeStep_state_name]
      exact getStepOfSteps_name hcur
    have hn1 : stepNames (setStepInSteps sp.name (executeStep sp cur (resFor sp.name) c).state sts)
        = stepNames sts := stepNames_set hvname sts
    have hmem2 : ∀ sp2 ∈ rest, sp2.name ∈ stepNames
        (setStepInSteps sp.name (executeStep sp cur (resFor sp.name) c).state sts) := by
      intro sp2 h2
      rw [hn1]
      exact hmem sp2 (List.mem_cons_of_mem sp h2)
    simp only [driveStepsAux, hcur] at heq
    cases herr : (executeStep sp cur (resFor sp.name) c).err with
    | some e => rw [herr] at heq; cases heq
    | none =>
      rw [herr] at heq
      by_cases hfin : isFinished (executeStep sp cur (resFor sp.name) c).state.status = true
      · rw [if_pos hfin] at heq
        cases hrec : driveStepsAux strategy c resFor rest
            (setStepInSteps sp.name (executeStep sp cur (resFor sp.name) c).state sts) allH with
        | ok s2 h2 w2 x2 => rw [hrec] at heq; cases heq
        | fail s2 e2 w2 x2 => rw [hrec] at heq; cases heq
        | crash => exact ih _ allH hmem2 hrec
      · rw [if_neg hfin] at heq
        cases strategy with
        | serial => cases heq
        | parallel =>
          cases hrec : driveStepsAux Strategy.parallel c resFor rest
              (setStepInSteps sp.name (executeStep sp cur (resFor sp.name) c).state sts) false with
          | ok s2 h2 w2 x2 => rw [hrec] at heq; cases heq
          | fail s2 e2 w2 x2 => rw [hrec] at heq; cases heq
          | crash => exact ih _ false hmem2 hrec

theorem processPhase_shape {ph : Phase} {pres : planResources} {c : KClient}
    {store : List PhaseStatus} {top : ExecutionStatus} :
    (∀ s t f w x, processPhase ph pres c store top = phaseOut.cont s t f w x →
      storeShape s = storeShape store) ∧
    (∀ s t e w x, processPhase ph pres c store top = phaseOut.fail s t e w x →
      storeShape s = storeShape store) := by
  constructor
  · intro s t f w x h
    unfold processPhase at h
    cases hcps : getPhaseFromStatus ph.name store with
    | none => simp only [hcps] at h; cases h
    | some cps =>
      simp only [hcps] at h
      by_cases h1 : isFinished cps.status = true
      · rw [if_pos h1] at h; cases h; rfl
      · rw [if_neg h1] at h
        by_cases h2 : isInProgress cps.status = true
        · rw [if_pos h2] at h
          cases hds : driveStepsAux ph.strategy c
              (fun stName => lookupStepResources (lookupPhaseResources pres ph.name) stName)
              ph.steps cps.steps true with
          | crash => rw [hds] at h; cases h
          | fail s2 e2 w2 x2 => rw [hds] at h; cases h
          | ok sts allH w2 x2 =>
            rw [hds] at h
            cases h
            have hcname : cps.name = ph.name := getPhaseFromStatus_name hcps
            exact storeShape_set hcps hcname
              ((stepNames_driveSteps ph.steps cps.steps true).1 _ _ _ _ hds)
        · rw [if_neg h2] at h; cases h; rfl
  · intro s t e w x h
    unfold processPhase at h
    cases hcps : getPhaseFromStatus ph.name store with
    | none => simp only [hcps] at h; cases h
    | some cps =>
      simp only [hcps] at h
      by_cases h1 : isFinished cps.status = true
      · rw [if_pos h1] at h; cases h
      · rw [if_neg h1] at h
        by_cases h2 : isInProgress cps.status = true
        · rw [if_pos h2] at h
          cases hds : driveStepsAux ph.strategy c
              (fun stName => lookupStepResources (lookupPhaseResources pres ph.name) stName)
              ph.steps cps.steps true with
          | crash => rw [hds] at h; cases h
          | ok sts allH w2 x2 => rw [hds] at h; cases h
          | fail sts e2 w2 x2 =>
            rw [hds] at h
            cases h
            have hcname : cps.name = ph.name := getPhaseFromStatus_name hcps
            exact storeShape_set hcps hcname
              ((stepNames_driveSteps ph.steps cps.steps true).2 _ _ _ _ hds)
        · rw [if_neg h2] at h; cases h

theorem processPhase_ne_crash {ph : Phase} {pres : planResources} {c : KClient}
    {store : List PhaseStatus} {top : ExecutionStatus}
    (hfit : ∃ names, lookupA (storeShape store) ph.name = some names ∧
      ∀ st ∈ ph.steps, st.name ∈ names) :
    processPhase ph pres c store top ≠ phaseOut.crash := by
  obtain ⟨names, hlk, hmem⟩ := hfit
  intro heq
  unfold processPhase at heq
  cases hcps : getPhaseFromStatus ph.name store with
  | none =>
    rw [← getPhase_shape_lookup store ph.name, hcps] at hlk
    cases hlk
  | some cps =>
    have hnames : names = stepNames cps.steps := by
      rw [← getPhase_shape_lookup store ph.name, hcps] at hlk
      cases hlk
      rfl
    simp only [hcps] at heq
    by_cases h1 : isFinished cps.status = true
    · rw [if_pos h1] at heq; cases heq
    · rw [if_neg h1] at heq
      by_cases h2 : isInProgress cps.status = true
      · rw [if_pos h2] at heq
        cases hds : driveStepsAux ph.strategy c
            (fun stName => lookupStepResources (lookupPhaseResources pres ph.name) stName)
            ph.steps cps.steps true with
        | ok sts allH w2 x2 => rw [hds] at heq; cases heq
        | fail sts e2 w2 x2 => rw [hds] at heq; cases heq
        | crash =>
          refine driveStepsAux_ne_crash ph.steps cps.steps true ?_ hds
          intro sp hsp
          exact hnames ▸ hmem sp hsp
      · rw [if_neg h2] at heq; cases heq

theorem drivePhases_ne_crash {pres : planResources} {c : KClient} :
    ∀ (phases : List Phase) (store : List PhaseStatus) (top : ExecutionStatus),
      specFitsShape phases (storeShape store) →
      drivePhases pres c phases store top ≠ driveOut.crash := by
  intro phases
  induction phases with
  | nil => intro store top _ h; cases h
  | cons ph rest ih =>
    intro store top hfit heq
    simp only [drivePhases] at heq
    cases hpp : processPhase ph pres c store top with
    | crash => exact processPhase_ne_crash (hfit ph (List.mem_cons_self ph rest)) hpp
    | fail s2 t2 e2 w2 x2 => simp only [hpp] at heq; cases heq
    | cont s2 t2 f2 w2 x2 =>
      simp only [hpp] at heq
      by_cases hf : f2 = true
      · rw [if_pos hf] at heq
        have hshape : storeShape s2 = storeShape store := processPhase_shape.1 _ _ _ _ _ hpp
        have hfit2 : specFitsShape rest (storeShape s2) := by
          intro p hp
          rw [hshape]
          exact hfit p (List.mem_cons_of_mem ph hp)
        cases hrec : drivePhases pres c rest s2 t2 with
        | done s3 t3 a3 w3 x3 => rw [hrec] at heq; cases heq
        | fail s3 t3 e3 w3 x3 => rw [hrec] at heq; cases heq
        | crash => exact ih s2 t2 hfit2 hrec
      · rw [if_neg hf] at heq; cases heq

theorem prepSteps_ne_crash {plan : activePlan} {meta : executionMetadata}
    {renderer : kubernetesObjectEnhancer} {engine : kudoEngine}
    {ph : Phase} {store : List PhaseStatus} :
    ∀ (steps : List Step), (∀ st ∈ steps, stepMarkable ph.name st.name store) →
    ∀ (j : Nat) (acc : List (String × List KObject)),
      prepSteps plan meta renderer engine ph store j steps acc ≠ prepStepsOut.crash := by
  intro steps
  induction steps with
  | nil => intro _ j acc h; cases h
  | cons st rest ih =>
    intro hmark j acc heq
    have hmk0 : stepMarkable ph.name st.name store := hmark st (List.mem_cons_self st rest)
    cases hrt : runStepTasks plan.tasks plan.templates renderer engine
        ⟨meta.operatorName, meta.instanceName, meta.instanceNamespace, plan.params,
          plan.name, ph.name, st.name, toString j⟩
        ⟨meta.instanceName, meta.instanceNamespace, meta.operatorName,
          meta.operatorVersion, plan.name, ph.name, st.name⟩
        meta.resourcesOwner st.tasks with
    | ok objs =>
      simp only [prepSteps, hrt] at heq
      exact ih (fun s hs => hmark s (List.mem_cons_of_mem st hs)) (j + 1)
        (insertReplace st.name objs acc) heq
    | missingTask =>
      obtain ⟨store2, hms⟩ := markStatuses_isSome hmk0 ExecutionStatus.errorStatus
      simp only [prepSteps, hrt, hms] at heq
      cases heq
    | enhanceFail =>
      obtain ⟨store2, hms⟩ := markStatuses_isSome hmk0 ExecutionStatus.errorStatus
      simp only [prepSteps, hrt, hms] at heq
      cases heq
    | missingTemplate =>
      obtain ⟨store2, hms⟩ := markStatuses_isSome hmk0 ExecutionStatus.executionFatalError
      simp only [prepSteps, hrt, hms] at heq
      cases heq
    | renderFail =>
      obtain ⟨store2, hms⟩ := markStatuses_isSome hmk0 ExecutionStatus.executionFatalError
      simp only [prepSteps, hrt, hms] at heq
      cases heq

theorem prepPhases_ne_crash {plan : activePlan} {meta : executionMetadata}
    {renderer : kubernetesObjectEnhancer} {engine : kudoEngine}
    {store : List PhaseStatus} :
    ∀ (phases : List Phase), (∀ ph ∈ phases, ∀ st ∈ ph.steps, stepMarkable ph.name st.name store) →
    ∀ (acc : List (String × phaseResources)),
      prepPhases plan meta renderer engine store phases acc ≠ prepOut.crash := by
  intro phases
  induction phases with
  | nil => intro _ acc h; cases h
  | cons ph rest ih =>
    intro hmark acc heq
    cases hps : prepSteps plan meta renderer engine ph store 0 ph.steps [] with
    | ok res =>
      simp only [prepPhases, hps] at heq
      exact ih (fun p hp => hmark p (List.mem_cons_of_mem ph hp)) _ heq
    | fail f s2 => simp only [prepPhases, hps] at heq; cases heq
    | crash =>
      exact prepSteps_ne_crash ph.steps (hmark ph (List.mem_cons_self ph rest)) 0 [] hps

theorem prepPhases_ok_store {plan : activePlan} {meta : executionMetadata}
    {renderer : kubernetesObjectEnhancer} {engine : kudoEngine} {store0 : List PhaseStatus} :
    ∀ {phases : List Phase} {acc pres store2},
      prepPhases plan meta renderer engine store0 phases acc = prepOut.ok pres store2 →
      store2 = store0 := by
  intro phases
  induction phases with
  | nil =>
    intro acc pres store2 h
    cases h
    rfl
  | cons ph rest ih =>
    intro acc pres store2 h
    cases hps : prepSteps plan meta renderer engine ph store0 0 ph.steps [] with
    | ok res =>
      simp only [prepPhases, hps] at h
      exact ih h
    | fail f s2 => simp only [prepPhases, hps] at h; cases h
    | crash => simp only [prepPhases, hps] at h; cases h

/-- C10: under the outer loop's precondition that every phase and step
named in the plan spec has exactly one matching status entry, every
discarded-error lookup of `getPhaseFromStatus`/`getStepFromStatus`
succeeds and no nil-pointer dereference is reachable in a tick. -/
theorem c10_discarded_lookups_safe
    (plan : activePlan) (meta : executionMetadata) (c : KClient)
    (renderer : kubernetesObjectEnhancer) (engine : kudoEngine)
    (hwf : wfStoreB plan.spec plan.planStatus.phases = true) :
    (∀ ph ∈ plan.spec.phases, ∃ cps,
      getPhaseFromStatus ph.name plan.planStatus.phases = some cps ∧
      ∀ st ∈ ph.steps, (getStepOfSteps st.name cps.steps).isSome = true) ∧
    executePlan plan meta c renderer engine ≠ none := by
  constructor
  · intro ph hph
    have h2 := List.all_eq_true.mp hwf ph hph
    simp only [Bool.and_eq_true] at h2
    obtain ⟨hc, hrest⟩ := h2
    cases hcps : getPhaseFromStatus ph.name plan.planStatus.phases with
    | none => rw [hcps] at hrest; cases hrest
    | some cps =>
      rw [hcps] at hrest
      refine ⟨cps, rfl, ?_⟩
      intro st hst
      have h3 := List.all_eq_true.mp hrest st hst
      have h4 : (stepNames cps.steps).count st.name = 1 := by simpa using h3
      exact getStepOfSteps_isSome_of_mem (mem_of_count_ne_zero (by omega))
  · intro heq
    by_cases hterm : IsTerminal plan.planStatus.status = true
    · simp only [executePlan, hterm, if_true] at heq
      cases heq
    · have htf : IsTerminal plan.planStatus.status = false := by
        cases hv : IsTerminal plan.planStatus.status
        · rfl
        · exact absurd hv hterm
      simp only [executePlan, htf, Bool.false_eq_true, if_false] at heq
      cases hprep : prepareKubeResources plan meta renderer engine with
      | crash =>
        exact prepPhases_ne_crash plan.spec.phases
          (fun ph hph st hst => wf_markable hwf hph hst) [] hprep
      | fail f store => simp only [hprep] at heq; cases heq
      | ok pres store =>
        simp only [hprep] at heq
        cases hdp : drivePhases pres c plan.spec.phases store plan.planStatus.status with
        | crash =>
          have hstore : store = plan.planStatus.phases := prepPhases_ok_store hprep
          rw [hstore] at hdp
          exact drivePhases_ne_crash plan.spec.phases plan.planStatus.phases plan.planStatus.status
            (wf_fitsShape hwf) hdp
        | fail s t e w x => rw [hdp] at heq; cases heq
        | done s t allC w x => rw [hdp] at heq; cases heq

theorem c10_discarded_lookups_safe_witness :
    wfStoreB c3bPlan.spec c3bPlan.planStatus.phases = true ∧
    ((∀ ph ∈ c3bPlan.spec.phases, ∃ cps,
      getPhaseFromStatus ph.name c3bPlan.planStatus.phases = some cps ∧
      ∀ st ∈ ph.steps, (getStepOfSteps st.name cps.steps).isSome = true) ∧
    executePlan c3bPlan wMeta wClientTriv wEnhancer wEngine ≠ none) :=
  ⟨by decide,
    c10_discarded_lookups_safe c3bPlan wMeta wClientTriv wEnhancer wEngine (by decide)⟩

theorem executeStep_err_some_guard {st : Step} {s : StepStatus} {res : List KObject}
    {c : KClient} {e : ApiError}
    (h : (executeStep st s res c).err = some e) : isInProgress s.status = true := by
  by_contra hip
  have hf : isInProgress s.status = false := by
    cases hv : isInProgress s.status
    · rfl
    · exact absurd hv hip
  simp only [executeStep, hf, Bool.false_eq_true, if_false] at h
  cases h

theorem executeStep_indep {st : Step} {res : List KObject} {c : KClient}
    {a b : StepStatus} (hn : a.name = b.name)
    (ha : isInProgress a.status = true) (hb : isInProgress b.status = true) :
    executeStep st a res c = executeStep st b res c := by
  simp only [executeStep, ha, hb, if_true, hn]

theorem executeStep_idem {st : Step} {res : List KObject} {c : KClient} {s : StepStatus}
    (h : (executeStep st s res c).err = none) :
    (executeStep st (executeStep st s res c).state res c).state = (executeStep st s res c).state ∧
    (executeStep st (executeStep st s res c).state res c).err = none := by
  by_cases hip : isInProgress s.status = true
  · rcases hx : execResources st c res true with ⟨aH, er, w⟩
    cases er with
    | some e =>
      have : (executeStep st s res c).err = some e := by
        simp only [executeStep, hip, if_true, hx]
      rw [this] at h
      cases h
    | none =>
      cases haH : aH with
      | true =>
        have hst : (executeStep st s res c).state = ⟨s.name, ExecutionStatus.executionComplete⟩ := by
          simp only [executeStep, hip, if_true, hx, haH]
        rw [hst]
        have hguard : isInProgress (ExecutionStatus.executionComplete) = false := by decide
        constructor
        · simp only [executeStep, isInProgress]
          rfl
        · simp only [executeStep, isInProgress]
          rfl
      | false =>
        have hst : (executeStep st s res c).state = ⟨s.name, ExecutionStatus.executionInProgress⟩ := by
          simp only [executeStep, hip, if_true, hx, haH]
          rfl
        rw [hst]
        constructor
        · simp only [executeStep, isInProgress, if_true, hx, haH]
          rfl
        · simp only [executeStep, isInProgress, if_true, hx, haH]
          rfl
  · have hf : isInProgress s.status = false := by
      cases hv : isInProgress s.status
      · rfl
      · exact absurd hv hip
    have hst : executeStep st s res c = ⟨s, none, []⟩ := by
      simp only [executeStep, hf, Bool.false_eq_true, if_false]
    rw [hst]
    exact ⟨congrArg StepRun.state hst, congrArg StepRun.err hst⟩

theorem driveSteps_frame {strategy : Strategy} {c : KClient} {resFor : String → List KObject} :
    ∀ (steps : List Step) (sts : List StepStatus) (allH : Bool) (n : String),
      n ∉ steps.map Step.name →
      (∀ s h w x, driveStepsAux strategy c resFor steps sts allH = stepsOut.ok s h w x →
        getStepOfSteps n s = getStepOfSteps n sts) ∧
      (∀ s e w x, driveStepsAux strategy c resFor steps sts allH = stepsOut.fail s e w x →
        getStepOfSteps n s = getStepOfSteps n sts) := by
  intro steps
  induction steps with
  | nil =>
    intro sts allH n _
    constructor
    · intro s h w x heq; cases heq; rfl
    · intro s e w x heq; cases heq
  | cons sp rest ih =>
    intro sts allH n hn
    have hnsp : n ≠ sp.name := by
      intro hc
      exact hn (hc ▸ List.mem_cons_self sp.name _)
    have hnrest : n ∉ rest.map Step.name := by
      intro hc
      exact hn (List.mem_cons_of_mem _ hc)
    cases hcur : getStepOfSteps sp.name sts with
    | none =>
      constructor
      · intro s h w x heq; simp only [driveStepsAux, hcur] at heq; cases heq
      · intro s e w x heq; simp only [driveStepsAux, hcur] at heq; cases heq
    | some cur =>
      have hvname : (executeStep sp cur (resFor sp.name) c).state.name = sp.name := by
        rw [executeStep_state_name]
        exact getStepOfSteps_name hcur
      have hfr1 : getStepOfSteps n
          (setStepInSteps sp.name (executeStep sp cur (resFor sp.name) c).state sts)
          = getStepOfSteps n sts := setStepInSteps_frame hvname hnsp sts
      constructor
      · intro s h w x heq
        simp only [driveStepsAux, hcur] at heq
        cases herr : (executeStep sp cur (resFor sp.name) c).err with
        | some e => rw [herr] at heq; cases heq
        | none =>
          rw [herr] at heq
          by_cases hfin : isFinished (executeStep sp cur (resFor sp.name) c).state.status = true
          · rw [if_pos hfin] at heq
            cases hrec : driveStepsAux strategy c resFor rest
                (setStepInSteps sp.name (executeStep sp cur (resFor sp.name) c).state sts) allH with
            | ok s2 h2 w2 x2 =>
              rw [hrec] at heq
              cases heq
              rw [(ih _ allH n hnrest).1 _ _ _ _ hrec, hfr1]
            | fail s2 e2 w2 x2 => rw [hrec] at heq; cases heq
            | crash => rw [hrec] at heq; cases heq
          · rw [if_neg hfin] at heq
            cases strategy with
            | serial => cases heq; exact hfr1
            | parallel =>
              cases hrec : driveStepsAux Strategy.parallel c resFor rest
                  (setStepInSteps sp.name (executeStep sp cur (resFor sp.name) c).state sts) false with
              | ok s2 h2 w2 x2 =>
                rw [hrec] at heq
                cases heq
                rw [(ih _ false n hnrest).1 _ _ _ _ hrec, hfr1]
              | fail s2 e2 w2 x2 => rw [hrec] at heq; cases heq
              | crash => rw [hrec] at heq; cases heq
      · intro s e w x heq
        simp only [driveStepsAux, hcur] at heq
        cases herr : (executeStep sp cur (resFor sp.name) c).err with
        | some e0 =>
          rw [herr] at heq
          cases heq
          rw [@setStepInSteps_frame sp.name n ⟨sp.name, ExecutionStatus.errorStatus⟩ rfl hnsp, hfr1]
        | none =>
          rw [herr] at heq
          by_cases hfin : isFinished (executeStep sp cur (resFor sp.name) c).state.status = true
          · rw [if_pos hfin] at heq
            cases hrec : driveStepsAux strategy c resFor rest
                (setStepInSteps sp.name (executeStep sp cur (resFor sp.name) c).state sts) allH with
            | ok s2 h2 w2 x2 => rw [hrec] at heq; cases heq
            | fail s2 e2 w2 x2 =>
              rw [hrec] at heq
              cases heq
              rw [(ih _ allH n hnrest).2 _ _ _ _ hrec, hfr1]
            | crash => rw [hrec] at heq; cases heq
          · rw [if_neg hfin] at heq
            cases strategy with
            | serial => cases heq
            | parallel =>
              cases hrec : driveStepsAux Strategy.parallel c resFor rest
                  (setStepInSteps sp.name (executeStep sp cur (resFor sp.name) c).state sts) false with
              | ok s2 h2 w2 x2 => rw [hrec] at heq; cases heq
              | fail s2 e2 w2 x2 =>
                rw [hrec] at heq
                cases heq
                rw [(ih _ false n hnrest).2 _ _ _ _ hrec, hfr1]
              | crash => rw [hrec] at heq; cases heq

theorem driveSteps_idem {strategy : Strategy} {c : KClient} {resFor : String → List KObject} :
    ∀ (steps : List Step) (sts : List StepStatus) (acc : Bool),
      (steps.map Step.name).Nodup →
      (∀ s h w x, driveStepsAux strategy c resFor steps sts acc = stepsOut.ok s h w x →
        ∃ w2 x2, driveStepsAux strategy c resFor steps s acc = stepsOut.ok s h w2 x2) ∧
      (∀ s e w x, driveStepsAux strategy c resFor steps sts acc = stepsOut.fail s e w x →
        ∃ w2 x2, driveStepsAux strategy c resFor steps s acc = stepsOut.fail s e w2 x2) := by
  intro steps
  induction steps with
  | nil =>
    intro sts acc _
    constructor
    · intro s h w x heq
      cases heq
      exact ⟨[], [], rfl⟩
    · intro s e w x heq
      cases heq
  | cons sp rest ih =>
    intro sts acc hnd
    have hnsp : sp.name ∉ rest.map Step.name := by
      simp only [List.map_cons, List.nodup_cons] at hnd
      exact hnd.1
    have hndrest : (rest.map Step.name).Nodup := by
      simp only [List.map_cons, List.nodup_cons] at hnd
      exact hnd.2
    cases hcur : getStepOfSteps sp.name sts with
    | none =>
      constructor
      · intro s h w x heq; simp only [driveStepsAux, hcur] at heq; cases heq
      · intro s e w x heq; simp only [driveStepsAux, hcur] at heq; cases heq
    | some cur =>
      have hvname : (executeStep sp cur (resFor sp.name) c).state.name = sp.name := by
        rw [executeStep_state_name]
        exact getStepOfSteps_name hcur
      have hps : (getStepOfSteps sp.name sts).isSome = true := by rw [hcur]; rfl
      have hlk1 : getStepOfSteps sp.name
          (setStepInSteps sp.name (executeStep sp cur (resFor sp.name) c).state sts)
          = some (executeStep sp cur (resFor sp.name) c).state :=
        setStepInSteps_get hvname sts hps
      constructor
      · intro s h w x heq
        simp only [driveStepsAux, hcur] at heq
        cases herr : (executeStep sp cur (resFor sp.name) c).err with
        | some e => rw [herr] at heq; cases heq
        | none =>
          rw [herr] at heq
          obtain ⟨hist, hierr⟩ := executeStep_idem herr
          by_cases hfin : isFinished (executeStep sp cur (resFor sp.name) c).state.status = true
          · rw [if_pos hfin] at heq
            cases hrec : driveStepsAux strategy c resFor rest
                (setStepInSteps sp.name (executeStep sp cur (resFor sp.name) c).state sts) acc with
            | ok s2 h2 w2 x2 =>
              rw [hrec] at heq
              cases heq
              have hlk2 : getStepOfSteps sp.name s
                  = some (executeStep sp cur (resFor sp.name) c).state := by
                rw [(driveSteps_frame rest _ acc sp.name hnsp).1 _ _ _ _ hrec]
                exact hlk1
              obtain ⟨w3, x3, hrec2⟩ := (ih _ acc hndrest).1 _ _ _ _ hrec
              refine ⟨(executeStep sp (executeStep sp cur (resFor sp.name) c).state
                (resFor sp.name) c).writes ++ w3, sp.name :: x3, ?_⟩
              simp only [driveStepsAux, hlk2, hierr, hist, hfin, if_true,
                setStepInSteps_id s hlk2, hrec2]
            | fail s2 e2 w2 x2 => rw [hrec] at heq; cases heq
            | crash => rw [hrec] at heq; cases heq
          · have hfinf : isFinished (executeStep sp cur (resFor sp.name) c).state.status = false := by
              cases hv : isFinished (executeStep sp cur (resFor sp.name) c).state.status
              · rfl
              · exact absurd hv hfin
            simp only [hfinf, Bool.false_eq_true, if_false] at heq
            cases strategy with
            | serial =>
              cases heq
              refine ⟨(executeStep sp (executeStep sp cur (resFor sp.name) c).state
                (resFor sp.name) c).writes, [sp.name], ?_⟩
              simp only [driveStepsAux, hlk1, hierr, hist, hfinf, Bool.false_eq_true, if_false,
                setStepInSteps_twice hvname sts]
            | parallel =>
              cases hrec : driveStepsAux Strategy.parallel c resFor rest
                  (setStepInSteps sp.name (executeStep sp cur (resFor sp.name) c).state sts) false with
              | ok s2 h2 w2 x2 =>
                rw [hrec] at heq
                cases heq
                have hlk2 : getStepOfSteps sp.name s
                    = some (executeStep sp cur (resFor sp.name) c).state := by
                  rw [(driveSteps_frame rest _ false sp.name hnsp).1 _ _ _ _ hrec]
                  exact hlk1
                obtain ⟨w3, x3, hrec2⟩ := (ih _ false hndrest).1 _ _ _ _ hrec
                refine ⟨(executeStep sp (executeStep sp cur (resFor sp.name) c).state
                  (resFor sp.name) c).writes ++ w3, sp.name :: x3, ?_⟩
                simp only [driveStepsAux, hlk2, hierr, hist, hfinf, Bool.false_eq_true, if_false,
                  setStepInSteps_id s hlk2, hrec2]
              | fail s2 e2 w2 x2 => rw [hrec] at heq; cases heq
              | crash => rw [hrec] at heq; cases heq
      · intro s e w x heq
        simp only [driveStepsAux, hcur] at heq
        cases herr : (executeStep sp cur (resFor sp.name) c).err with
        | some e0 =>
          rw [herr] at heq
          cases heq
          have hipc : isInProgress cur.status = true := executeStep_err_some_guard herr
          have hlkE : getStepOfSteps sp.name
              (setStepInSteps sp.name ⟨sp.name, ExecutionStatus.errorStatus⟩
                (setStepInSteps sp.name (executeStep sp cur (resFor sp.name) c).state sts))
              = some ⟨sp.name, ExecutionStatus.errorStatus⟩ := by
            refine @setStepInSteps_get sp.name ⟨sp.name, ExecutionStatus.errorStatus⟩ rfl _ ?_
            rw [hlk1]
            rfl
          have hindep : executeStep sp (⟨sp.name, ExecutionStatus.errorStatus⟩ : StepStatus)
              (resFor sp.name) c = executeStep sp cur (resFor sp.name) c := by
            refine executeStep_indep ?_ rfl hipc
            exact (getStepOfSteps_name hcur).symm
          refine ⟨(executeStep sp cur (resFor sp.name) c).writes, [sp.name], ?_⟩
          simp only [driveStepsAux, hlkE, hindep, herr]
          rw [setStepInSteps_twice hvname,
            setStepInSteps_twice (show (⟨sp.name, ExecutionStatus.errorStatus⟩ : StepStatus).name
              = sp.name from rfl)]
        | none =>
          rw [herr] at heq
          obtain ⟨hist, hierr⟩ := executeStep_idem herr
          by_cases hfin : isFinished (executeStep sp cur (resFor sp.name) c).state.status = true
          · rw [if_pos hfin] at heq
            cases hrec : driveStepsAux strategy c resFor rest
                (setStepInSteps sp.name (executeStep sp cur (resFor sp.name) c).state sts) acc with
            | ok s2 h2 w2 x2 => rw [hrec] at heq; cases heq
            | fail s2 e2 w2 x2 =>
              rw [hrec] at heq
              cases heq
              have hlk2 : getStepOfSteps sp.name s
                  = some (executeStep sp cur (resFor sp.name) c).state := by
                rw [(driveSteps_frame rest _ acc sp.name hnsp).2 _ _ _ _ hrec]
                exact hlk1
              obtain ⟨w3, x3, hrec2⟩ := (ih _ acc hndrest).2 _ _ _ _ hrec
              refine ⟨(executeStep sp (executeStep sp cur (resFor sp.name) c).state
                (resFor sp.name) c).writes ++ w3, sp.name :: x3, ?_⟩
              simp only [driveStepsAux, hlk2, hierr, hist, hfin, if_true,
                setStepInSteps_id s hlk2, hrec2]
            | crash => rw [hrec] at heq; cases heq
          · have hfinf : isFinished (executeStep sp cur (resFor sp.name) c).state.status = false := by
              cases hv : isFinished (executeStep sp cur (resFor sp.name) c).state.status
              · rfl
              · exact absurd hv hfin
            simp only [hfinf, Bool.false_eq_true, if_false] at heq
            cases strategy with
            | serial => cases heq
            | parallel =>
              cases hrec : driveStepsAux Strategy.parallel c resFor rest
                  (setStepInSteps sp.name (executeStep sp cur (resFor sp.name) c).state sts) false with
              | ok s2 h2 w2 x2 => rw [hrec] at heq; cases heq
              | fail s2 e2 w2 x2 =>
                rw [hrec] at heq
                cases heq
                have hlk2 : getStepOfSteps sp.name s
                    = some (executeStep sp cur (resFor sp.name) c).state := by
                  rw [(driveSteps_frame rest _ false sp.name hnsp).2 _ _ _ _ hrec]
                  exact hlk1
                obtain ⟨w3, x3, hrec2⟩ := (ih _ false hndrest).2 _ _ _ _ hrec
                refine ⟨(executeStep sp (executeStep sp cur (resFor sp.name) c).state
                  (resFor sp.name) c).writes ++ w3, sp.name :: x3, ?_⟩
                simp only [driveStepsAux, hlk2, hierr, hist, hfinf, Bool.false_eq_true, if_false,
                  setStepInSteps_id s hlk2, hrec2]
              | crash => rw [hrec] at heq; cases heq

theorem processPhase_finished_entry {ph : Phase} {pres : planResources} {c : KClient}
    {store : List PhaseStatus} {top : ExecutionStatus} {s : List PhaseStatus}
    {t : ExecutionStatus} {w : List WriteOp} {x : List (String × String)}
    (h : processPhase ph pres c store top = phaseOut.cont s t true w x) :
    ∃ cps, getPhaseFromStatus ph.name s = some cps ∧ isFinished cps.status = true := by
  unfold processPhase at h
  cases hcps : getPhaseFromStatus ph.name store with
  | none => simp only [hcps] at h; cases h
  | some cps =>
    simp only [hcps] at h
    have hcname : cps.name = ph.name := getPhaseFromStatus_name hcps
    have hpsome : (getPhaseFromStatus ph.name store).isSome = true := by rw [hcps]; rfl
    by_cases h1 : isFinished cps.status = true
    · rw [if_pos h1] at h
      cases h
      exact ⟨cps, hcps, h1⟩
    · rw [if_neg h1] at h
      by_cases h2 : isInProgress cps.status = true
      · rw [if_pos h2] at h
        cases hds : driveStepsAux ph.strategy c
            (fun stName => lookupStepResources (lookupPhaseResources pres ph.name) stName)
            ph.steps cps.steps true with
        | crash => rw [hds] at h; cases h
        | fail s2 e2 w2 x2 => rw [hds] at h; cases h
        | ok sts allH w2 x2 =>
          rw [hds] at h
          injection h with hs ht hf hw hx
          subst hs
          refine ⟨⟨cps.name, if allH = true then ExecutionStatus.executionComplete
            else ExecutionStatus.executionInProgress, sts⟩, ?_, hf⟩
          exact @setPhaseInStore_get ph.name ⟨cps.name, if allH = true
            then ExecutionStatus.executionComplete
            else ExecutionStatus.executionInProgress, sts⟩ hcname store hpsome
      · rw [if_neg h2] at h
        cases h

theorem processPhase_frame {ph : Phase} {pres : planResources} {c : KClient}
    {store : List PhaseStatus} {top : ExecutionStatus} {n : String} (hn : n ≠ ph.name) :
    (∀ s t f w x, processPhase ph pres c store top = phaseOut.cont s t f w x →
      getPhaseFromStatus n s = getPhaseFromStatus n store) ∧
    (∀ s t e w x, processPhase ph pres c store top = phaseOut.fail s t e w x →
      getPhaseFromStatus n s = getPhaseFromStatus n store) := by
  constructor
  · intro s t f w x h
    unfold processPhase at h
    cases hcps : getPhaseFromStatus ph.name store with
    | none => simp only [hcps] at h; cases h
    | some cps =>
      simp only [hcps] at h
      have hcname : cps.name = ph.name := getPhaseFromStatus_name hcps
      by_cases h1 : isFinished cps.status = true
      · rw [if_pos h1] at h; cases h; rfl
      · rw [if_neg h1] at h
        by_cases h2 : isInProgress cps.status = true
        · rw [if_pos h2] at h
          cases hds : driveStepsAux ph.strategy c
              (fun stName => lookupStepResources (lookupPhaseResources pres ph.name) stName)
              ph.steps cps.steps true with
          | crash => rw [hds] at h; cases h
          | fail s2 e2 w2 x2 => rw [hds] at h; cases h
          | ok sts allH w2 x2 =>
            rw [hds] at h
            injection h with hs ht hf hw hx
            subst hs
            exact @setPhaseInStore_frame ph.name n ⟨cps.name, if allH = true
              then ExecutionStatus.executionComplete
              else ExecutionStatus.executionInProgress, sts⟩ hcname hn store
        · rw [if_neg h2] at h; cases h; rfl
  · intro s t e w x h
    unfold processPhase at h
    cases hcps : getPhaseFromStatus ph.name store with
    | none => simp only [hcps] at h; cases h
    | some cps =>
      simp only [hcps] at h
      have hcname : cps.name = ph.name := getPhaseFromStatus_name hcps
      by_cases h1 : isFinished cps.status = true
      · rw [if_pos h1] at h; cases h
      · rw [if_neg h1] at h
        by_cases h2 : isInProgress cps.status = true
        · rw [if_pos h2] at h
          cases hds : driveStepsAux ph.strategy c
              (fun stName => lookupStepResources (lookupPhaseResources pres ph.name) stName)
              ph.steps cps.steps true with
          | crash => rw [hds] at h; cases h
          | ok sts allH w2 x2 => rw [hds] at h; cases h
          | fail sts e2 w2 x2 =>
            rw [hds] at h
            injection h with hs ht he hw hx
            subst hs
            exact @setPhaseInStore_frame ph.name n
              ⟨cps.name, ExecutionStatus.errorStatus, sts⟩ hcname hn store
        · rw [if_neg h2] at h; cases h

theorem processPhase_idem {ph : Phase} {pres : planResources} {c : KClient}
    (hnd : (ph.steps.map Step.name).Nodup) {store : List PhaseStatus} {top : ExecutionStatus} :
    (∀ s t f w x, processPhase ph pres c store top = phaseOut.cont s t f w x →
      (f = true → processPhase ph pres c s t = phaseOut.cont s t true [] []) ∧
      (f = false → ∃ w2 x2, processPhase ph pres c s t = phaseOut.cont s t false w2 x2)) ∧
    (∀ s t e w x, processPhase ph pres c store top = phaseOut.fail s t e w x →
      ∃ w2 x2, processPhase ph pres c s t = phaseOut.fail s t e w2 x2) := by
  constructor
  · intro s t f w x h
    unfold processPhase at h
    cases hcps : getPhaseFromStatus ph.name store with
    | none => simp only [hcps] at h; cases h
    | some cps =>
      simp only [hcps] at h
      have hcname : cps.name = ph.name := getPhaseFromStatus_name hcps
      have hpsome : (getPhaseFromStatus ph.name store).isSome = true := by rw [hcps]; rfl
      by_cases h1 : isFinished cps.status = true
      · rw [if_pos h1] at h
        cases h
        constructor
        · intro _
          simp only [processPhase, hcps, h1, if_true]
        · intro hff; cases hff
      · rw [if_neg h1] at h
        by_cases h2 : isInProgress cps.status = true
        · rw [if_pos h2] at h
          cases hds : driveStepsAux ph.strategy c
              (fun stName => lookupStepResources (lookupPhaseResources pres ph.name) stName)
              ph.steps cps.steps true with
          | crash => rw [hds] at h; cases h
          | fail s2 e2 w2 x2 => rw [hds] at h; cases h
          | ok sts allH w2 x2 =>
            simp only [hds] at h
            by_cases hall : allH = true
            · rw [if_pos hall] at h
              injection h with hs ht hf hw hx
              have hftrue : f = true := by rw [← hf]; rfl
              subst hs
              subst ht
              subst hftrue
              have hget2 : getPhaseFromStatus ph.name
                  (setPhaseInStore ph.name ⟨cps.name, ExecutionStatus.executionComplete, sts⟩ store)
                  = some ⟨cps.name, ExecutionStatus.executionComplete, sts⟩ :=
                @setPhaseInStore_get ph.name
                  ⟨cps.name, ExecutionStatus.executionComplete, sts⟩ hcname store hpsome
              constructor
              · intro _
                simp [processPhase, hget2, isFinished]
              · intro hff; cases hff
            · have hallf : allH = false := by
                cases hv : allH
                · rfl
                · exact absurd hv hall
              rw [hallf] at hds
              rw [if_neg hall] at h
              injection h with hs ht hf hw hx
              have hffalse : f = false := by rw [← hf]; rfl
              subst hs
              subst ht
              subst hffalse
              have hget2 : getPhaseFromStatus ph.name
                  (setPhaseInStore ph.name ⟨cps.name, ExecutionStatus.executionInProgress, sts⟩ store)
                  = some ⟨cps.name, ExecutionStatus.executionInProgress, sts⟩ :=
                @setPhaseInStore_get ph.name
                  ⟨cps.name, ExecutionStatus.executionInProgress, sts⟩ hcname store hpsome
              constructor
              · intro hff; cases hff
              · intro _
                obtain ⟨w3, x3, hds2⟩ := (driveSteps_idem ph.steps cps.steps true hnd).1 _ _ _ _ hds
                have hsid : setPhaseInStore ph.name
                    ⟨cps.name, ExecutionStatus.executionInProgress, sts⟩
                    (setPhaseInStore ph.name
                      ⟨cps.name, ExecutionStatus.executionInProgress, sts⟩ store)
                    = setPhaseInStore ph.name
                      ⟨cps.name, ExecutionStatus.executionInProgress, sts⟩ store :=
                  setPhaseInStore_id _ hget2
                refine ⟨w3, x3.map (fun s0 => (ph.name, s0)), ?_⟩
                simp [processPhase, hget2, hds2, hsid, isFinished, isInProgress]
        · rw [if_neg h2] at h
          cases h
          constructor
          · intro hff; cases hff
          · intro _
            refine ⟨[], [], ?_⟩
            simp only [processPhase, hcps]
            rw [if_neg h1, if_neg h2]
  · intro s t e w x h
    unfold processPhase at h
    cases hcps : getPhaseFromStatus ph.name store with
    | none => simp only [hcps] at h; cases h
    | some cps =>
      simp only [hcps] at h
      have hcname : cps.name = ph.name := getPhaseFromStatus_name hcps
      have hpsome : (getPhaseFromStatus ph.name store).isSome = true := by rw [hcps]; rfl
      by_cases h1 : isFinished cps.status = true
      · rw [if_pos h1] at h; cases h
      · rw [if_neg h1] at h
        by_cases h2 : isInProgress cps.status = true
        · rw [if_pos h2] at h
          cases hds : driveStepsAux ph.strategy c
              (fun stName => lookupStepResources (lookupPhaseResources pres ph.name) stName)
              ph.steps cps.steps true with
          | crash => rw [hds] at h; cases h
          | ok sts allH w2 x2 => rw [hds] at h; cases h
          | fail sts e2 w2 x2 =>
            rw [hds] at h
            injection h with hs ht he hw hx
            subst hs
            subst ht
            subst he
            have hget2 : getPhaseFromStatus ph.name
                (setPhaseInStore ph.name ⟨cps.name, ExecutionStatus.errorStatus, sts⟩ store)
                = some ⟨cps.name, ExecutionStatus.errorStatus, sts⟩ :=
              @setPhaseInStore_get ph.name
                ⟨cps.name, ExecutionStatus.errorStatus, sts⟩ hcname store hpsome
            obtain ⟨w3, x3, hds2⟩ := (driveSteps_idem ph.steps cps.steps true hnd).2 _ _ _ _ hds
            have hsid : setPhaseInStore ph.name
                ⟨cps.name, ExecutionStatus.errorStatus, sts⟩
                (setPhaseInStore ph.name ⟨cps.name, ExecutionStatus.errorStatus, sts⟩ store)
                = setPhaseInStore ph.name ⟨cps.name, ExecutionStatus.errorStatus, sts⟩ store :=
              setPhaseInStore_id _ hget2
            refine ⟨w3, x3.map (fun s0 => (ph.name, s0)), ?_⟩
            simp [processPhase, hget2, hds2, hsid, isFinished, isInProgress]
        · rw [if_neg h2] at h; cases h

theorem drivePhases_frame {pres : planResources} {c : KClient} :
    ∀ (phases : List Phase) (store : List PhaseStatus) (top : ExecutionStatus) (n : String),
      n ∉ phases.map Phase.name →
      (∀ s t a w x, drivePhases pres c phases store top = driveOut.done s t a w x →
        getPhaseFromStatus n s = getPhaseFromStatus n store) ∧
      (∀ s t e w x, drivePhases pres c phases store top = driveOut.fail s t e w x →
        getPhaseFromStatus n s = getPhaseFromStatus n store) := by
  intro phases
  induction phases with
  | nil =>
    intro store top n _
    constructor
    · intro s t a w x heq; cases heq; rfl
    · intro s t e w x heq; cases heq
  | cons ph rest ih =>
    intro store top n hn
    have hnph : n ≠ ph.name := by
      intro hc
      exact hn (hc ▸ List.mem_cons_self ph.name _)
    have hnrest : n ∉ rest.map Phase.name := by
      intro hc
      exact hn (List.mem_cons_of_mem _ hc)
    constructor
    · intro s t a w x heq
      simp only [drivePhases] at heq
      cases hpp : processPhase ph pres c store top with
      | crash => simp only [hpp] at heq; cases heq
      | fail s2 t2 e2 w2 x2 => simp only [hpp] at heq; cases heq
      | cont s2 t2 f2 w2 x2 =>
        simp only [hpp] at heq
        by_cases hf : f2 = true
        · rw [if_pos hf] at heq
          cases hrec : drivePhases pres c rest s2 t2 with
          | done s3 t3 a3 w3 x3 =>
            rw [hrec] at heq
            cases heq
            rw [(ih s2 t2 n hnrest).1 _ _ _ _ _ hrec]
            exact (processPhase_frame hnph).1 _ _ _ _ _ hpp
          | fail s3 t3 e3 w3 x3 => rw [hrec] at heq; cases heq
          | crash => rw [hrec] at heq; cases heq
        · rw [if_neg hf] at heq
          cases heq
          exact (processPhase_frame hnph).1 _ _ _ _ _ hpp
    · intro s t e w x heq
      simp only [drivePhases] at heq
      cases hpp : processPhase ph pres c store top with
      | crash => simp only [hpp] at heq; cases heq
      | fail s2 t2 e2 w2 x2 =>
        simp only [hpp] at heq
        cases heq
        exact (processPhase_frame hnph).2 _ _ _ _ _ hpp
      | cont s2 t2 f2 w2 x2 =>
        simp only [hpp] at heq
        by_cases hf : f2 = true
        · rw [if_pos hf] at heq
          cases hrec : drivePhases pres c rest s2 t2 with
          | done s3 t3 a3 w3 x3 => rw [hrec] at heq; cases heq
          | fail s3 t3 e3 w3 x3 =>
            rw [hrec] at heq
            cases heq
            rw [(ih s2 t2 n hnrest).2 _ _ _ _ _ hrec]
            exact (processPhase_frame hnph).1 _ _ _ _ _ hpp
          | crash => rw [hrec] at heq; cases heq
        · rw [if_neg hf] at heq; cases heq

theorem drivePhases_idem {pres : planResources} {c : KClient} :
    ∀ (phases : List Phase),
      (phases.map Phase.name).Nodup →
      (∀ ph ∈ phases, (ph.steps.map Step.name).Nodup) →
      ∀ (store : List PhaseStatus) (top : ExecutionStatus),
      (∀ s t w x, drivePhases pres c phases store top = driveOut.done s t false w x →
        ∃ w2 x2, drivePhases pres c phases s t = driveOut.done s t false w2 x2) ∧
      (∀ s t e w x, drivePhases pres c phases store top = driveOut.fail s t e w x →
        ∃ w2 x2, drivePhases pres c phases s t = driveOut.fail s t e w2 x2) := by
  intro phases
  induction phases with
  | nil =>
    intro _ _ store top
    constructor
    · intro s t w x heq
      cases heq
    · intro s t e w x heq
      cases heq
  | cons ph rest ih =>
    intro hnd hsteps store top
    have hphnd : (ph.steps.map Step.name).Nodup := hsteps ph (List.mem_cons_self ph rest)
    have hnph : ph.name ∉ rest.map Phase.name := by
      simp only [List.map_cons, List.nodup_cons] at hnd
      exact hnd.1
    have hndrest : (rest.map Phase.name).Nodup := by
      simp only [List.map_cons, List.nodup_cons] at hnd
      exact hnd.2
    have hstepsrest : ∀ p ∈ rest, (p.steps.map Step.name).Nodup :=
      fun p hp => hsteps p (List.mem_cons_of_mem ph hp)
    constructor
    · intro s t w x heq
      simp only [drivePhases] at heq
      cases hpp : processPhase ph pres c store top with
      | crash => simp only [hpp] at heq; cases heq
      | fail s2 t2 e2 w2 x2 => simp only [hpp] at heq; cases heq
      | cont s2 t2 f2 w2 x2 =>
        simp only [hpp] at heq
        by_cases hf : f2 = true
        · rw [if_pos hf] at heq
          cases hrec : drivePhases pres c rest s2 t2 with
          | done s3 t3 a3 w3 x3 =>
            rw [hrec] at heq
            injection heq with hs3 ht3 ha3 hw3 hx3
            rw [← hs3, ← ht3]
            rw [ha3] at hrec
            rw [hf] at hpp
            obtain ⟨cps, hcpss1, hcpsfin⟩ := processPhase_finished_entry hpp
            have hframe : getPhaseFromStatus ph.name s3 = getPhaseFromStatus ph.name s2 :=
              (drivePhases_frame rest s2 t2 ph.name hnph).1 _ _ _ _ _ hrec
            have hskip : processPhase ph pres c s3 t3 = phaseOut.cont s3 t3 true [] [] := by
              simp [processPhase, hframe, hcpss1, hcpsfin]
            obtain ⟨w4, x4, hrec2⟩ := (ih hndrest hstepsrest s2 t2).1 _ _ _ _ hrec
            refine ⟨w4, x4, ?_⟩
            simp only [drivePhases, hskip, if_pos, hrec2]
            rfl
          | fail s3 t3 e3 w3 x3 => rw [hrec] at heq; cases heq
          | crash => rw [hrec] at heq; cases heq
        · rw [if_neg hf] at heq
          injection heq with hs2 ht2 hf2 hw2 hx2
          rw [← hs2, ← ht2]
          have hffalse : f2 = false := by
            cases hv : f2
            · rfl
            · exact absurd hv hf
          rw [hffalse] at hpp
          obtain ⟨w4, x4, hpp2⟩ := ((processPhase_idem hphnd).1 _ _ _ _ _ hpp).2 rfl
          refine ⟨w4, x4, ?_⟩
          simp only [drivePhases, hpp2, Bool.false_eq_true, if_false]
    · intro s t e w x heq
      simp only [drivePhases] at heq
      cases hpp : processPhase ph pres c store top with
      | crash => simp only [hpp] at heq; cases heq
      | fail s2 t2 e2 w2 x2 =>
        simp only [hpp] at heq
        injection heq with hs2 ht2 he2 hw2 hx2
        rw [← hs2, ← ht2, ← he2]
        obtain ⟨w4, x4, hpp2⟩ := (processPhase_idem hphnd).2 _ _ _ _ _ hpp
        refine ⟨w4, x4, ?_⟩
        simp only [drivePhases, hpp2]
      | cont s2 t2 f2 w2 x2 =>
        simp only [hpp] at heq
        by_cases hf : f2 = true
        · rw [if_pos hf] at heq
          cases hrec : drivePhases pres c rest s2 t2 with
          | done s3 t3 a3 w3 x3 => rw [hrec] at heq; cases heq
          | fail s3 t3 e3 w3 x3 =>
            rw [hrec] at heq
            injection heq with hs3 ht3 he3 hw3 hx3
            rw [← hs3, ← ht3, ← he3]
            rw [hf] at hpp
            obtain ⟨cps, hcpss1, hcpsfin⟩ := processPhase_finished_entry hpp
            have hframe : getPhaseFromStatus ph.name s3 = getPhaseFromStatus ph.name s2 :=
              (drivePhases_frame rest s2 t2 ph.name hnph).2 _ _ _ _ _ hrec
            have hskip : processPhase ph pres c s3 t3 = phaseOut.cont s3 t3 true [] [] := by
              simp [processPhase, hframe, hcpss1, hcpsfin]
            obtain ⟨w4, x4, hrec2⟩ := (ih hndrest hstepsrest s2 t2).2 _ _ _ _ _ hrec
            refine ⟨w4, x4, ?_⟩
            simp only [drivePhases, hskip, if_pos, hrec2]
            rfl
          | crash => rw [hrec] at heq; cases heq
        · rw [if_neg hf] at heq; cases heq

theorem prepSteps_ok_indep {plan plan2 : activePlan} {meta : executionMetadata}
    {renderer : kubernetesObjectEnhancer} {engine : kudoEngine} {ph : Phase}
    (hta : plan2.tasks = plan.tasks) (htm : plan2.templates = plan.templates)
    (hp : plan2.params = plan.params) (hn : plan2.name = plan.name) :
    ∀ (sts : List Step) (j : Nat) (acc : List (String × List KObject))
      (store store2 : List PhaseStatus) (res : List (String × List KObject)),
      prepSteps plan meta renderer engine ph store j sts acc = prepStepsOut.ok res →
      prepSteps plan2 meta renderer engine ph store2 j sts acc = prepStepsOut.ok res := by
  intro sts
  induction sts with
  | nil =>
    intro j acc store store2 res h
    cases h
    rfl
  | cons st rest ih =>
    intro j acc store store2 res h
    cases hrt : runStepTasks plan.tasks plan.templates renderer engine
        ⟨meta.operatorName, meta.instanceName, meta.instanceNamespace, plan.params,
          plan.name, ph.name, st.name, toString j⟩
        ⟨meta.instanceName, meta.instanceNamespace, meta.operatorName,
          meta.operatorVersion, plan.name, ph.name, st.name⟩
        meta.resourcesOwner st.tasks with
    | ok objs =>
      simp only [prepSteps, hrt] at h
      have hrt2 : runStepTasks plan2.tasks plan2.templates renderer engine
          ⟨meta.operatorName, meta.instanceName, meta.instanceNamespace, plan2.params,
            plan2.name, ph.name, st.name, toString j⟩
          ⟨meta.instanceName, meta.instanceNamespace, meta.operatorName,
            meta.operatorVersion, plan2.name, ph.name, st.name⟩
          meta.resourcesOwner st.tasks = taskOut.ok objs := by
        rw [hta, htm, hp, hn]
        exact hrt
      simp only [prepSteps, hrt2]
      exact ih (j + 1) (insertReplace st.name objs acc) store store2 res h
    | missingTask =>
      simp only [prepSteps, hrt] at h
      cases hms : markStatuses ph.name st.name ExecutionStatus.errorStatus store with
      | some s2 => simp only [hms] at h; cases h
      | none => simp only [hms] at h; cases h
    | enhanceFail =>
      simp only [prepSteps, hrt] at h
      cases hms : markStatuses ph.name st.name ExecutionStatus.errorStatus store with
      | some s2 => simp only [hms] at h; cases h
      | none => simp only [hms] at h; cases h
    | missingTemplate =>
      simp only [prepSteps, hrt] at h
      cases hms : markStatuses ph.name st.name ExecutionStatus.executionFatalError store with
      | some s2 => simp only [hms] at h; cases h
      | none => simp only [hms] at h; cases h
    | renderFail =>
      simp only [prepSteps, hrt] at h
      cases hms : markStatuses ph.name st.name ExecutionStatus.executionFatalError store with
      | some s2 => simp only [hms] at h; cases h
      | none => simp only [hms] at h; cases h

theorem prepPhases_ok_indep {plan plan2 : activePlan} {meta : executionMetadata}
    {renderer : kubernetesObjectEnhancer} {engine : kudoEngine}
    (hta : plan2.tasks = plan.tasks) (htm : plan2.templates = plan.templates)
    (hp : plan2.params = plan.params) (hn : plan2.name = plan.name) :
    ∀ (phases : List Phase) (acc : List (String × phaseResources))
      (store store0 store2 : List PhaseStatus) (pres : planResources),
      prepPhases plan meta renderer engine store phases acc = prepOut.ok pres store0 →
      prepPhases plan2 meta renderer engine store2 phases acc = prepOut.ok pres store2 := by
  intro phases
  induction phases with
  | nil =>
    intro acc store store0 store2 pres h
    cases h
    rfl
  | cons ph rest ih =>
    intro acc store store0 store2 pres h
    cases hps : prepSteps plan meta renderer engine ph store 0 ph.steps [] with
    | ok res =>
      simp only [prepPhases, hps] at h
      have hps2 : prepSteps plan2 meta renderer engine ph store2 0 ph.steps [] = prepStepsOut.ok res :=
        prepSteps_ok_indep hta htm hp hn ph.steps 0 [] store store2 res hps
      simp only [prepPhases, hps2]
      exact ih (insertReplace ph.name ⟨res⟩ acc) store store0 store2 pres h
    | fail f s2 => simp only [prepPhases, hps] at h; cases h
    | crash => simp only [prepPhases, hps] at h; cases h

theorem executePlan_nonterminal (plan : activePlan) (meta : executionMetadata) (c : KClient)
    (renderer : kubernetesObjectEnhancer) (engine : kudoEngine)
    (hterm : IsTerminal plan.planStatus.status = false) :
    executePlan plan meta c renderer engine =
      match prepareKubeResources plan meta renderer engine with
      | prepOut.crash => none
      | prepOut.fail f store =>
        some ⟨⟨ExecutionStatus.executionFatalError, store⟩, ⟨plan.planStatus.status, store⟩,
          some (EngineError.execError f), [], []⟩
      | prepOut.ok pres store =>
        match drivePhases pres c plan.spec.phases store plan.planStatus.status with
        | driveOut.crash => none
        | driveOut.fail s t e w x =>
          some ⟨⟨t, s⟩, ⟨plan.planStatus.status, s⟩, some (EngineError.apiError e), w, x⟩
        | driveOut.done s t allC w x =>
          some ⟨⟨if allC then ExecutionStatus.executionComplete else t, s⟩,
            ⟨plan.planStatus.status, s⟩, none, w, x⟩ := by
  have hterm2 : ¬(IsTerminal plan.planStatus.status = true) := by simp [hterm]
  unfold executePlan
  rw [if_neg hterm2]
  rfl

/-- C8: with an unchanged plan spec, task/template catalogs, cluster
client, renderer and template engine, re-running `executePlan` on the
status the first tick returned yields a tick whose status is identical to
the first tick's, and every phase marked Complete after the first tick is
still present unchanged after the second. -/
theorem c8_idempotent_tick (plan : activePlan) (meta : executionMetadata)
    (c : KClient) (renderer : kubernetesObjectEnhancer) (engine : kudoEngine) (tk1 : Tick)
    (hspec : wfSpec plan.spec)
    (h1 : executePlan plan meta c renderer engine = some tk1) :
    ∃ tk2, executePlan {plan with planStatus := tk1.newStatus} meta c renderer engine = some tk2 ∧
      tk2.newStatus = tk1.newStatus ∧
      ∀ p ∈ tk1.newStatus.phases, p.status = ExecutionStatus.executionComplete →
        p ∈ tk2.newStatus.phases := by
  cases hterm : IsTerminal plan.planStatus.status with
  | true =>
    have htk : tk1 = ⟨plan.planStatus, plan.planStatus, none, [], []⟩ := by
      unfold executePlan at h1
      rw [if_pos hterm] at h1
      exact (Option.some.inj h1).symm
    refine ⟨tk1, ?_, rfl, fun p hp _ => hp⟩
    rw [htk] at h1 ⊢
    exact h1
  | false =>
    have hterm2 : ¬(IsTerminal plan.planStatus.status = true) := by simp [hterm]
    unfold executePlan at h1
    rw [if_neg hterm2] at h1
    cases hprep : prepareKubeResources plan meta renderer engine with
    | crash => simp only [hprep] at h1; cases h1
    | fail f store =>
      simp only [hprep] at h1
      have htk : tk1 = ⟨⟨ExecutionStatus.executionFatalError, store⟩,
          ⟨plan.planStatus.status, store⟩, some (EngineError.execError f), [], []⟩ :=
        (Option.some.inj h1).symm
      refine ⟨⟨⟨ExecutionStatus.executionFatalError, store⟩,
        ⟨ExecutionStatus.executionFatalError, store⟩, none, [], []⟩, ?_, ?_, ?_⟩
      · rw [htk]
        rfl
      · rw [htk]
      · rw [htk]
        intro p hp _
        exact hp
    | ok pres store =>
      simp only [hprep] at h1
      have hpp : prepPhases plan meta renderer engine plan.planStatus.phases
          plan.spec.phases [] = prepOut.ok pres store := hprep
      have hstore : store = plan.planStatus.phases := prepPhases_ok_store hpp
      subst hstore
      cases hdrive : drivePhases pres c plan.spec.phases plan.planStatus.phases
          plan.planStatus.status with
      | crash => simp only [hdrive] at h1; cases h1
      | fail s t e w x =>
        simp only [hdrive] at h1
        have htk : tk1 = ⟨⟨t, s⟩, ⟨plan.planStatus.status, s⟩,
            some (EngineError.apiError e), w, x⟩ := (Option.some.inj h1).symm
        have htop := ((drivePhases_props plan.spec.phases plan.planStatus.phases
          plan.planStatus.status).2 _ _ _ _ _ hdrive).1
        have htermt : IsTerminal t = false := by
          rcases htop with h | h
          · rw [h]; exact hterm
          · rw [h]; rfl
        obtain ⟨w2, x2, hdrive2⟩ := (drivePhases_idem plan.spec.phases hspec.1 hspec.2
          plan.planStatus.phases plan.planStatus.status).2 _ _ _ _ _ hdrive
        have hprep2 : prepareKubeResources ({plan with planStatus := ⟨t, s⟩} : activePlan)
            meta renderer engine = prepOut.ok pres s :=
          @prepPhases_ok_indep plan {plan with planStatus := ⟨t, s⟩} meta renderer engine
            rfl rfl rfl rfl plan.spec.phases [] plan.planStatus.phases plan.planStatus.phases
            s pres hpp
        have hdrive2w : drivePhases pres c
            (({plan with planStatus := ⟨t, s⟩} : activePlan).spec.phases) s
            (({plan with planStatus := ⟨t, s⟩} : activePlan).planStatus.status) =
            driveOut.fail s t e w2 x2 := hdrive2
        refine ⟨⟨⟨t, s⟩, ⟨t, s⟩, some (EngineError.apiError e), w2, x2⟩, ?_, ?_, ?_⟩
        · rw [htk]
          show executePlan ({plan with planStatus := ⟨t, s⟩} : activePlan)
            meta c renderer engine = _
          rw [executePlan_nonterminal ({plan with planStatus := ⟨t, s⟩} : activePlan)
            meta c renderer engine
            (show IsTerminal (({plan with planStatus := ⟨t, s⟩} : activePlan).planStatus.status)
              = false from htermt)]
          simp only [hprep2, hdrive2w]
        · rw [htk]
        · rw [htk]
          intro p hp _
          exact hp
      | done s t allC w x =>
        simp only [hdrive] at h1
        cases allC with
        | true =>
          have htk : tk1 = ⟨⟨ExecutionStatus.executionComplete, s⟩,
              ⟨plan.planStatus.status, s⟩, none, w, x⟩ := (Option.some.inj h1).symm
          refine ⟨⟨⟨ExecutionStatus.executionComplete, s⟩,
            ⟨ExecutionStatus.executionComplete, s⟩, none, [], []⟩, ?_, ?_, ?_⟩
          · rw [htk]
            rfl
          · rw [htk]
          · rw [htk]
            intro p hp _
            exact hp
        | false =>
          have htk : tk1 = ⟨⟨t, s⟩, ⟨plan.planStatus.status, s⟩, none, w, x⟩ :=
            (Option.some.inj h1).symm
          have htop := ((drivePhases_props plan.spec.phases plan.planStatus.phases
            plan.planStatus.status).1 _ _ _ _ _ hdrive).1
          have htermt : IsTerminal t = false := by
            rcases htop with h | h
            · rw [h]; exact hterm
            · rw [h]; rfl
          obtain ⟨w2, x2, hdrive2⟩ := (drivePhases_idem plan.spec.phases hspec.1 hspec.2
            plan.planStatus.phases plan.planStatus.status).1 _ _ _ _ hdrive
          have hprep2 : prepareKubeResources ({plan with planStatus := ⟨t, s⟩} : activePlan)
              meta renderer engine = prepOut.ok pres s :=
            @prepPhases_ok_indep plan {plan with planStatus := ⟨t, s⟩} meta renderer engine
              rfl rfl rfl rfl plan.spec.phases [] plan.planStatus.phases plan.planStatus.phases
              s pres hpp
          have hdrive2w : drivePhases pres c
              (({plan with planStatus := ⟨t, s⟩} : activePlan).spec.phases) s
              (({plan with planStatus := ⟨t, s⟩} : activePlan).planStatus.status) =
              driveOut.done s t false w2 x2 := hdrive2
          refine ⟨⟨⟨t, s⟩, ⟨t, s⟩, none, w2, x2⟩, ?_, ?_, ?_⟩
          · rw [htk]
            show executePlan ({plan with planStatus := ⟨t, s⟩} : activePlan)
              meta c renderer engine = _
            rw [executePlan_nonterminal ({plan with planStatus := ⟨t, s⟩} : activePlan)
              meta c renderer engine
              (show IsTerminal (({plan with planStatus := ⟨t, s⟩} : activePlan).planStatus.status)
                = false from htermt)]
            simp only [hprep2, hdrive2w]
            rfl
          · rw [htk]
          · rw [htk]
            intro p hp _
            exact hp

/-- C8 witness: a concrete one-phase one-step plan whose first tick
completes the step; the second tick on the returned status reproduces the
same status. -/
theorem c8_idempotent_tick_witness :
    wfSpec c3bPlan.spec ∧
    ∃ tk2, executePlan {c3bPlan with planStatus := c8Tk1.newStatus}
        wMeta wClientTriv wEnhancer wEngine = some tk2 ∧
      tk2.newStatus = c8Tk1.newStatus ∧
      ∀ p ∈ c8Tk1.newStatus.phases, p.status = ExecutionStatus.executionComplete →
        p ∈ tk2.newStatus.phases :=
  ⟨by decide, c8_idempotent_tick c3bPlan wMeta wClientTriv wEnhancer wEngine c8Tk1
    (by decide) rfl⟩
